import Mathlib

/-!
# FIFOHashMap: a shallow embedding of `FifoHashMap.hpp`

`FIFOHashMap<K, V, N>` is an `std::unordered_map<K, FIFOHashMapCell<K,V>>` whose
cells are additionally threaded on an intrusive doubly linked list
(`FIFOHashMapQueue`) that records insertion order.

Memory model used by the embedding.

* A cell pointer `FIFOHashMapCell<K,V>*` is a `Ptr = Option Nat`; `none` is
  `nullptr` and `some a` is the address `a`.
* `heap` lists the nodes ever allocated by the table, address `a` being index
  `a`: `some c` while the node holds the cell `c`, `none` once `m_map.erase` has
  destroyed and released it.  `m_map.emplace` allocates the next address;
  addresses are not reused.
* Dereferencing `nullptr`, an address that was never allocated, or the address
  of a released node has no defined result: the operation returns `none`.
  `erase(pos)` calls `m_map.erase` first and then reads `pos.m_pCurrCell`
  (`removeCell`, the `m_next` test, `++pos`), so those reads are reads of a
  released node.
* `size_t` is 64 bit wide: `m_size++` and `m_size--` are taken modulo `2^64`.
* `m_pMap` of a cursor is the address of the table of the one container under
  consideration, the same in every cursor, and is left out of the cursor.
-/

namespace FIFO

/-- A cell pointer: `none` is `nullptr`. -/
abbrev Ptr := Option Nat

/-- Number of values of `size_t`. -/
def sizeWrap : Nat := 2 ^ 64

/-- The effect of `m_size++`. -/
def sizeInc (n : Nat) : Nat := (n + 1) % sizeWrap

/-- The effect of `m_size--`. -/
def sizeDec (n : Nat) : Nat := (n + sizeWrap - 1) % sizeWrap

/-- `FIFOHashMapCell<K,V>`: key, value and the two queue links. -/
structure FIFOHashMapCell (K V : Type) where
  m_key : K
  m_value : V
  m_next : Ptr
  m_prev : Ptr
deriving DecidableEq

/-- `FIFOHashMapQueue`: head and tail of the order chain. -/
structure FIFOHashMapQueue where
  m_pHead : Ptr
  m_pTail : Ptr
deriving DecidableEq

/-- `FIFOHashMapIterator`: the referenced cell and the direction flag. -/
structure FIFOHashMapIterator where
  m_pCurrCell : Ptr
  m_isReverse : Bool
deriving DecidableEq

/-- `FIFOHashMap<K,V,N>`: the cells in memory, the table (key to address of the
cell stored under it), the queue and `m_size`. -/
structure FIFOHashMap (K V : Type) where
  heap : List (Option (FIFOHashMapCell K V))
  m_map : List (K × Nat)
  m_queue : FIFOHashMapQueue
  m_size : Nat
deriving DecidableEq

variable {K V : Type}

/-! ## Memory access -/

/-- Read through a cell pointer. -/
def readCell (m : FIFOHashMap K V) (p : Ptr) : Option (FIFOHashMapCell K V) :=
  match p with
  | none => none
  | some a =>
    match m.heap[a]? with
    | some (some c) => some c
    | _ => none

/-- Write through a cell pointer. -/
def writeCell (m : FIFOHashMap K V) (p : Ptr) (c : FIFOHashMapCell K V) :
    Option (FIFOHashMap K V) :=
  match p with
  | none => none
  | some a =>
    match m.heap[a]? with
    | some (some _) => some { m with heap := m.heap.set a (some c) }
    | _ => none

/-- The assignment `p->m_next = v`. -/
def setNext (m : FIFOHashMap K V) (p v : Ptr) : Option (FIFOHashMap K V) :=
  match readCell m p with
  | none => none
  | some c => writeCell m p { c with m_next := v }

/-- The assignment `p->m_prev = v`. -/
def setPrev (m : FIFOHashMap K V) (p v : Ptr) : Option (FIFOHashMap K V) :=
  match readCell m p with
  | none => none
  | some c => writeCell m p { c with m_prev := v }

/-- The assignment `p->m_value = v` (writing through a `V&`). -/
def setValue (m : FIFOHashMap K V) (p : Ptr) (v : V) : Option (FIFOHashMap K V) :=
  match readCell m p with
  | none => none
  | some c => writeCell m p { c with m_value := v }

/-! ## The table `m_map` -/

/-- The lookup `m_map.find(key)`: the address of the cell stored under `key`. -/
def tableFind [DecidableEq K] : List (K × Nat) → K → Ptr
  | [], _ => none
  | e :: t, k => if e.1 = k then some e.2 else tableFind t k

/-- The table after `m_map.erase(key)`. -/
def tableErase [DecidableEq K] (t : List (K × Nat)) (k : K) : List (K × Nat) :=
  t.filter (fun e => decide (e.1 ≠ k))

/-- The count returned by `m_map.erase(key)`. -/
def tableEraseCount [DecidableEq K] (t : List (K × Nat)) (k : K) : Nat :=
  if (tableFind t k).isSome then 1 else 0

/-- The call `m_map.emplace(key, cell)`: when `key` is absent a node holding
`cell` is allocated and the result is its address and `true`; otherwise nothing
changes and the result is the address of the existing cell and `false`. -/
def emplace [DecidableEq K] (m : FIFOHashMap K V) (key : K) (cell : FIFOHashMapCell K V) :
    FIFOHashMap K V × Nat × Bool :=
  match tableFind m.m_map key with
  | some a => (m, a, false)
  | none =>
    ({ m with heap := m.heap ++ [some cell], m_map := (key, m.heap.length) :: m.m_map },
      m.heap.length, true)

/-- The call `m_map.erase(key)`: when `key` is present its entry is removed from
the table and its node is destroyed and released; otherwise nothing changes. -/
def mapErase [DecidableEq K] (m : FIFOHashMap K V) (key : K) : FIFOHashMap K V :=
  match tableFind m.m_map key with
  | none => m
  | some a => { m with heap := m.heap.set a none, m_map := tableErase m.m_map key }

/-! ## FIFOHashMapQueue -/

/-- `FIFOHashMapQueue::addLast`. -/
def addLast (m : FIFOHashMap K V) (pCell : Ptr) : Option (FIFOHashMap K V) :=
  if m.m_queue.m_pHead = none then
    some { m with m_queue := { m_pHead := pCell, m_pTail := pCell } }
  else
    match setNext m m.m_queue.m_pTail pCell with
    | none => none
    | some m1 =>
      match setPrev m1 pCell m1.m_queue.m_pTail with
      | none => none
      | some m2 => some { m2 with m_queue := { m2.m_queue with m_pTail := pCell } }

/-- `FIFOHashMapQueue::removeLast`. -/
def removeLast (m : FIFOHashMap K V) : Option (FIFOHashMap K V) :=
  if m.m_queue.m_pHead = m.m_queue.m_pTail then
    some { m with m_queue := { m_pHead := none, m_pTail := none } }
  else
    match readCell m m.m_queue.m_pTail with
    | none => none
    | some c =>
      setNext { m with m_queue := { m.m_queue with m_pTail := c.m_prev } } c.m_prev none

/-- `FIFOHashMapQueue::removeFirst`. -/
def removeFirst (m : FIFOHashMap K V) : Option (FIFOHashMap K V) :=
  if m.m_queue.m_pHead = none then
    some m
  else if m.m_queue.m_pHead = m.m_queue.m_pTail then
    some { m with m_queue := { m_pHead := none, m_pTail := none } }
  else
    match readCell m m.m_queue.m_pHead with
    | none => none
    | some c =>
      setPrev { m with m_queue := { m.m_queue with m_pHead := c.m_next } } c.m_next none

/-- `FIFOHashMapQueue::removeCell`. -/
def removeCell (m : FIFOHashMap K V) (cell : Ptr) : Option (FIFOHashMap K V) :=
  if cell = none then
    some m
  else
    match readCell m cell with
    | none => none
    | some c =>
      let previousCell := c.m_prev
      let nextCell := c.m_next
      if previousCell = nextCell then
        some { m with m_queue := { m_pHead := none, m_pTail := none } }
      else
        let r1 :=
          if previousCell ≠ none then setNext m previousCell nextCell
          else some { m with m_queue := { m.m_queue with m_pHead := nextCell } }
        match r1 with
        | none => none
        | some m1 =>
          if nextCell ≠ none then setPrev m1 nextCell previousCell
          else some { m1 with m_queue := { m1.m_queue with m_pTail := previousCell } }

/-! ## FIFOHashMapIterator -/

/-- `operator*` and `operator->`: the key and the value of the referenced cell. -/
def FIFOHashMapIterator.deref (m : FIFOHashMap K V) (it : FIFOHashMapIterator) :
    Option (K × V) :=
  match readCell m it.m_pCurrCell with
  | none => none
  | some c => some (c.m_key, c.m_value)

/-- Pre-increment `operator++()`. -/
def FIFOHashMapIterator.inc (m : FIFOHashMap K V) (it : FIFOHashMapIterator) :
    Option FIFOHashMapIterator :=
  match readCell m it.m_pCurrCell with
  | none => none
  | some c =>
    if it.m_isReverse = false then some { it with m_pCurrCell := c.m_next }
    else some { it with m_pCurrCell := c.m_prev }

/-- Pre-decrement `operator--()`. -/
def FIFOHashMapIterator.dec (m : FIFOHashMap K V) (it : FIFOHashMapIterator) :
    Option FIFOHashMapIterator :=
  match readCell m it.m_pCurrCell with
  | none => none
  | some c =>
    if it.m_isReverse = false then some { it with m_pCurrCell := c.m_prev }
    else some { it with m_pCurrCell := c.m_next }

/-- Post-increment `operator++(int)`: `result` is a reference bound to `*this`
before `++(*this)` runs, so the returned reference denotes the cursor as it is
after the increment.  The result is the cursor afterwards and the value of the
expression `it++`. -/
def FIFOHashMapIterator.postInc (m : FIFOHashMap K V) (it : FIFOHashMapIterator) :
    Option (FIFOHashMapIterator × FIFOHashMapIterator) :=
  match it.inc m with
  | none => none
  | some it1 => some (it1, it1)

/-- Post-decrement `operator--(int)`: as `operator++(int)`, with `--(*this)`. -/
def FIFOHashMapIterator.postDec (m : FIFOHashMap K V) (it : FIFOHashMapIterator) :
    Option (FIFOHashMapIterator × FIFOHashMapIterator) :=
  match it.dec m with
  | none => none
  | some it1 => some (it1, it1)

/-- `operator==`: the same cell (the table pointer is the same in all cursors
of the container); the direction flag is not compared. -/
def FIFOHashMapIterator.eq (a b : FIFOHashMapIterator) : Bool :=
  decide (a.m_pCurrCell = b.m_pCurrCell)

/-- `operator!=`. -/
def FIFOHashMapIterator.ne (a b : FIFOHashMapIterator) : Bool :=
  decide (a.m_pCurrCell ≠ b.m_pCurrCell)

/-! ## FIFOHashMap -/

/-- The constructor `FIFOHashMap()`. -/
def FIFOHashMap.empty : FIFOHashMap K V :=
  { heap := [], m_map := [], m_queue := { m_pHead := none, m_pTail := none }, m_size := 0 }

/-- `size()`. -/
def FIFOHashMap.size (m : FIFOHashMap K V) : Nat := m.m_size

/-- `begin()`. -/
def FIFOHashMap.begin (m : FIFOHashMap K V) : FIFOHashMapIterator :=
  { m_pCurrCell := m.m_queue.m_pHead, m_isReverse := false }

/-- `end()`. -/
def FIFOHashMap.end (_m : FIFOHashMap K V) : FIFOHashMapIterator :=
  { m_pCurrCell := none, m_isReverse := false }

/-- `rbegin()`. -/
def FIFOHashMap.rbegin (m : FIFOHashMap K V) : FIFOHashMapIterator :=
  { m_pCurrCell := m.m_queue.m_pTail, m_isReverse := true }

/-- `rend()`. -/
def FIFOHashMap.rend (_m : FIFOHashMap K V) : FIFOHashMapIterator :=
  { m_pCurrCell := none, m_isReverse := true }

/-- `find(key)`. -/
def FIFOHashMap.find [DecidableEq K] (m : FIFOHashMap K V) (key : K) : FIFOHashMapIterator :=
  match tableFind m.m_map key with
  | some a => { m_pCurrCell := some a, m_isReverse := false }
  | none => { m_pCurrCell := none, m_isReverse := false }

/-- `pop()`. -/
def FIFOHashMap.pop [DecidableEq K] (m : FIFOHashMap K V) : Option (FIFOHashMap K V) :=
  match readCell m m.m_queue.m_pHead with
  | none => none
  | some c =>
    match removeFirst m with
    | none => none
    | some m1 =>
      let m2 := mapErase m1 c.m_key
      some { m2 with m_size := sizeDec m2.m_size }

/-- The guarded eviction `if (m_size >= N) pop();`. -/
def FIFOHashMap.popIfFull [DecidableEq K] (N : Nat) (m : FIFOHashMap K V) :
    Option (FIFOHashMap K V) :=
  if m.m_size ≥ N then m.pop else some m

/-- `insert(value)` (both overloads): the container afterwards and the returned
pair of cursor and flag. -/
def FIFOHashMap.insert [DecidableEq K] (N : Nat) (m : FIFOHashMap K V) (value : K × V) :
    Option (FIFOHashMap K V × FIFOHashMapIterator × Bool) :=
  match tableFind m.m_map value.1 with
  | some a => some (m, { m_pCurrCell := some a, m_isReverse := false }, false)
  | none =>
    match m.popIfFull N with
    | none => none
    | some m1 =>
      match emplace m1 value.1
          { m_key := value.1, m_value := value.2, m_next := none, m_prev := none } with
      | (m2, a, true) =>
        match addLast m2 (some a) with
        | none => none
        | some m3 =>
          let m4 := { m3 with m_size := sizeInc m3.m_size }
          some (m4, { m_pCurrCell := m4.m_queue.m_pTail, m_isReverse := false }, true)
      | (m2, _, false) => some (m2, m2.end, false)

/-- `operator[](key)` (both overloads): the container afterwards and the address
of the cell whose `m_value` the returned reference denotes. -/
def FIFOHashMap.indexAccess [DecidableEq K] [Inhabited V] (N : Nat) (m : FIFOHashMap K V)
    (key : K) : Option (FIFOHashMap K V × Nat) :=
  match tableFind m.m_map key with
  | some a => some (m, a)
  | none =>
    match m.popIfFull N with
    | none => none
    | some m1 =>
      match emplace m1 key
          { m_key := key, m_value := default, m_next := none, m_prev := none } with
      | (m2, a, true) =>
        match addLast m2 (some a) with
        | none => none
        | some m3 => some ({ m3 with m_size := sizeInc m3.m_size }, a)
      | (m2, a, false) => some (m2, a)

/-- `erase(pos)`: the container afterwards and the returned cursor.  The call
`m_map.erase(pos->first)` comes first and releases the node of the key, so
`removeCell(pos.m_pCurrCell)`, the test of `pos.m_pCurrCell->m_next` and `++pos`
read a released node when `pos` references the cell of that key. -/
def FIFOHashMap.erase [DecidableEq K] (m : FIFOHashMap K V) (pos : FIFOHashMapIterator) :
    Option (FIFOHashMap K V × FIFOHashMapIterator) :=
  if pos.ne m.end = false then
    some (m, m.end)
  else
    match pos.deref m with
    | none => none
    | some kv =>
      if tableEraseCount m.m_map kv.1 ≠ 0 then
        match removeCell (mapErase m kv.1) pos.m_pCurrCell with
        | none => none
        | some m1 =>
          let m2 := { m1 with m_size := sizeDec m1.m_size }
          match readCell m2 pos.m_pCurrCell with
          | none => none
          | some c =>
            if c.m_next = none then
              some (m2, { m_pCurrCell := m2.m_queue.m_pTail, m_isReverse := false })
            else
              match pos.inc m2 with
              | none => none
              | some pos1 => some (m2, pos1)
      else
        some (m, m.end)

/-- `erase(key)`: the container afterwards and the returned count. -/
def FIFOHashMap.eraseKey [DecidableEq K] (m : FIFOHashMap K V) (key : K) :
    Option (FIFOHashMap K V × Nat) :=
  match tableFind m.m_map key with
  | some a =>
    match m.erase { m_pCurrCell := some a, m_isReverse := false } with
    | none => none
    | some r => some (r.1, 1)
  | none => some (m, 0)

/-- The statements of `erase(pos)` in a run in which the storage of the node that
`m_map.erase` released still holds the cell while `removeCell`, the `m_next`
test and `++pos` read it: the table entry is removed and the three reads return
the cell.  The program does not guarantee such a run; this is not the meaning of
`erase(pos)`, which is `FIFOHashMap.erase`.  It is used to let `Reachable` also
cover the containers such runs leave, and to say what the statements of `erase`
compute when the reads go through. -/
def FIFOHashMap.eraseUnchecked [DecidableEq K] (m : FIFOHashMap K V)
    (pos : FIFOHashMapIterator) : Option (FIFOHashMap K V × FIFOHashMapIterator) :=
  if pos.ne m.end = false then
    some (m, m.end)
  else
    match pos.deref m with
    | none => none
    | some kv =>
      if tableEraseCount m.m_map kv.1 ≠ 0 then
        match removeCell { m with m_map := tableErase m.m_map kv.1 } pos.m_pCurrCell with
        | none => none
        | some m1 =>
          let m2 := { m1 with m_size := sizeDec m1.m_size }
          match readCell m2 pos.m_pCurrCell with
          | none => none
          | some c =>
            if c.m_next = none then
              some (m2, { m_pCurrCell := m2.m_queue.m_pTail, m_isReverse := false })
            else
              match pos.inc m2 with
              | none => none
              | some pos1 => some (m2, pos1)
      else
        some (m, m.end)

/-- The statements of `erase(key)` in a run as for `FIFOHashMap.eraseUnchecked`. -/
def FIFOHashMap.eraseKeyUnchecked [DecidableEq K] (m : FIFOHashMap K V) (key : K) :
    Option (FIFOHashMap K V × Nat) :=
  match tableFind m.m_map key with
  | some a =>
    match m.eraseUnchecked { m_pCurrCell := some a, m_isReverse := false } with
    | none => none
    | some r => some (r.1, 1)
  | none => some (m, 0)

/-- `moveElementToTail(key)`. -/
def FIFOHashMap.moveElementToTail [DecidableEq K] (m : FIFOHashMap K V) (key : K) :
    Option (FIFOHashMap K V) :=
  match tableFind m.m_map key with
  | some a =>
    match removeCell m (some a) with
    | none => none
    | some m1 =>
      match setPrev m1 (some a) none with
      | none => none
      | some m2 =>
        match setNext m2 (some a) none with
        | none => none
        | some m3 => addLast m3 (some a)
  | none => some m

/-- `moveElementToHead(key)`. -/
def FIFOHashMap.moveElementToHead [DecidableEq K] (m : FIFOHashMap K V) (key : K) :
    Option (FIFOHashMap K V) :=
  match tableFind m.m_map key with
  | some a =>
    match removeCell m (some a) with
    | none => none
    | some m1 =>
      match setPrev m1 (some a) none with
      | none => none
      | some m2 =>
        match setNext m2 (some a) m2.m_queue.m_pHead with
        | none => none
        | some m3 =>
          match setPrev m3 m3.m_queue.m_pHead (some a) with
          | none => none
          | some m4 => some { m4 with m_queue := { m4.m_queue with m_pHead := some a } }
  | none => some m

/-- One round of the loop of `FIFOHashMap(std::initializer_list)`. -/
def FIFOHashMap.initStep [DecidableEq K] (N : Nat) (m : FIFOHashMap K V) (p : K × V) :
    Option (FIFOHashMap K V) :=
  match emplace m p.1 { m_key := p.1, m_value := p.2, m_next := none, m_prev := none } with
  | (m1, a, true) =>
    match m1.popIfFull N with
    | none => none
    | some m2 =>
      match addLast m2 (some a) with
      | none => none
      | some m3 => some { m3 with m_size := sizeInc m3.m_size }
  | (m1, _, false) => some m1

/-- The loop of `FIFOHashMap(std::initializer_list)` from a given state. -/
def FIFOHashMap.initLoop [DecidableEq K] (N : Nat) :
    FIFOHashMap K V → List (K × V) → Option (FIFOHashMap K V)
  | m, [] => some m
  | m, p :: rest =>
    match m.initStep N p with
    | none => none
    | some m1 => FIFOHashMap.initLoop N m1 rest

/-- The constructor `FIFOHashMap(std::initializer_list)`. -/
def FIFOHashMap.ofInitList [DecidableEq K] (N : Nat) (initList : List (K × V)) :
    Option (FIFOHashMap K V) :=
  FIFOHashMap.initLoop N FIFOHashMap.empty initList

/-! ## Traversals -/

/-- The loop `for (; it != end(); ++it)` collecting `*it`, with a bound on the
number of rounds; `none` when a dereference fails or the bound is hit. -/
def traverseFrom (m : FIFOHashMap K V) : Nat → FIFOHashMapIterator → Option (List (K × V))
  | fuel, it =>
    if it.ne m.end = false then some []
    else
      match fuel with
      | 0 => none
      | fuel + 1 =>
        match it.deref m, it.inc m with
        | some kv, some it1 =>
          match traverseFrom m fuel it1 with
          | none => none
          | some rest => some (kv :: rest)
        | _, _ => none

/-- Forward traversal: `begin()` advanced to `end()`.  A chain without repeated
cell has at most `heap.length` cells, so the bound only cuts off a walk that
would not end. -/
def FIFOHashMap.forward (m : FIFOHashMap K V) : Option (List (K × V)) :=
  traverseFrom m m.heap.length m.begin

/-- Reverse traversal: `rbegin()` advanced to `rend()`. -/
def FIFOHashMap.backward (m : FIFOHashMap K V) : Option (List (K × V)) :=
  traverseFrom m m.heap.length m.rbegin

/-! ## Sequences of calls -/

/-- Insert the pairs of a list one after the other. -/
def insertAll [DecidableEq K] (N : Nat) : FIFOHashMap K V → List (K × V) → Option (FIFOHashMap K V)
  | m, [] => some m
  | m, p :: rest =>
    match m.insert N p with
    | none => none
    | some r => insertAll N r.1 rest

/-- A call of `insert` or of `operator[]`. -/
inductive Call (K V : Type) where
  | insert (value : K × V)
  | indexAccess (key : K)

/-- Apply a sequence of `insert` and `operator[]` calls. -/
def runCalls [DecidableEq K] [Inhabited V] (N : Nat) :
    FIFOHashMap K V → List (Call K V) → Option (FIFOHashMap K V)
  | m, [] => some m
  | m, Call.insert value :: rest =>
    match m.insert N value with
    | none => none
    | some r => runCalls N r.1 rest
  | m, Call.indexAccess key :: rest =>
    match m.indexAccess N key with
    | none => none
    | some r => runCalls N r.1 rest

/-- The cursor is past-the-end or references a cell held by the table. -/
def FIFOHashMap.ownsCursor (m : FIFOHashMap K V) (pos : FIFOHashMapIterator) : Prop :=
  pos.m_pCurrCell = none ∨ ∃ e ∈ m.m_map, pos.m_pCurrCell = some e.2

/-- The containers that the public operations produce from the constructors.
A step is listed only when the operation has a result, so `pop()` on an empty
container (a read through a null head) yields nothing, and neither does `erase`
of a present element (a read of a released node).  The steps `eraseUnchecked`
and `eraseKeyUnchecked` add the containers left by a run of `erase` in which the
released node was still readable, so that what is proved of every reachable
container holds for the containers of such runs too. -/
inductive Reachable [DecidableEq K] [Inhabited V] (N : Nat) : FIFOHashMap K V → Prop
  | empty : Reachable N FIFOHashMap.empty
  | ofInitList (initList : List (K × V)) (m : FIFOHashMap K V) :
      FIFOHashMap.ofInitList N initList = some m → Reachable N m
  | insert (m : FIFOHashMap K V) (value : K × V)
      (r : FIFOHashMap K V × FIFOHashMapIterator × Bool) :
      Reachable N m → m.insert N value = some r → Reachable N r.1
  | indexAccess (m : FIFOHashMap K V) (key : K) (r : FIFOHashMap K V × Nat) :
      Reachable N m → m.indexAccess N key = some r → Reachable N r.1
  | assign (m : FIFOHashMap K V) (key : K) (v : V) (r : FIFOHashMap K V × Nat)
      (m1 : FIFOHashMap K V) :
      Reachable N m → m.indexAccess N key = some r → setValue r.1 (some r.2) v = some m1 →
      Reachable N m1
  | erase (m : FIFOHashMap K V) (pos : FIFOHashMapIterator)
      (r : FIFOHashMap K V × FIFOHashMapIterator) :
      Reachable N m → m.ownsCursor pos → m.erase pos = some r → Reachable N r.1
  | eraseKey (m : FIFOHashMap K V) (key : K) (r : FIFOHashMap K V × Nat) :
      Reachable N m → m.eraseKey key = some r → Reachable N r.1
  | eraseUnchecked (m : FIFOHashMap K V) (pos : FIFOHashMapIterator)
      (r : FIFOHashMap K V × FIFOHashMapIterator) :
      Reachable N m → m.ownsCursor pos → m.eraseUnchecked pos = some r → Reachable N r.1
  | eraseKeyUnchecked (m : FIFOHashMap K V) (key : K) (r : FIFOHashMap K V × Nat) :
      Reachable N m → m.eraseKeyUnchecked key = some r → Reachable N r.1
  | pop (m m1 : FIFOHashMap K V) : Reachable N m → m.pop = some m1 → Reachable N m1
  | moveElementToTail (m : FIFOHashMap K V) (key : K) (m1 : FIFOHashMap K V) :
      Reachable N m → m.moveElementToTail key = some m1 → Reachable N m1
  | moveElementToHead (m : FIFOHashMap K V) (key : K) (m1 : FIFOHashMap K V) :
      Reachable N m → m.moveElementToHead key = some m1 → Reachable N m1

/-! ## The order chain as a list -/

/-- The `m_next` of the last cell of a segment followed by `A`. -/
def nextPtr (n : Ptr) : List (Nat × K × V) → Ptr
  | [] => n
  | y :: _ => some y.1

/-- The `m_prev` of the first cell of a segment that follows `A`. -/
def lastPtr (p : Ptr) : List (Nat × K × V) → Ptr
  | [] => p
  | x :: rest => lastPtr (some x.1) rest

/-- The cells at the addresses of `A` hold the keys and values of `A` and are
linked to each other in the order of `A`; the first has `m_prev = p` and the
last has `m_next = n`. -/
def Seg (h : List (Option (FIFOHashMapCell K V))) : Ptr → List (Nat × K × V) → Ptr → Prop
  | _, [], _ => True
  | p, x :: rest, n =>
    h[x.1]? =
        some (some { m_key := x.2.1, m_value := x.2.2, m_next := nextPtr n rest, m_prev := p })
      ∧ Seg h (some x.1) rest n

/-- The queue of `m` is the chain `A` (address, key, value from head to tail). -/
structure Chain (m : FIFOHashMap K V) (A : List (Nat × K × V)) : Prop where
  seg : Seg m.heap none A none
  nodup : (A.map (fun x => x.1)).Nodup
  head : m.m_queue.m_pHead = nextPtr none A
  tail : m.m_queue.m_pTail = lastPtr none A

/-- The container `m` holds exactly the chain `A`: the queue is `A`, the keys
of `A` are pairwise distinct, the table maps each key of `A` to the address of
its cell and nothing else, `m_size` is the length of `A` and at most `N`. -/
structure Rep (N : Nat) (m : FIFOHashMap K V) (A : List (Nat × K × V)) : Prop where
  chain : Chain m A
  keys : (A.map (fun x => x.2.1)).Nodup
  table : m.m_map.Perm (A.map (fun x => (x.2.1, x.1)))
  size : m.m_size = A.length
  cap : A.length ≤ N

/-- The chain that remains after the guarded eviction. -/
def evicted (N : Nat) (A : List (Nat × K × V)) : List (Nat × K × V) :=
  if N ≤ A.length then A.tail else A

/-! ## Concrete containers used as inputs -/

/-- The container `{(1, 10)}`: the empty container after `insert({1, 10})`. -/
def exOne : FIFOHashMap Nat Nat :=
  { heap := [some ⟨1, 10, none, none⟩],
    m_map := [(1, 0)],
    m_queue := ⟨some 0, some 0⟩,
    m_size := 1 }

/-- Capacity 1: `exOne` after `insert({2, 20})`. -/
def exOneNext : FIFOHashMap Nat Nat :=
  { heap := [none, some ⟨2, 20, none, none⟩],
    m_map := [(2, 1)],
    m_queue := ⟨some 1, some 1⟩,
    m_size := 1 }

/-- Capacity 3: `exOne` after `insert({2, 20})`. -/
def exTwo : FIFOHashMap Nat Nat :=
  { heap := [some ⟨1, 10, some 1, none⟩, some ⟨2, 20, none, some 0⟩],
    m_map := [(2, 1), (1, 0)],
    m_queue := ⟨some 0, some 1⟩,
    m_size := 2 }

/-- Capacity 3: `exTwo` after `insert({3, 30})`. -/
def exThree : FIFOHashMap Nat Nat :=
  { heap := [some ⟨1, 10, some 1, none⟩, some ⟨2, 20, some 2, some 0⟩,
             some ⟨3, 30, none, some 1⟩],
    m_map := [(3, 2), (2, 1), (1, 0)],
    m_queue := ⟨some 0, some 2⟩,
    m_size := 3 }

/-- The cursor that the statements of `erase(pos)` compute when `pos` references
the cell between the chains `A` and `B` and the reads of the released node find
the cell (`FIFOHashMap.eraseUnchecked`). -/
def eraseResult (pos : FIFOHashMapIterator) (A B : List (Nat × K × V)) : FIFOHashMapIterator :=
  if nextPtr none B = none then { m_pCurrCell := lastPtr none A, m_isReverse := false }
  else if pos.m_isReverse = false then { pos with m_pCurrCell := nextPtr none B }
  else { pos with m_pCurrCell := lastPtr none A }

/-- Capacity 3: `exThree` after the statements of `erase` of its tail `(3, 30)`
by cursor, in a run in which the released node is still readable
(`FIFOHashMap.eraseUnchecked`). -/
def exThreeNoTail : FIFOHashMap Nat Nat :=
  { heap := [some ⟨1, 10, some 1, none⟩, some ⟨2, 20, none, some 0⟩,
             some ⟨3, 30, none, some 1⟩],
    m_map := [(2, 1), (1, 0)],
    m_queue := ⟨some 0, some 1⟩,
    m_size := 2 }

/-! ## Lists of pairs used to state what survives a list construction -/

/-- The last `N` elements of a list (all of them when there are fewer). -/
def lastN {α : Type} (N : Nat) (l : List α) : List α := l.drop (l.length - N)

/-- The pairs of `L`, after those of `seen`, keeping for each key only its first
occurrence. -/
def firstOccFrom [DecidableEq K] : List (K × V) → List (K × V) → List (K × V)
  | seen, [] => seen
  | seen, p :: rest =>
    if p.1 ∈ seen.map Prod.fst then firstOccFrom seen rest
    else firstOccFrom (seen ++ [p]) rest

/-- The pairs of `L`, after those of `kept`, keeping a pair only when its key is
not among the last `N` pairs kept so far. -/
def admittedFrom [DecidableEq K] (N : Nat) : List (K × V) → List (K × V) → List (K × V)
  | kept, [] => kept
  | kept, p :: rest =>
    if p.1 ∈ (lastN N kept).map Prod.fst then admittedFrom N kept rest
    else admittedFrom N (kept ++ [p]) rest

/-- Capacity 1: the container constructed from `{(1,10), (2,20), (1,30)}`. -/
def exOneAgain : FIFOHashMap Nat Nat :=
  { heap := [none, none, some ⟨1, 30, none, none⟩],
    m_map := [(1, 2)],
    m_queue := ⟨some 2, some 2⟩,
    m_size := 1 }

/-! ## Memory lemmas -/


theorem sizeDec_pos {n : Nat} (h0 : 0 < n) (h1 : n < sizeWrap) : sizeDec n = n - 1 := by
  unfold sizeDec
  have h2 : n + sizeWrap - 1 = (n - 1) + sizeWrap := by omega
  rw [h2, Nat.add_mod_right, Nat.mod_eq_of_lt (by omega)]

theorem sizeInc_lt {n : Nat} (h1 : n + 1 < sizeWrap) : sizeInc n = n + 1 := by
  unfold sizeInc
  exact Nat.mod_eq_of_lt h1

theorem setNext_some {m : FIFOHashMap K V} {a : Nat} {c : FIFOHashMapCell K V} (v : Ptr)
    (h : m.heap[a]? = some (some c)) :
    setNext m (some a) v =
      some { m with heap := m.heap.set a (some { c with m_next := v }) } := by
  simp [setNext, readCell, writeCell, h]

theorem setPrev_some {m : FIFOHashMap K V} {a : Nat} {c : FIFOHashMapCell K V} (v : Ptr)
    (h : m.heap[a]? = some (some c)) :
    setPrev m (some a) v =
      some { m with heap := m.heap.set a (some { c with m_prev := v }) } := by
  simp [setPrev, readCell, writeCell, h]

theorem setValue_some {m : FIFOHashMap K V} {a : Nat} {c : FIFOHashMapCell K V} (v : V)
    (h : m.heap[a]? = some (some c)) :
    setValue m (some a) v =
      some { m with heap := m.heap.set a (some { c with m_value := v }) } := by
  simp [setValue, readCell, writeCell, h]

theorem get_set_same {h : List (Option (FIFOHashMapCell K V))} {a : Nat}
    {c : Option (FIFOHashMapCell K V)} (d : Option (FIFOHashMapCell K V))
    (hc : h[a]? = some c) : (h.set a d)[a]? = some d := by
  have hlt : a < h.length := (List.getElem?_eq_some.mp hc).1
  simp [List.getElem?_set, hlt]

theorem get_set_other {h : List (Option (FIFOHashMapCell K V))} {a b : Nat}
    (d : Option (FIFOHashMapCell K V)) (hab : a ≠ b) : (h.set a d)[b]? = h[b]? := by
  simp [List.getElem?_set, hab]

/-! ## Lemmas on segments -/

theorem nextPtr_append (n : Ptr) (A B : List (Nat × K × V)) :
    nextPtr n (A ++ B) = nextPtr (nextPtr n B) A := by
  cases A <;> rfl

theorem lastPtr_append (p : Ptr) (A B : List (Nat × K × V)) :
    lastPtr p (A ++ B) = lastPtr (lastPtr p A) B := by
  induction A generalizing p with
  | nil => rfl
  | cons x rest ih => exact ih (some x.1)

theorem lastPtr_concat (p : Ptr) (A : List (Nat × K × V)) (x : Nat × K × V) :
    lastPtr p (A ++ [x]) = some x.1 := by
  rw [lastPtr_append]; rfl

theorem nextPtr_eq_some {n : Ptr} {A : List (Nat × K × V)} {a : Nat}
    (h : nextPtr n A = some a) : n = some a ∨ a ∈ A.map (fun x => x.1) := by
  cases A with
  | nil => exact Or.inl h
  | cons y rest =>
    right
    simp only [nextPtr, Option.some.injEq] at h
    simp [h]

theorem lastPtr_eq_some {p : Ptr} {A : List (Nat × K × V)} {a : Nat}
    (h : lastPtr p A = some a) : p = some a ∨ a ∈ A.map (fun x => x.1) := by
  induction A generalizing p with
  | nil => exact Or.inl h
  | cons y rest ih =>
    right
    rcases ih h with h1 | h1
    · simp only [Option.some.injEq] at h1
      simp [h1]
    · simp only [List.map_cons, List.mem_cons]
      exact Or.inr h1

theorem Seg.frame {h h1 : List (Option (FIFOHashMapCell K V))} {p n : Ptr}
    {A : List (Nat × K × V)} (hs : Seg h p A n)
    (hf : ∀ a ∈ A.map (fun x => x.1), h1[a]? = h[a]?) : Seg h1 p A n := by
  induction A generalizing p with
  | nil => trivial
  | cons x rest ih =>
    refine ⟨?_, ih hs.2 (fun a ha => hf a (by simp at ha ⊢; exact Or.inr ha))⟩
    rw [hf x.1 (by simp)]
    exact hs.1

theorem Seg.frame_set {h : List (Option (FIFOHashMapCell K V))} {p n : Ptr}
    {A : List (Nat × K × V)} (hs : Seg h p A n) {a : Nat} (d : Option (FIFOHashMapCell K V))
    (ha : a ∉ A.map (fun x => x.1)) : Seg (h.set a d) p A n := by
  refine hs.frame (fun b hb => get_set_other d ?_)
  rintro rfl
  exact ha hb

theorem Seg_append {h : List (Option (FIFOHashMapCell K V))} {p n : Ptr}
    {A B : List (Nat × K × V)} :
    Seg h p (A ++ B) n ↔ Seg h p A (nextPtr n B) ∧ Seg h (lastPtr p A) B n := by
  induction A generalizing p with
  | nil => simp [Seg, lastPtr]
  | cons x rest ih =>
    simp only [List.cons_append, Seg, lastPtr, List.append_eq, nextPtr_append, ih, and_assoc]

theorem Seg.addr_lt {h : List (Option (FIFOHashMapCell K V))} {p n : Ptr}
    {A : List (Nat × K × V)} (hs : Seg h p A n) :
    ∀ a ∈ A.map (fun x => x.1), a < h.length := by
  induction A generalizing p with
  | nil => simp
  | cons x rest ih =>
    intro a ha
    simp only [List.map_cons, List.mem_cons] at ha
    rcases ha with rfl | ha
    · exact (List.getElem?_eq_some.mp hs.1).1
    · exact ih hs.2 a ha

theorem Seg.length_le {h : List (Option (FIFOHashMapCell K V))} {p n : Ptr}
    {A : List (Nat × K × V)} (hs : Seg h p A n) (hn : (A.map (fun x => x.1)).Nodup) :
    A.length ≤ h.length := by
  have h1 : (A.map (fun x => x.1)) ⊆ List.range h.length := by
    intro a ha
    exact List.mem_range.mpr (hs.addr_lt a ha)
  have h2 := (hn.subperm h1).length_le
  simpa using h2

/-- Writing the `m_next` of the last cell of a segment. -/
theorem Seg.set_last_next {h : List (Option (FIFOHashMapCell K V))} {p n : Ptr}
    {A : List (Nat × K × V)} {y : Nat × K × V} (n1 : Ptr)
    (hs : Seg h p (A ++ [y]) n) (hn : ((A ++ [y]).map (fun x => x.1)).Nodup) :
    ∃ c, h[y.1]? = some (some c) ∧ c.m_next = n ∧ c.m_prev = lastPtr p A ∧
      Seg (h.set y.1 (some { c with m_next := n1 })) p (A ++ [y]) n1 := by
  rw [Seg_append] at hs
  obtain ⟨hA, hy, -⟩ := hs
  refine ⟨_, hy, rfl, rfl, ?_⟩
  rw [Seg_append]
  have hnot : y.1 ∉ A.map (fun x => x.1) := by
    intro hmem
    simp only [List.map_append, List.map_cons, List.map_nil] at hn
    exact (List.nodup_append.mp hn).2.2 hmem (by simp)
  refine ⟨?_, ?_, trivial⟩
  · exact hA.frame_set _ hnot
  · rw [get_set_same _ hy]
    rfl

/-- Writing the `m_prev` of the first cell of a segment. -/
theorem Seg.set_first_prev {h : List (Option (FIFOHashMapCell K V))} {p n : Ptr}
    {B : List (Nat × K × V)} {z : Nat × K × V} (p1 : Ptr)
    (hs : Seg h p (z :: B) n) (hn : ((z :: B).map (fun x => x.1)).Nodup) :
    ∃ c, h[z.1]? = some (some c) ∧ c.m_prev = p ∧ c.m_next = nextPtr n B ∧
      Seg (h.set z.1 (some { c with m_prev := p1 })) p1 (z :: B) n := by
  obtain ⟨hz, hB⟩ := hs
  refine ⟨_, hz, rfl, rfl, ?_, ?_⟩
  · rw [get_set_same _ hz]
  · simp only [List.map_cons, List.nodup_cons] at hn
    exact hB.frame_set _ hn.1

/-! ## The queue operations on a chain -/

theorem nextPtr_cons_irrel (n n1 : Ptr) (x : Nat × K × V) (A : List (Nat × K × V)) :
    nextPtr n (x :: A) = nextPtr n1 (x :: A) := rfl

theorem nextPtr_concat_ne_none (n : Ptr) (A : List (Nat × K × V)) (y : Nat × K × V) :
    nextPtr n (A ++ [y]) ≠ none := by
  cases A <;> simp [nextPtr]

theorem Chain.addLast {m : FIFOHashMap K V} {A : List (Nat × K × V)} (hc : Chain m A)
    {a : Nat} {k : K} {v : V} (ha : a ∉ A.map (fun x => x.1))
    (hcell : m.heap[a]? =
      some (some { m_key := k, m_value := v, m_next := none, m_prev := none })) :
    ∃ m1, addLast m (some a) = some m1 ∧ Chain m1 (A ++ [(a, k, v)]) ∧
      m1.m_map = m.m_map ∧ m1.m_size = m.m_size ∧ m1.heap.length = m.heap.length := by
  rcases List.eq_nil_or_concat A with rfl | ⟨A0, y, rfl⟩
  · refine ⟨{ m with m_queue := ⟨some a, some a⟩ }, ?_, ?_, rfl, rfl, rfl⟩
    · simp [FIFO.addLast, hc.head, nextPtr]
    · exact ⟨⟨hcell, trivial⟩, by simp, rfl, rfl⟩
  · rw [List.concat_eq_append] at hc ha ⊢
    obtain ⟨c, hy, -, -, hseg⟩ := Seg.set_last_next (some a) hc.seg hc.nodup
    have hhead : m.m_queue.m_pHead ≠ none := by
      rw [hc.head]; exact nextPtr_concat_ne_none _ _ _
    have htail : m.m_queue.m_pTail = some y.1 := by rw [hc.tail, lastPtr_concat]
    have hay : y.1 ≠ a := by
      rintro rfl
      exact ha (by simp)
    have hcell1 : (m.heap.set y.1 (some { c with m_next := some a }))[a]? =
        some (some { m_key := k, m_value := v, m_next := none, m_prev := none }) := by
      rw [get_set_other _ hay]; exact hcell
    refine ⟨{ m with
        heap := (m.heap.set y.1 (some { c with m_next := some a })).set a
          (some { m_key := k, m_value := v, m_next := none, m_prev := some y.1 }),
        m_queue := { m.m_queue with m_pTail := some a } }, ?_, ?_, rfl, rfl, by simp⟩
    · have h1 := setNext_some (some a) hy
      have h2 := setPrev_some
        (m := { m with heap := m.heap.set y.1 (some { c with m_next := some a }) })
        (some y.1) hcell1
      simp only [FIFO.addLast, if_neg hhead, htail, h1, h2]
    · refine ⟨?_, ?_, ?_, ?_⟩
      · rw [Seg_append]
        refine ⟨hseg.frame_set _ ha, ?_, trivial⟩
        show (List.set _ a _)[a]? = _
        rw [get_set_same _ hcell1, lastPtr_concat]
        rfl
      · have hn := hc.nodup
        simp only [List.map_append, List.map_cons, List.map_nil] at hn ha ⊢
        rw [List.nodup_append]
        refine ⟨hn, by simp, ?_⟩
        intro b hb hb1
        simp only [List.mem_singleton] at hb1
        subst hb1
        exact ha hb
      · show m.m_queue.m_pHead = _
        rw [hc.head, nextPtr_append, nextPtr_append]
        cases A0 <;> rfl
      · show some a = _
        rw [lastPtr_concat]

theorem lastPtr_cons_eq_self {x : Nat × K × V} {B : List (Nat × K × V)}
    (hn : ((x :: B).map (fun e => e.1)).Nodup) (h : lastPtr (some x.1) B = some x.1) : B = [] := by
  cases B with
  | nil => rfl
  | cons z B0 =>
    exfalso
    rcases lastPtr_eq_some (A := B0) (p := some z.1) h with h1 | h1
    · simp only [Option.some.injEq] at h1
      simp [h1] at hn
    · simp only [List.map_cons, List.nodup_cons, List.mem_cons] at hn
      exact hn.1 (Or.inr h1)

theorem Chain.removeFirst {m : FIFOHashMap K V} {x : Nat × K × V} {B : List (Nat × K × V)}
    (hc : Chain m (x :: B)) :
    ∃ m1, removeFirst m = some m1 ∧ Chain m1 B ∧
      m1.m_map = m.m_map ∧ m1.m_size = m.m_size ∧ m1.heap.length = m.heap.length ∧
      ∀ b, b ∉ B.map (fun e => e.1) → m1.heap[b]? = m.heap[b]? := by
  have hhead : m.m_queue.m_pHead = some x.1 := hc.head
  have htail : m.m_queue.m_pTail = lastPtr (some x.1) B := hc.tail
  have hx := hc.seg.1
  cases B with
  | nil =>
    refine ⟨{ m with m_queue := ⟨none, none⟩ }, ?_, ⟨trivial, by simp, rfl, rfl⟩, rfl, rfl, rfl,
      fun _ _ => rfl⟩
    simp [FIFO.removeFirst, hhead, htail, lastPtr]
  | cons z B0 =>
    have hne : m.m_queue.m_pHead ≠ m.m_queue.m_pTail := by
      rw [hhead, htail]
      intro h
      have := lastPtr_cons_eq_self hc.nodup h.symm
      simp at this
    have hnB : ((z :: B0).map (fun e => e.1)).Nodup := by
      have := hc.nodup
      simp only [List.map_cons, List.nodup_cons] at this ⊢
      exact this.2
    obtain ⟨c, hz, -, -, hseg⟩ := Seg.set_first_prev none hc.seg.2 hnB
    refine ⟨{ m with heap := m.heap.set z.1 (some { c with m_prev := none }),
                     m_queue := { m.m_queue with m_pHead := some z.1 } },
      ?_, ⟨hseg, hnB, rfl, ?_⟩, rfl, rfl, by simp, ?_⟩
    · have h2 := setPrev_some
        (m := { m with m_queue := { m.m_queue with m_pHead := some z.1 } }) none hz
      simp only [FIFO.removeFirst, hhead, readCell, hx, nextPtr] at hne h2 ⊢
      simp only [if_neg hne, h2]
      simp
    · show m.m_queue.m_pTail = _
      rw [htail]; rfl
    · intro b hb
      refine get_set_other _ ?_
      rintro rfl
      exact hb (by simp)

theorem Chain.removeCell {m : FIFOHashMap K V} {A B : List (Nat × K × V)} {x : Nat × K × V}
    (hc : Chain m (A ++ x :: B)) :
    ∃ m1, removeCell m (some x.1) = some m1 ∧ Chain m1 (A ++ B) ∧
      m1.m_map = m.m_map ∧ m1.m_size = m.m_size ∧ m1.heap.length = m.heap.length ∧
      m1.heap[x.1]? = m.heap[x.1]? ∧
      m.heap[x.1]? = some (some { m_key := x.2.1, m_value := x.2.2,
                                  m_next := nextPtr none B, m_prev := lastPtr none A }) := by
  have hseg := hc.seg
  rw [Seg_append] at hseg
  obtain ⟨hA, hx, hB⟩ := hseg
  have hnd := hc.nodup
  simp only [List.map_append, List.map_cons] at hnd
  rw [List.nodup_append] at hnd
  obtain ⟨hnA, hnxB, hdis⟩ := hnd
  have hxA : x.1 ∉ A.map (fun e => e.1) := fun h => hdis h (by simp)
  have hxB : x.1 ∉ B.map (fun e => e.1) := (List.nodup_cons.mp hnxB).1
  have hnB : (B.map (fun e => e.1)).Nodup := (List.nodup_cons.mp hnxB).2
  have hAB : ∀ a, a ∈ A.map (fun e => e.1) → a ∉ B.map (fun e => e.1) :=
    fun a h1 h2 => hdis h1 (List.mem_cons_of_mem _ h2)
  have hnAB : ((A ++ B).map (fun e => e.1)).Nodup := by
    rw [List.map_append, List.nodup_append]
    exact ⟨hnA, hnB, fun a h1 h2 => hAB a h1 h2⟩
  have hhead : m.m_queue.m_pHead = nextPtr none (A ++ x :: B) := hc.head
  have htail : m.m_queue.m_pTail = lastPtr none (A ++ x :: B) := hc.tail
  rcases List.eq_nil_or_concat A with rfl | ⟨A0, y, rfl⟩
  · cases B with
    | nil =>
      refine ⟨{ m with m_queue := ⟨none, none⟩ }, ?_, ⟨trivial, by simp, rfl, rfl⟩,
        rfl, rfl, rfl, rfl, hx⟩
      simp [FIFO.removeCell, readCell, hx, nextPtr, lastPtr]
    | cons z B0 =>
      obtain ⟨c, hz, -, -, hseg1⟩ := Seg.set_first_prev none hB hnB
      have hzx : z.1 ≠ x.1 := by
        rintro h
        exact hxB (by simp [h])
      refine ⟨{ m with heap := m.heap.set z.1 (some { c with m_prev := none }),
                       m_queue := { m.m_queue with m_pHead := some z.1 } },
        ?_, ⟨hseg1, hnAB, rfl, ?_⟩, rfl, rfl, by simp, get_set_other _ hzx, hx⟩
      · have h2 := setPrev_some
          (m := { m with m_queue := { m.m_queue with m_pHead := some z.1 } }) none hz
        simp only [FIFO.removeCell, readCell, hx, nextPtr, lastPtr] at h2 ⊢
        simp [h2]
      · show m.m_queue.m_pTail = _
        rw [htail]; rfl
  · rw [List.concat_eq_append] at *
    have hyx : y.1 ≠ x.1 := by
      rintro h
      exact hxA (by simp [h])
    cases B with
    | nil =>
      obtain ⟨c, hy, -, -, hseg1⟩ := Seg.set_last_next none hA hnA
      refine ⟨{ m with heap := m.heap.set y.1 (some { c with m_next := none }),
                       m_queue := { m.m_queue with m_pTail := some y.1 } },
        ?_, ⟨by simpa using hseg1, hnAB, ?_, ?_⟩, rfl, rfl, by simp, get_set_other _ hyx, hx⟩
      · have h2 := setNext_some none hy
        simp only [FIFO.removeCell, readCell, hx, nextPtr, lastPtr_concat] at h2 ⊢
        simp [h2]
      · show m.m_queue.m_pHead = _
        rw [hhead, nextPtr_append, List.append_nil]
        cases A0 <;> rfl
      · show some y.1 = _
        rw [List.append_nil, lastPtr_concat]
    | cons z B0 =>
      have hyz : y.1 ≠ z.1 := by
        intro h
        exact hAB y.1 (by simp) (by simp [h])
      have hzx : z.1 ≠ x.1 := by
        rintro h
        exact hxB (by simp [h])
      obtain ⟨c, hy, -, -, hseg1⟩ := Seg.set_last_next (some z.1) hA hnA
      have hB1 :
          Seg (m.heap.set y.1 (some { c with m_next := some z.1 })) (some x.1) (z :: B0) none :=
        hB.frame_set _ (fun h => hAB y.1 (by simp) h)
      obtain ⟨d, hz, -, -, hseg2⟩ := Seg.set_first_prev (some y.1) hB1 hnB
      refine ⟨{ m with heap := (m.heap.set y.1 (some { c with m_next := some z.1 })).set z.1
                          (some { d with m_prev := some y.1 }) },
        ?_, ⟨?_, hnAB, ?_, ?_⟩, rfl, rfl, by simp, ?_, hx⟩
      · have h1 := setNext_some (some z.1) hy
        have h2 := setPrev_some
          (m := { m with heap := m.heap.set y.1 (some { c with m_next := some z.1 }) }) (some y.1) hz
        simp only [FIFO.removeCell, readCell, hx, nextPtr, lastPtr_concat] at h1 h2 ⊢
        simp [h1, h2, hyz]
      · rw [Seg_append]
        refine ⟨hseg1.frame_set _ (fun h => hAB z.1 h (by simp)), ?_⟩
        rw [lastPtr_concat]
        exact hseg2
      · show m.m_queue.m_pHead = _
        rw [hhead, nextPtr_append, nextPtr_append]
        cases A0 <;> rfl
      · show m.m_queue.m_pTail = _
        rw [htail]
        simp only [lastPtr_append]
        rfl
      · show (List.set _ z.1 _)[x.1]? = _
        rw [get_set_other _ hzx, get_set_other _ hyx]

/-! ## Traversals of a chain -/

theorem traverse_forward {m : FIFOHashMap K V} {A : List (Nat × K × V)} {p : Ptr}
    (hs : Seg m.heap p A none) (fuel : Nat) (hf : A.length ≤ fuel) :
    traverseFrom m fuel { m_pCurrCell := nextPtr none A, m_isReverse := false } =
      some (A.map (fun x => x.2)) := by
  induction A generalizing p fuel with
  | nil =>
    unfold traverseFrom
    simp [FIFOHashMapIterator.ne, FIFOHashMap.end, nextPtr]
  | cons x rest ih =>
    obtain ⟨hx, hrest⟩ := hs
    cases fuel with
    | zero => simp at hf
    | succ f =>
      have hf1 : rest.length ≤ f := by simpa using hf
      rw [show nextPtr none (x :: rest) = some x.1 from rfl]
      unfold traverseFrom
      simp [FIFOHashMapIterator.ne, FIFOHashMap.end, FIFOHashMapIterator.deref,
        FIFOHashMapIterator.inc, readCell, hx, ih hrest f hf1]

theorem traverse_backward {m : FIFOHashMap K V} {A : List (Nat × K × V)} {n : Ptr}
    (hs : Seg m.heap none A n) (fuel : Nat) (hf : A.length ≤ fuel) :
    traverseFrom m fuel { m_pCurrCell := lastPtr none A, m_isReverse := true } =
      some ((A.map (fun x => x.2)).reverse) := by
  induction A using List.reverseRecOn generalizing n fuel with
  | nil =>
    unfold traverseFrom
    simp [FIFOHashMapIterator.ne, FIFOHashMap.end, lastPtr]
  | append_singleton A0 y ih =>
    rw [Seg_append] at hs
    obtain ⟨hA, hy, -⟩ := hs
    cases fuel with
    | zero => simp at hf
    | succ f =>
      have hf1 : A0.length ≤ f := by simpa using hf
      unfold traverseFrom
      simp [FIFOHashMapIterator.ne, FIFOHashMap.end, lastPtr_concat, FIFOHashMapIterator.deref,
        FIFOHashMapIterator.inc, readCell, hy, ih hA f hf1]

theorem Chain.forward {m : FIFOHashMap K V} {A : List (Nat × K × V)} (hc : Chain m A) :
    m.forward = some (A.map (fun x => x.2)) := by
  unfold FIFOHashMap.forward FIFOHashMap.begin
  rw [hc.head]
  exact traverse_forward hc.seg _ (hc.seg.length_le hc.nodup)

theorem Chain.backward {m : FIFOHashMap K V} {A : List (Nat × K × V)} (hc : Chain m A) :
    m.backward = some ((A.map (fun x => x.2)).reverse) := by
  unfold FIFOHashMap.backward FIFOHashMap.rbegin
  rw [hc.tail]
  exact traverse_backward hc.seg _ (hc.seg.length_le hc.nodup)

/-! ## The table -/

theorem Rep.table_nodup {N : Nat} {m : FIFOHashMap K V} {A : List (Nat × K × V)}
    (hr : Rep N m A) : (m.m_map.map Prod.fst).Nodup := by
  have h1 := (hr.table.map Prod.fst).nodup_iff
  rw [h1, List.map_map]
  exact hr.keys

section Table
variable [DecidableEq K]

theorem tableFind_eq_none {t : List (K × Nat)} {k : K} :
    tableFind t k = none ↔ k ∉ t.map Prod.fst := by
  induction t with
  | nil => simp [tableFind]
  | cons e t ih =>
    by_cases h : e.1 = k
    · simp [tableFind, h]
    · simp only [tableFind, if_neg h, ih, List.map_cons, List.mem_cons, not_or]
      exact ⟨fun h1 => ⟨fun h2 => h h2.symm, h1⟩, fun h1 => h1.2⟩

theorem tableFind_some_mem {t : List (K × Nat)} {k : K} {a : Nat}
    (h : tableFind t k = some a) : (k, a) ∈ t := by
  induction t with
  | nil => simp [tableFind] at h
  | cons e t ih =>
    by_cases h1 : e.1 = k
    · simp only [tableFind, if_pos h1, Option.some.injEq] at h
      have : e = (k, a) := Prod.ext h1 h
      simp [this]
    · simp only [tableFind, if_neg h1] at h
      exact List.mem_cons_of_mem _ (ih h)

theorem tableFind_of_mem {t : List (K × Nat)} (hn : (t.map Prod.fst).Nodup) {k : K} {a : Nat}
    (h : (k, a) ∈ t) : tableFind t k = some a := by
  induction t with
  | nil => simp at h
  | cons e t ih =>
    simp only [List.map_cons, List.nodup_cons] at hn
    rcases List.mem_cons.mp h with h1 | h1
    · subst h1
      simp [tableFind]
    · have hne : e.1 ≠ k := by
        intro h2
        apply hn.1
        rw [h2]
        exact List.mem_map_of_mem Prod.fst h1
      simp only [tableFind, if_neg hne]
      exact ih hn.2 h1

theorem filter_key_split {A B : List (Nat × K × V)} {x : Nat × K × V}
    (hk : ((A ++ x :: B).map (fun e => e.2.1)).Nodup) :
    (A ++ x :: B).filter (fun e => decide (e.2.1 ≠ x.2.1)) = A ++ B := by
  simp only [List.map_append, List.map_cons] at hk
  rw [List.nodup_append] at hk
  obtain ⟨-, hxB, hdis⟩ := hk
  have hB : ∀ e ∈ B, e.2.1 ≠ x.2.1 := by
    intro e he h
    apply (List.nodup_cons.mp hxB).1
    rw [← h]
    exact List.mem_map_of_mem (fun e => e.2.1) he
  have hA : ∀ e ∈ A, e.2.1 ≠ x.2.1 := by
    intro e he h
    exact hdis (List.mem_map_of_mem (fun e => e.2.1) he) (by simp [h])
  rw [List.filter_append, List.filter_cons]
  simp only [ne_eq, not_true_eq_false, decide_False, Bool.false_eq_true, if_false]
  rw [List.filter_eq_self.mpr (fun e he => by simpa using hA e he),
    List.filter_eq_self.mpr (fun e he => by simpa using hB e he)]

theorem tableErase_perm {t : List (K × Nat)} {A B : List (Nat × K × V)} {x : Nat × K × V}
    (hp : t.Perm ((A ++ x :: B).map (fun e => (e.2.1, e.1))))
    (hk : ((A ++ x :: B).map (fun e => e.2.1)).Nodup) :
    (tableErase t x.2.1).Perm ((A ++ B).map (fun e => (e.2.1, e.1))) := by
  have h1 := List.Perm.filter (fun e : K × Nat => decide (e.1 ≠ x.2.1)) hp
  rw [List.filter_map] at h1
  have h2 : ((fun e : K × Nat => decide (e.1 ≠ x.2.1)) ∘ fun e : Nat × K × V => (e.2.1, e.1)) =
      fun e => decide (e.2.1 ≠ x.2.1) := rfl
  rw [h2, filter_key_split hk] at h1
  exact h1

theorem Rep.find_mem {N : Nat} {m : FIFOHashMap K V} {A : List (Nat × K × V)}
    (hr : Rep N m A) {x : Nat × K × V} (hx : x ∈ A) : tableFind m.m_map x.2.1 = some x.1 := by
  apply tableFind_of_mem hr.table_nodup
  rw [hr.table.mem_iff]
  exact List.mem_map_of_mem (fun e : Nat × K × V => (e.2.1, e.1)) hx

theorem Rep.find_some {N : Nat} {m : FIFOHashMap K V} {A : List (Nat × K × V)}
    (hr : Rep N m A) {k : K} {a : Nat} (h : tableFind m.m_map k = some a) :
    ∃ v, (a, k, v) ∈ A := by
  have h1 := tableFind_some_mem h
  rw [hr.table.mem_iff, List.mem_map] at h1
  obtain ⟨e, he, heq⟩ := h1
  simp only [Prod.mk.injEq] at heq
  refine ⟨e.2.2, ?_⟩
  rw [← heq.1, ← heq.2]
  exact he

theorem Rep.find_none {N : Nat} {m : FIFOHashMap K V} {A : List (Nat × K × V)}
    (hr : Rep N m A) {k : K} (hk : k ∉ A.map (fun e => e.2.1)) : tableFind m.m_map k = none := by
  rw [tableFind_eq_none]
  intro h
  apply hk
  have h1 := (hr.table.map Prod.fst).mem_iff (a := k)
  rw [h1, List.map_map] at h
  exact h

theorem Rep.find_none_iff {N : Nat} {m : FIFOHashMap K V} {A : List (Nat × K × V)}
    (hr : Rep N m A) {k : K} : tableFind m.m_map k = none ↔ k ∉ A.map (fun e => e.2.1) := by
  refine ⟨fun h hk => ?_, hr.find_none⟩
  obtain ⟨e, he, rfl⟩ := List.mem_map.mp hk
  rw [hr.find_mem he] at h
  exact Option.noConfusion h

end Table

/-! ## The operations of the container on a represented state -/

theorem Chain.of_eq {m m1 : FIFOHashMap K V} {A : List (Nat × K × V)} (hc : Chain m A)
    (hh : m1.heap = m.heap) (hq : m1.m_queue = m.m_queue) : Chain m1 A :=
  ⟨by rw [hh]; exact hc.seg, hc.nodup, by rw [hq]; exact hc.head, by rw [hq]; exact hc.tail⟩

theorem Chain.fresh {m : FIFOHashMap K V} {A : List (Nat × K × V)} (hc : Chain m A) :
    m.heap.length ∉ A.map (fun e => e.1) :=
  fun h => Nat.lt_irrefl _ (hc.seg.addr_lt _ h)

theorem Chain.set_heap {m m1 : FIFOHashMap K V} {A : List (Nat × K × V)} (hc : Chain m A)
    {a : Nat} (d : Option (FIFOHashMapCell K V)) (ha : a ∉ A.map (fun e => e.1))
    (hh : m1.heap = m.heap.set a d) (hq : m1.m_queue = m.m_queue) : Chain m1 A :=
  ⟨by rw [hh]; exact hc.seg.frame_set d ha, hc.nodup, by rw [hq]; exact hc.head,
    by rw [hq]; exact hc.tail⟩

theorem Chain.append_heap {m m1 : FIFOHashMap K V} {A : List (Nat × K × V)} (hc : Chain m A)
    (c : FIFOHashMapCell K V) (hh : m1.heap = m.heap ++ [some c]) (hq : m1.m_queue = m.m_queue) :
    Chain m1 A := by
  refine ⟨?_, hc.nodup, by rw [hq]; exact hc.head, by rw [hq]; exact hc.tail⟩
  rw [hh]
  exact hc.seg.frame (fun a ha => List.getElem?_append_left (hc.seg.addr_lt a ha))

theorem evicted_length_lt {N : Nat} {A : List (Nat × K × V)} (hN1 : 1 ≤ N) (hcap : A.length ≤ N) :
    (evicted N A).length < N := by
  unfold evicted
  split
  · simp only [List.length_tail]; omega
  · omega

section Ops
variable [DecidableEq K]

theorem Chain.pop {m : FIFOHashMap K V} {x : Nat × K × V} {B : List (Nat × K × V)}
    (hc : Chain m (x :: B)) (hfind : tableFind m.m_map x.2.1 = some x.1) :
    ∃ m1, m.pop = some m1 ∧ Chain m1 B ∧ m1.m_map = tableErase m.m_map x.2.1 ∧
      m1.m_size = sizeDec m.m_size ∧ m1.heap.length = m.heap.length ∧
      m1.heap[x.1]? = some none ∧
      ∀ b, b ∉ B.map (fun e => e.1) → b ≠ x.1 → m1.heap[b]? = m.heap[b]? := by
  obtain ⟨m0, h0, hc0, hmap, hsize, hlen, hfr⟩ := hc.removeFirst
  have hhead : m.m_queue.m_pHead = some x.1 := hc.head
  have hxB : x.1 ∉ B.map (fun e => e.1) := by
    have := hc.nodup
    simp only [List.map_cons, List.nodup_cons] at this
    exact this.1
  have hx0 : m0.heap[x.1]? = some (some _) := (hfr x.1 hxB).trans hc.seg.1
  refine ⟨{ m0 with
      heap := m0.heap.set x.1 none,
      m_map := tableErase m0.m_map x.2.1,
      m_size := sizeDec m0.m_size }, ?_,
    hc0.set_heap none hxB rfl rfl, by rw [hmap], by rw [hsize], by simp [hlen],
    get_set_same _ hx0, ?_⟩
  · simp only [FIFOHashMap.pop, hhead, readCell, hc.seg.1, h0, mapErase, hmap, hfind]
  · intro b hb hbx
    show (m0.heap.set x.1 none)[b]? = _
    rw [get_set_other _ (Ne.symm hbx)]
    exact hfr b hb

theorem Rep.pop_cons {N : Nat} {m : FIFOHashMap K V} {x : Nat × K × V} {B : List (Nat × K × V)}
    (hr : Rep N m (x :: B)) (hN : N < sizeWrap) :
    ∃ m1, m.pop = some m1 ∧ Rep N m1 B ∧ m1.heap.length = m.heap.length := by
  obtain ⟨m1, h1, hc1, hmap, hsize, hlen, -, -⟩ :=
    hr.chain.pop (hr.find_mem (List.mem_cons_self _ _))
  refine ⟨m1, h1, ⟨hc1, ?_, ?_, ?_, ?_⟩, hlen⟩
  · have := hr.keys
    simp only [List.map_cons, List.nodup_cons] at this
    exact this.2
  · rw [hmap]
    exact tableErase_perm (A := []) hr.table hr.keys
  · have hcap := hr.cap
    simp only [List.length_cons] at hcap
    rw [hsize, hr.size, sizeDec_pos (by simp) (by simp only [List.length_cons]; omega)]
    simp
  · have hcap := hr.cap
    simp only [List.length_cons] at hcap
    omega

theorem Rep.popIfFull {N : Nat} {m : FIFOHashMap K V} {A : List (Nat × K × V)}
    (hr : Rep N m A) (hN1 : 1 ≤ N) (hN : N < sizeWrap) :
    ∃ m1, m.popIfFull N = some m1 ∧ Rep N m1 (evicted N A) ∧
      m1.heap.length = m.heap.length := by
  unfold FIFOHashMap.popIfFull evicted
  rw [hr.size]
  by_cases hfull : N ≤ A.length
  · rw [if_pos hfull, if_pos hfull]
    cases A with
    | nil => simp at hfull; omega
    | cons x B => exact hr.pop_cons hN
  · rw [if_neg (by omega), if_neg hfull]
    exact ⟨m, rfl, hr, rfl⟩

theorem Rep.push {N : Nat} {m : FIFOHashMap K V} {B : List (Nat × K × V)}
    (hr : Rep N m B) (hlt : B.length < N) (hN : N < sizeWrap) {k : K} (v : V)
    (hk : k ∉ B.map (fun e => e.2.1)) :
    ∃ m2 m3, emplace m k { m_key := k, m_value := v, m_next := none, m_prev := none } =
        (m2, m.heap.length, true) ∧
      addLast m2 (some m.heap.length) = some m3 ∧
      Rep N { m3 with m_size := sizeInc m3.m_size } (B ++ [(m.heap.length, k, v)]) ∧
      m3.heap.length = m.heap.length + 1 ∧ m3.m_queue.m_pTail = some m.heap.length := by
  have hfind : tableFind m.m_map k = none := hr.find_none hk
  have hc2 : Chain
      { m with
        heap := m.heap ++ [some (⟨k, v, none, none⟩ : FIFOHashMapCell K V)],
        m_map := (k, m.heap.length) :: m.m_map } B :=
    hr.chain.append_heap _ rfl rfl
  obtain ⟨m3, h3, hc3, hmap, hsize, hlen⟩ := hc2.addLast (a := m.heap.length) (k := k) (v := v)
    hr.chain.fresh (List.getElem?_concat_length _ _)
  refine ⟨_, m3, by simp [emplace, hfind], h3, ⟨hc3.of_eq rfl rfl, ?_, ?_, ?_, ?_⟩, ?_, ?_⟩
  · simp only [List.map_append, List.map_cons, List.map_nil]
    rw [List.nodup_append]
    refine ⟨hr.keys, by simp, ?_⟩
    intro b hb hb1
    simp only [List.mem_singleton] at hb1
    subst hb1
    exact hk hb
  · show m3.m_map.Perm _
    rw [hmap]
    simp only [List.map_append, List.map_cons, List.map_nil]
    exact (List.Perm.cons _ hr.table).trans (List.perm_append_singleton _ _).symm
  · show sizeInc m3.m_size = _
    rw [hsize]
    show sizeInc m.m_size = _
    rw [hr.size, sizeInc_lt (by omega)]
    simp
  · simp only [List.length_append, List.length_singleton]
    omega
  · rw [hlen]; simp
  · rw [hc3.tail, lastPtr_concat]

theorem Rep.insert_new {N : Nat} {m : FIFOHashMap K V} {A : List (Nat × K × V)}
    (hr : Rep N m A) (hN1 : 1 ≤ N) (hN : N < sizeWrap) {k : K} (v : V)
    (hk : k ∉ A.map (fun e => e.2.1)) :
    ∃ m1, m.insert N (k, v) =
        some (m1, { m_pCurrCell := some m.heap.length, m_isReverse := false }, true) ∧
      Rep N m1 (evicted N A ++ [(m.heap.length, k, v)]) ∧
      m1.heap.length = m.heap.length + 1 := by
  obtain ⟨m1, h1, hr1, hlen1⟩ := hr.popIfFull hN1 hN
  have hk1 : k ∉ (evicted N A).map (fun e => e.2.1) := by
    intro h
    apply hk
    unfold evicted at h
    split at h
    · exact (List.map_tail _ A ▸ List.mem_of_mem_tail) h
    · exact h
  obtain ⟨m2, m3, h2, h3, hr3, hlen3, htail3⟩ := hr1.push (evicted_length_lt hN1 hr.cap) hN v hk1
  refine ⟨{ m3 with m_size := sizeInc m3.m_size }, ?_, by rw [← hlen1]; exact hr3,
    by rw [← hlen1]; exact hlen3⟩
  rw [hlen1] at h2 h3 htail3
  simp only [FIFOHashMap.insert, hr.find_none hk, h1, h2, h3, htail3]

theorem Rep.indexAccess_new [Inhabited V] {N : Nat} {m : FIFOHashMap K V}
    {A : List (Nat × K × V)} (hr : Rep N m A) (hN1 : 1 ≤ N) (hN : N < sizeWrap) {k : K}
    (hk : k ∉ A.map (fun e => e.2.1)) :
    ∃ m1, m.indexAccess N k = some (m1, m.heap.length) ∧
      Rep N m1 (evicted N A ++ [(m.heap.length, k, default)]) ∧
      m1.heap.length = m.heap.length + 1 := by
  obtain ⟨m1, h1, hr1, hlen1⟩ := hr.popIfFull hN1 hN
  have hk1 : k ∉ (evicted N A).map (fun e => e.2.1) := by
    intro h
    apply hk
    unfold evicted at h
    split at h
    · exact (List.map_tail _ A ▸ List.mem_of_mem_tail) h
    · exact h
  obtain ⟨m2, m3, h2, h3, hr3, hlen3, -⟩ :=
    hr1.push (evicted_length_lt hN1 hr.cap) hN (default : V) hk1
  refine ⟨{ m3 with m_size := sizeInc m3.m_size }, ?_, by rw [← hlen1]; exact hr3,
    by rw [← hlen1]; exact hlen3⟩
  rw [hlen1] at h2 h3
  simp only [FIFOHashMap.indexAccess, hr.find_none hk, h1, h2, h3]

end Ops

theorem nodup_remove_middle {α β : Type} (f : α → β) {A B : List α} {x : α}
    (h : ((A ++ x :: B).map f).Nodup) : ((A ++ B).map f).Nodup :=
  List.Nodup.sublist (((List.sublist_cons_self x B).append_left A).map f) h

theorem not_mem_remove_middle {α β : Type} (f : α → β) {A B : List α} {x : α}
    (h : ((A ++ x :: B).map f).Nodup) : f x ∉ (A ++ B).map f := by
  have h1 := (@List.perm_middle α x A B).map f
  have h2 := h1.nodup_iff.mp h
  simp only [List.map_cons, List.nodup_cons] at h2
  exact h2.1

theorem Seg.set_value {h : List (Option (FIFOHashMapCell K V))} {p n : Ptr}
    {A B : List (Nat × K × V)} {x : Nat × K × V} (v1 : V)
    (hs : Seg h p (A ++ x :: B) n) (hn : ((A ++ x :: B).map (fun e => e.1)).Nodup) :
    ∃ c, h[x.1]? = some (some c) ∧
      Seg (h.set x.1 (some { c with m_value := v1 })) p (A ++ (x.1, x.2.1, v1) :: B) n := by
  have hnot := not_mem_remove_middle (fun e : Nat × K × V => e.1) hn
  simp only [List.map_append, List.mem_append, not_or] at hnot
  rw [Seg_append] at hs
  obtain ⟨hA, hx, hB⟩ := hs
  refine ⟨_, hx, ?_⟩
  rw [Seg_append]
  refine ⟨hA.frame_set _ hnot.1, ?_, hB.frame_set _ hnot.2⟩
  show (List.set _ x.1 _)[x.1]? = _
  rw [get_set_same _ hx]

theorem Rep.setValue {N : Nat} {m : FIFOHashMap K V} {A B : List (Nat × K × V)}
    {x : Nat × K × V} (hr : Rep N m (A ++ x :: B)) (v1 : V) :
    ∃ m1, setValue m (some x.1) v1 = some m1 ∧ Rep N m1 (A ++ (x.1, x.2.1, v1) :: B) ∧
      m1.heap.length = m.heap.length := by
  obtain ⟨c, hx, hseg⟩ := Seg.set_value v1 hr.chain.seg hr.chain.nodup
  refine ⟨_, setValue_some v1 hx, ⟨⟨hseg, ?_, ?_, ?_⟩, ?_, ?_, ?_, ?_⟩, by simp⟩
  · have := hr.chain.nodup
    simpa using this
  · show m.m_queue.m_pHead = _
    rw [hr.chain.head, nextPtr_append, nextPtr_append]
    rfl
  · show m.m_queue.m_pTail = _
    rw [hr.chain.tail, lastPtr_append, lastPtr_append]
    rfl
  · have := hr.keys
    simpa using this
  · have := hr.table
    simpa using this
  · have := hr.size
    simpa using this
  · have := hr.cap
    simpa using this

theorem Chain.setPrev_off {m : FIFOHashMap K V} {A : List (Nat × K × V)} (hc : Chain m A)
    {a : Nat} {c : FIFOHashMapCell K V} (v : Ptr) (ha : a ∉ A.map (fun e => e.1))
    (hcell : m.heap[a]? = some (some c)) :
    ∃ m1, setPrev m (some a) v = some m1 ∧ Chain m1 A ∧
      m1.heap[a]? = some (some { c with m_prev := v }) ∧ m1.m_map = m.m_map ∧
      m1.m_size = m.m_size ∧ m1.heap.length = m.heap.length ∧ m1.m_queue = m.m_queue :=
  ⟨_, setPrev_some v hcell, hc.set_heap _ ha rfl rfl, get_set_same _ hcell, rfl, rfl,
    by simp, rfl⟩

theorem Chain.setNext_off {m : FIFOHashMap K V} {A : List (Nat × K × V)} (hc : Chain m A)
    {a : Nat} {c : FIFOHashMapCell K V} (v : Ptr) (ha : a ∉ A.map (fun e => e.1))
    (hcell : m.heap[a]? = some (some c)) :
    ∃ m1, setNext m (some a) v = some m1 ∧ Chain m1 A ∧
      m1.heap[a]? = some (some { c with m_next := v }) ∧ m1.m_map = m.m_map ∧
      m1.m_size = m.m_size ∧ m1.heap.length = m.heap.length ∧ m1.m_queue = m.m_queue :=
  ⟨_, setNext_some v hcell, hc.set_heap _ ha rfl rfl, get_set_same _ hcell, rfl, rfl,
    by simp, rfl⟩

section Ops2
variable [DecidableEq K]

theorem Rep.erase_released {N : Nat} {m : FIFOHashMap K V} {A B : List (Nat × K × V)}
    {x : Nat × K × V} (hr : Rep N m (A ++ x :: B))
    (pos : FIFOHashMapIterator) (hpos : pos.m_pCurrCell = some x.1) :
    m.erase pos = none := by
  have hseg := hr.chain.seg
  rw [Seg_append] at hseg
  obtain ⟨-, hx, -⟩ := hseg
  have hfind := hr.find_mem (x := x) (by simp)
  have hne : pos.ne m.end = true := by
    simp [FIFOHashMapIterator.ne, FIFOHashMap.end, hpos]
  have hderef : pos.deref m = some (x.2.1, x.2.2) := by
    have hx1 : m.heap[x.1]? = _ := hx
    simp [FIFOHashMapIterator.deref, readCell, hpos, hx1]
  have hcount : tableEraseCount m.m_map x.2.1 = 1 := by
    simp [tableEraseCount, hfind]
  have hfreed : (m.heap.set x.1 none)[x.1]? = some none := get_set_same none hx
  have hcell : removeCell (mapErase m x.2.1) (some x.1) = none := by
    simp [removeCell, mapErase, hfind, readCell, hfreed]
  unfold FIFOHashMap.erase
  rw [if_neg (by simp [hne]), hderef]
  simp only [hcount]
  rw [if_pos (by simp), hpos, hcell]

theorem Rep.released_cell {N : Nat} {m : FIFOHashMap K V} {A B : List (Nat × K × V)}
    {x : Nat × K × V} (hr : Rep N m (A ++ x :: B)) :
    readCell (mapErase m x.2.1) (some x.1) = none := by
  have hseg := hr.chain.seg
  rw [Seg_append] at hseg
  obtain ⟨-, hx, -⟩ := hseg
  have hfind := hr.find_mem (x := x) (by simp)
  have hfreed : (m.heap.set x.1 none)[x.1]? = some none := get_set_same none hx
  simp [mapErase, hfind, readCell, hfreed]

theorem Rep.eraseUnchecked_spec {N : Nat} {m : FIFOHashMap K V} {A B : List (Nat × K × V)}
    {x : Nat × K × V} (hr : Rep N m (A ++ x :: B)) (hN : N < sizeWrap)
    (pos : FIFOHashMapIterator) (hpos : pos.m_pCurrCell = some x.1) :
    ∃ m1, m.eraseUnchecked pos = some (m1, eraseResult pos A B) ∧ Rep N m1 (A ++ B) ∧
      m1.heap.length = m.heap.length := by
  have hc0 : Chain { m with m_map := tableErase m.m_map x.2.1 } (A ++ x :: B) :=
    hr.chain.of_eq rfl rfl
  obtain ⟨m1, h1, hc1, hmap, hsize, hlen, hfr, hx⟩ := hc0.removeCell
  have hfind := hr.find_mem (x := x) (by simp)
  have hne : pos.ne m.end = true := by
    simp [FIFOHashMapIterator.ne, FIFOHashMap.end, hpos]
  have hderef : pos.deref m = some (x.2.1, x.2.2) := by
    have hx1 : m.heap[x.1]? = _ := hx
    simp [FIFOHashMapIterator.deref, readCell, hpos, hx1]
  have hcount : tableEraseCount m.m_map x.2.1 = 1 := by
    simp [tableEraseCount, hfind]
  have hread : readCell { m1 with m_size := sizeDec m1.m_size } pos.m_pCurrCell =
      some { m_key := x.2.1, m_value := x.2.2, m_next := nextPtr none B,
             m_prev := lastPtr none A } := by
    have hx1 : m1.heap[x.1]? = some (some _) := hfr.trans hx
    simp only [hpos, readCell, hx1]
  have hcap := hr.cap
  simp only [List.length_append, List.length_cons] at hcap
  refine ⟨{ m1 with m_size := sizeDec m1.m_size }, ?_, ⟨hc1.of_eq rfl rfl, ?_, ?_, ?_, ?_⟩, hlen⟩
  · unfold FIFOHashMap.eraseUnchecked
    rw [if_neg (by simp [hne]), hderef]
    simp only [hcount]
    rw [if_pos (by simp)]
    rw [hpos] at hread ⊢
    simp only [h1, hread] 
    unfold eraseResult
    by_cases hB : nextPtr none B = none
    · rw [if_pos hB, if_pos hB]
      rw [hc1.tail, lastPtr_append]
      cases B with
      | nil => rfl
      | cons z B0 => simp [nextPtr] at hB
    · rw [if_neg hB, if_neg hB]
      simp only [FIFOHashMapIterator.inc, hpos, hread]
      by_cases hrev : pos.m_isReverse = false
      · rw [if_pos hrev, if_pos hrev]
      · rw [if_neg hrev, if_neg hrev]
  · exact nodup_remove_middle (fun e : Nat × K × V => e.2.1) hr.keys
  · show m1.m_map.Perm _
    rw [hmap]
    exact tableErase_perm hr.table hr.keys
  · show sizeDec m1.m_size = _
    rw [hsize]
    show sizeDec m.m_size = _
    rw [hr.size, sizeDec_pos (by simp) (by simp only [List.length_append, List.length_cons]; omega)]
    simp
  · simp only [List.length_append]
    omega

theorem Rep.moveElementToTail {N : Nat} {m : FIFOHashMap K V} {A B : List (Nat × K × V)}
    {x : Nat × K × V} (hr : Rep N m (A ++ x :: B)) :
    ∃ m1, m.moveElementToTail x.2.1 = some m1 ∧ Rep N m1 (A ++ B ++ [x]) ∧
      m1.heap.length = m.heap.length := by
  obtain ⟨m1, h1, hc1, hmap1, hsize1, hlen1, hfr, hx⟩ := hr.chain.removeCell
  have hfind := hr.find_mem (x := x) (by simp)
  have hnot := not_mem_remove_middle (fun e : Nat × K × V => e.1) hr.chain.nodup
  obtain ⟨m2, h2, hc2, hx2, hmap2, hsize2, hlen2, -⟩ := hc1.setPrev_off none hnot (hfr.trans hx)
  obtain ⟨m3, h3, hc3, hx3, hmap3, hsize3, hlen3, -⟩ := hc2.setNext_off none hnot hx2
  obtain ⟨m4, h4, hc4, hmap4, hsize4, hlen4⟩ := hc3.addLast hnot hx3
  have hperm : (A ++ B ++ [x]).Perm (A ++ x :: B) :=
    (List.perm_append_singleton x (A ++ B)).trans List.perm_middle.symm
  refine ⟨m4, ?_, ⟨hc4, ?_, ?_, ?_, ?_⟩, ?_⟩
  · simp only [FIFOHashMap.moveElementToTail, hfind, h1, h2, h3]
    exact h4
  · exact ((hperm.map _).nodup_iff).mpr hr.keys
  · rw [hmap4, hmap3, hmap2, hmap1]
    exact hr.table.trans (hperm.map _).symm
  · rw [hsize4, hsize3, hsize2, hsize1, hr.size, hperm.length_eq]
  · rw [hperm.length_eq]
    exact hr.cap
  · rw [hlen4, hlen3, hlen2, hlen1]

theorem Rep.moveElementToHead {N : Nat} {m : FIFOHashMap K V} {A B : List (Nat × K × V)}
    {x : Nat × K × V} (hr : Rep N m (A ++ x :: B)) (hAB : A ++ B ≠ []) :
    ∃ m1, m.moveElementToHead x.2.1 = some m1 ∧ Rep N m1 (x :: (A ++ B)) ∧
      m1.heap.length = m.heap.length := by
  obtain ⟨m1, h1, hc1, hmap1, hsize1, hlen1, hfr, hx⟩ := hr.chain.removeCell
  have hfind := hr.find_mem (x := x) (by simp)
  have hnot := not_mem_remove_middle (fun e : Nat × K × V => e.1) hr.chain.nodup
  obtain ⟨z, C, hzC⟩ : ∃ z C, A ++ B = z :: C := by
    cases hAB1 : A ++ B with
    | nil => exact absurd hAB1 hAB
    | cons z C => exact ⟨z, C, rfl⟩
  have hperm : (x :: (A ++ B)).Perm (A ++ x :: B) := List.perm_middle.symm
  have hkeys := ((hperm.map (fun e : Nat × K × V => e.2.1)).nodup_iff).mpr hr.keys
  have hadds := ((hperm.map (fun e : Nat × K × V => e.1)).nodup_iff).mpr hr.chain.nodup
  have htab := hr.table.trans (hperm.map (fun e : Nat × K × V => (e.2.1, e.1))).symm
  have hsz : m.m_size = (x :: (A ++ B)).length := by rw [hr.size, hperm.length_eq]
  have hcp : (x :: (A ++ B)).length ≤ N := by rw [hperm.length_eq]; exact hr.cap
  rw [hzC] at hc1 hnot hkeys hadds htab hsz hcp ⊢
  have hzx : z.1 ≠ x.1 := by
    intro h
    exact hnot (by simp [h])
  obtain ⟨m2, h2, hc2, hx2, hmap2, hsize2, hlen2, hq2⟩ := hc1.setPrev_off none hnot (hfr.trans hx)
  have hhead2 : m2.m_queue.m_pHead = some z.1 := hc2.head
  obtain ⟨m3, h3, hc3, hx3, hmap3, hsize3, hlen3, hq3⟩ := hc2.setNext_off (some z.1) hnot hx2
  have hhead3 : m3.m_queue.m_pHead = some z.1 := hc3.head
  obtain ⟨d, hz, -, -, hseg4⟩ := Seg.set_first_prev (some x.1) hc3.seg hc3.nodup
  have h4 := setPrev_some (some x.1) hz
  refine ⟨{ m3 with
              heap := m3.heap.set z.1 (some { d with m_prev := some x.1 }),
              m_queue := { m3.m_queue with m_pHead := some x.1 } },
    ?_, ⟨⟨⟨?_, hseg4⟩, hadds, rfl, ?_⟩, hkeys, ?_, ?_, hcp⟩, ?_⟩
  · simp only [FIFOHashMap.moveElementToHead, hfind, h1, h2, hhead2, h3, hhead3, h4]
  · show (List.set _ z.1 _)[x.1]? = _
    rw [get_set_other _ hzx, hx3]
    rfl
  · show m3.m_queue.m_pTail = _
    rw [hc3.tail]
    rfl
  · show m3.m_map.Perm _
    rw [hmap3, hmap2, hmap1]
    exact htab
  · show m3.m_size = _
    rw [hsize3, hsize2, hsize1]
    exact hsz
  · show (List.set _ _ _).length = _
    rw [List.length_set, hlen3, hlen2, hlen1]

theorem Rep.moveElementToHead_single {N : Nat} {m : FIFOHashMap K V} {x : Nat × K × V}
    (hr : Rep N m [x]) : m.moveElementToHead x.2.1 = none := by
  have hr1 : Rep N m ([] ++ x :: []) := hr
  obtain ⟨m1, h1, hc1, hmap1, hsize1, hlen1, hfr, hx⟩ := hr1.chain.removeCell
  have hfind := hr.find_mem (x := x) (by simp)
  have hnot : x.1 ∉ ([] : List (Nat × K × V)).map (fun e => e.1) := by simp
  obtain ⟨m2, h2, hc2, hx2, hmap2, hsize2, hlen2, hq2⟩ := hc1.setPrev_off none hnot (hfr.trans hx)
  have hhead2 : m2.m_queue.m_pHead = none := hc2.head
  obtain ⟨m3, h3, hc3, hx3, hmap3, hsize3, hlen3, hq3⟩ := hc2.setNext_off none hnot hx2
  have hhead3 : m3.m_queue.m_pHead = none := hc3.head
  simp only [FIFOHashMap.moveElementToHead, hfind, h1, h2, hhead2, h3, hhead3]
  rfl

end Ops2

section Ops3
variable [DecidableEq K]

theorem Rep.initStep_old {N : Nat} {m : FIFOHashMap K V} {A : List (Nat × K × V)}
    (hr : Rep N m A) {k : K} (v : V) (hk : k ∈ A.map (fun e => e.2.1)) :
    m.initStep N (k, v) = some m := by
  obtain ⟨x, hx, rfl⟩ := List.mem_map.mp hk
  simp only [FIFOHashMap.initStep, emplace, hr.find_mem hx]

theorem Rep.initStep_new {N : Nat} {m : FIFOHashMap K V} {A : List (Nat × K × V)}
    (hr : Rep N m A) (hN1 : 1 ≤ N) (hN : N < sizeWrap) {k : K} (v : V)
    (hk : k ∉ A.map (fun e => e.2.1)) :
    ∃ m1, m.initStep N (k, v) = some m1 ∧
      Rep N m1 (evicted N A ++ [(m.heap.length, k, v)]) ∧
      m1.heap.length = m.heap.length + 1 := by
  have hfind : tableFind m.m_map k = none := hr.find_none hk
  have hc2 : Chain
      { m with
        heap := m.heap ++ [some (⟨k, v, none, none⟩ : FIFOHashMapCell K V)],
        m_map := (k, m.heap.length) :: m.m_map } A :=
    hr.chain.append_heap _ rfl rfl
  have hcell : (m.heap ++ [some (⟨k, v, none, none⟩ : FIFOHashMapCell K V)])[m.heap.length]? =
      some (some ⟨k, v, none, none⟩) := List.getElem?_concat_length _ _
  have hem : emplace m k { m_key := k, m_value := v, m_next := none, m_prev := none } =
      ({ m with
          heap := m.heap ++ [some (⟨k, v, none, none⟩ : FIFOHashMapCell K V)],
          m_map := (k, m.heap.length) :: m.m_map }, m.heap.length, true) := by
    simp [emplace, hfind]
  have hcap := hr.cap
  by_cases hfull : N ≤ A.length
  · cases A with
    | nil => simp at hfull; omega
    | cons x B =>
      simp only [List.length_cons] at hcap hfull
      have hkx : x.2.1 ≠ k := by
        intro h
        exact hk (by simp [h])
      have hkB : k ∉ B.map (fun e => e.2.1) := fun h => hk (by simp at h ⊢; exact Or.inr h)
      have hfreshB : m.heap.length ∉ B.map (fun e => e.1) := by
        intro h
        exact hr.chain.fresh (by simp at h ⊢; exact Or.inr h)
      have hfreshx : m.heap.length ≠ x.1 := by
        intro h
        exact hr.chain.fresh (by simp [h])
      have hfindx : tableFind ((k, m.heap.length) :: m.m_map) x.2.1 = some x.1 := by
        have h0 := hr.find_mem (List.mem_cons_self x B)
        simpa [tableFind, List.find?_cons, Ne.symm hkx] using h0
      obtain ⟨m3, h3, hc3, hmap3, hsize3, hlen3, -, hfr3⟩ := hc2.pop hfindx
      have hcell3 : m3.heap[m.heap.length]? = some (some ⟨k, v, none, none⟩) :=
        (hfr3 _ hfreshB hfreshx).trans hcell
      obtain ⟨m4, h4, hc4, hmap4, hsize4, hlen4⟩ := hc3.addLast hfreshB hcell3
      have hev : evicted N (x :: B) = B := by
        unfold evicted
        rw [if_pos (by simp only [List.length_cons]; omega)]
        rfl
      rw [hev]
      refine ⟨{ m4 with m_size := sizeInc m4.m_size }, ?_,
        ⟨hc4.of_eq rfl rfl, ?_, ?_, ?_, ?_⟩, ?_⟩
      · have hpf : FIFOHashMap.popIfFull N
            { m with
              heap := m.heap ++ [some (⟨k, v, none, none⟩ : FIFOHashMapCell K V)],
              m_map := (k, m.heap.length) :: m.m_map } = some m3 := by
          unfold FIFOHashMap.popIfFull
          rw [if_pos (by show N ≤ m.m_size; rw [hr.size]; simp only [List.length_cons]; omega)]
          exact h3
        simp only [FIFOHashMap.initStep, hem, hpf, h4]
      · have hkeys := hr.keys
        simp only [List.map_cons, List.nodup_cons] at hkeys
        simp only [List.map_append, List.map_cons, List.map_nil]
        rw [List.nodup_append]
        refine ⟨hkeys.2, by simp, ?_⟩
        intro b hb hb1
        simp only [List.mem_singleton] at hb1
        subst hb1
        exact hkB hb
      · show m4.m_map.Perm _
        rw [hmap4, hmap3]
        have h5 : tableErase ((k, m.heap.length) :: m.m_map) x.2.1 =
            (k, m.heap.length) :: tableErase m.m_map x.2.1 := by
          simp [tableErase, List.filter_cons, Ne.symm hkx]
        rw [h5]
        simp only [List.map_append, List.map_cons, List.map_nil]
        exact (List.Perm.cons _ (tableErase_perm (A := []) hr.table hr.keys)).trans
          (List.perm_append_singleton _ _).symm
      · show sizeInc m4.m_size = _
        rw [hsize4, hsize3]
        show sizeInc (sizeDec m.m_size) = _
        rw [hr.size, sizeDec_pos (by simp) (by simp only [List.length_cons]; omega)]
        simp only [List.length_cons, Nat.add_sub_cancel, List.length_append,
          List.length_singleton]
        exact sizeInc_lt (by omega)
      · simp only [List.length_append, List.length_singleton]
        omega
      · show m4.heap.length = _
        rw [hlen4, hlen3]
        simp
  · have hev : evicted N A = A := by
      unfold evicted
      rw [if_neg hfull]
    rw [hev]
    obtain ⟨m4, h4, hc4, hmap4, hsize4, hlen4⟩ := hc2.addLast hr.chain.fresh hcell
    refine ⟨{ m4 with m_size := sizeInc m4.m_size }, ?_,
      ⟨hc4.of_eq rfl rfl, ?_, ?_, ?_, ?_⟩, ?_⟩
    · have hpf : FIFOHashMap.popIfFull N
          { m with
            heap := m.heap ++ [some (⟨k, v, none, none⟩ : FIFOHashMapCell K V)],
            m_map := (k, m.heap.length) :: m.m_map } =
          some { m with
            heap := m.heap ++ [some (⟨k, v, none, none⟩ : FIFOHashMapCell K V)],
            m_map := (k, m.heap.length) :: m.m_map } := by
        unfold FIFOHashMap.popIfFull
        rw [if_neg (by show ¬ N ≤ m.m_size; rw [hr.size]; exact hfull)]
      simp only [FIFOHashMap.initStep, hem, hpf, h4]
    · simp only [List.map_append, List.map_cons, List.map_nil]
      rw [List.nodup_append]
      refine ⟨hr.keys, by simp, ?_⟩
      intro b hb hb1
      simp only [List.mem_singleton] at hb1
      subst hb1
      exact hk hb
    · show m4.m_map.Perm _
      rw [hmap4]
      simp only [List.map_append, List.map_cons, List.map_nil]
      exact (List.Perm.cons _ hr.table).trans (List.perm_append_singleton _ _).symm
    · show sizeInc m4.m_size = _
      rw [hsize4]
      show sizeInc m.m_size = _
      rw [hr.size, sizeInc_lt (by omega)]
      simp
    · simp only [List.length_append, List.length_singleton]
      omega
    · show m4.heap.length = _
      rw [hlen4]
      simp

theorem Rep.initLoop {N : Nat} (hN1 : 1 ≤ N) (hN : N < sizeWrap) (l : List (K × V)) :
    ∀ {m : FIFOHashMap K V} {A : List (Nat × K × V)}, Rep N m A →
      ∃ m1 A1, FIFOHashMap.initLoop N m l = some m1 ∧ Rep N m1 A1 := by
  induction l with
  | nil => exact fun {m A} hr => ⟨m, A, rfl, hr⟩
  | cons p rest ih =>
    intro m A hr
    by_cases hk : p.1 ∈ A.map (fun e => e.2.1)
    · have h1 := hr.initStep_old p.2 hk
      obtain ⟨m2, A2, h2, hr2⟩ := ih hr
      exact ⟨m2, A2, by simp only [FIFOHashMap.initLoop, h1, h2], hr2⟩
    · obtain ⟨m1, h1, hr1, -⟩ := hr.initStep_new hN1 hN p.2 hk
      obtain ⟨m2, A2, h2, hr2⟩ := ih hr1
      exact ⟨m2, A2, by simp only [FIFOHashMap.initLoop, h1, h2], hr2⟩

theorem Rep.pop_nil {N : Nat} {m : FIFOHashMap K V} (hr : Rep N m []) : m.pop = none := by
  have hhead : m.m_queue.m_pHead = none := hr.chain.head
  simp [FIFOHashMap.pop, hhead, readCell]

end Ops3

theorem Rep.empty (N : Nat) : Rep N (FIFOHashMap.empty : FIFOHashMap K V) [] :=
  ⟨⟨trivial, by simp, rfl, rfl⟩, by simp, List.Perm.refl _, rfl, Nat.zero_le _⟩

theorem Rep.map_nil {N : Nat} {m : FIFOHashMap K V} (hr : Rep N m []) : m.m_map = [] :=
  List.Perm.eq_nil hr.table


/-! ## Every reachable container is represented by a chain -/

theorem Rep.cap_zero {m : FIFOHashMap K V} {A : List (Nat × K × V)} (hr : Rep 0 m A) :
    A = [] :=
  List.length_eq_zero.mp (Nat.le_zero.mp hr.cap)

theorem Rep.owned {N : Nat} {m : FIFOHashMap K V} {A : List (Nat × K × V)} (hr : Rep N m A)
    {e : K × Nat} (he : e ∈ m.m_map) : ∃ A1 x A2, A = A1 ++ x :: A2 ∧ x.1 = e.2 ∧ x.2.1 = e.1 := by
  rw [hr.table.mem_iff, List.mem_map] at he
  obtain ⟨x, hx, rfl⟩ := he
  obtain ⟨A1, A2, rfl⟩ := List.append_of_mem hx
  exact ⟨A1, x, A2, rfl, rfl, rfl⟩

section Reach
variable [DecidableEq K]

theorem Rep.popIfFull_zero {m : FIFOHashMap K V} (hr : Rep 0 m []) : m.popIfFull 0 = none := by
  unfold FIFOHashMap.popIfFull
  rw [if_pos (Nat.zero_le _)]
  exact hr.pop_nil

theorem Rep.insert_step {N : Nat} (hN : N < sizeWrap) {m : FIFOHashMap K V}
    {A : List (Nat × K × V)} (hr : Rep N m A) (value : K × V)
    {r : FIFOHashMap K V × FIFOHashMapIterator × Bool} (h : m.insert N value = some r) :
    ∃ A1, Rep N r.1 A1 := by
  by_cases hk : value.1 ∈ A.map (fun e => e.2.1)
  · obtain ⟨x, hx, hxk⟩ := List.mem_map.mp hk
    have hfind := hr.find_mem hx
    rw [hxk] at hfind
    simp only [FIFOHashMap.insert, hfind, Option.some.injEq] at h
    subst h
    exact ⟨A, hr⟩
  · rcases Nat.eq_zero_or_pos N with h0 | h1
    · subst h0
      have hA := hr.cap_zero
      subst hA
      simp [FIFOHashMap.insert, hr.find_none hk, hr.popIfFull_zero] at h
    · obtain ⟨m1, h2, hr1, -⟩ := hr.insert_new h1 hN value.2 hk
      rw [show (value.1, value.2) = value from rfl, h] at h2
      simp only [Option.some.injEq] at h2
      subst h2
      exact ⟨_, hr1⟩

theorem Rep.indexAccess_old [Inhabited V] {N : Nat} {m : FIFOHashMap K V} {A : List (Nat × K × V)}
    (hr : Rep N m A) {x : Nat × K × V} (hx : x ∈ A) :
    m.indexAccess N x.2.1 = some (m, x.1) := by
  simp only [FIFOHashMap.indexAccess, hr.find_mem hx]

theorem Rep.indexAccess_step [Inhabited V] {N : Nat} (hN : N < sizeWrap) {m : FIFOHashMap K V}
    {A : List (Nat × K × V)} (hr : Rep N m A) (key : K)
    {r : FIFOHashMap K V × Nat} (h : m.indexAccess N key = some r) :
    ∃ A1, Rep N r.1 A1 ∧ ∃ v, (r.2, key, v) ∈ A1 := by
  by_cases hk : key ∈ A.map (fun e => e.2.1)
  · obtain ⟨x, hx, hxk⟩ := List.mem_map.mp hk
    have h1 := hr.indexAccess_old hx
    rw [hxk, h] at h1
    simp only [Option.some.injEq] at h1
    subst h1
    exact ⟨A, hr, x.2.2, by rw [← hxk]; exact hx⟩
  · rcases Nat.eq_zero_or_pos N with h0 | h1
    · subst h0
      have hA := hr.cap_zero
      subst hA
      simp [FIFOHashMap.indexAccess, hr.find_none hk, hr.popIfFull_zero] at h
    · obtain ⟨m1, h2, hr1, -⟩ := hr.indexAccess_new h1 hN hk
      rw [h] at h2
      simp only [Option.some.injEq] at h2
      subst h2
      exact ⟨_, hr1, default, by simp⟩

theorem Rep.erase_end {m : FIFOHashMap K V} (pos : FIFOHashMapIterator)
    (hpos : pos.m_pCurrCell = none) : m.erase pos = some (m, m.end) := by
  simp [FIFOHashMap.erase, FIFOHashMapIterator.ne, FIFOHashMap.end, hpos]

theorem Rep.erase_step {N : Nat} {m : FIFOHashMap K V}
    {A : List (Nat × K × V)} (hr : Rep N m A) (pos : FIFOHashMapIterator)
    (hown : m.ownsCursor pos) {r : FIFOHashMap K V × FIFOHashMapIterator}
    (h : m.erase pos = some r) : r.1 = m := by
  rcases hown with hnone | ⟨e, he, hpos⟩
  · rw [Rep.erase_end pos hnone] at h
    simp only [Option.some.injEq] at h
    subst h
    rfl
  · obtain ⟨A1, x, A2, rfl, hx1, -⟩ := hr.owned he
    rw [← hx1] at hpos
    rw [hr.erase_released pos hpos] at h
    exact Option.noConfusion h

theorem Rep.eraseKey_step {N : Nat} {m : FIFOHashMap K V}
    {A : List (Nat × K × V)} (hr : Rep N m A) (key : K) {r : FIFOHashMap K V × Nat}
    (h : m.eraseKey key = some r) : r.1 = m := by
  unfold FIFOHashMap.eraseKey at h
  cases hf : tableFind m.m_map key with
  | none =>
    simp only [hf, Option.some.injEq] at h
    subst h
    rfl
  | some a =>
    simp only [hf] at h
    cases he : m.erase { m_pCurrCell := some a, m_isReverse := false } with
    | none => simp [he] at h
    | some r1 =>
      simp only [he, Option.some.injEq] at h
      subst h
      exact hr.erase_step _ (Or.inr ⟨(key, a), tableFind_some_mem hf, rfl⟩) he

theorem Rep.eraseUnchecked_end {m : FIFOHashMap K V} (pos : FIFOHashMapIterator)
    (hpos : pos.m_pCurrCell = none) : m.eraseUnchecked pos = some (m, m.end) := by
  simp [FIFOHashMap.eraseUnchecked, FIFOHashMapIterator.ne, FIFOHashMap.end, hpos]

theorem Rep.eraseUnchecked_step {N : Nat} (hN : N < sizeWrap) {m : FIFOHashMap K V}
    {A : List (Nat × K × V)} (hr : Rep N m A) (pos : FIFOHashMapIterator)
    (hown : m.ownsCursor pos) {r : FIFOHashMap K V × FIFOHashMapIterator}
    (h : m.eraseUnchecked pos = some r) : ∃ A1, Rep N r.1 A1 := by
  rcases hown with hnone | ⟨e, he, hpos⟩
  · rw [Rep.eraseUnchecked_end pos hnone] at h
    simp only [Option.some.injEq] at h
    subst h
    exact ⟨A, hr⟩
  · obtain ⟨A1, x, A2, rfl, hx1, -⟩ := hr.owned he
    rw [← hx1] at hpos
    obtain ⟨m1, h1, hr1, -⟩ := hr.eraseUnchecked_spec hN pos hpos
    rw [h] at h1
    simp only [Option.some.injEq] at h1
    subst h1
    exact ⟨_, hr1⟩

theorem Rep.eraseKeyUnchecked_step {N : Nat} (hN : N < sizeWrap) {m : FIFOHashMap K V}
    {A : List (Nat × K × V)} (hr : Rep N m A) (key : K) {r : FIFOHashMap K V × Nat}
    (h : m.eraseKeyUnchecked key = some r) : ∃ A1, Rep N r.1 A1 := by
  unfold FIFOHashMap.eraseKeyUnchecked at h
  cases hf : tableFind m.m_map key with
  | none =>
    simp only [hf, Option.some.injEq] at h
    subst h
    exact ⟨A, hr⟩
  | some a =>
    simp only [hf] at h
    cases he : m.eraseUnchecked { m_pCurrCell := some a, m_isReverse := false } with
    | none => simp [he] at h
    | some r1 =>
      simp only [he, Option.some.injEq] at h
      subst h
      exact hr.eraseUnchecked_step hN _ (Or.inr ⟨(key, a), tableFind_some_mem hf, rfl⟩) he

theorem Rep.move_step {N : Nat} {m : FIFOHashMap K V} {A : List (Nat × K × V)}
    (hr : Rep N m A) (key : K) :
    (∀ m1, m.moveElementToTail key = some m1 → ∃ A1, Rep N m1 A1) ∧
    (∀ m1, m.moveElementToHead key = some m1 → ∃ A1, Rep N m1 A1) := by
  by_cases hk : key ∈ A.map (fun e => e.2.1)
  · obtain ⟨x, hx, rfl⟩ := List.mem_map.mp hk
    obtain ⟨A1, A2, rfl⟩ := List.append_of_mem hx
    constructor
    · intro m1 h
      obtain ⟨m2, h2, hr2, -⟩ := hr.moveElementToTail
      rw [h] at h2
      simp only [Option.some.injEq] at h2
      subst h2
      exact ⟨_, hr2⟩
    · intro m1 h
      by_cases hAB : A1 ++ A2 = []
      · have h1 : A1 = [] := (List.append_eq_nil.mp hAB).1
        have h2 : A2 = [] := (List.append_eq_nil.mp hAB).2
        subst h1 h2
        rw [Rep.moveElementToHead_single (x := x) hr] at h
        exact Option.noConfusion h
      · obtain ⟨m2, h2, hr2, -⟩ := hr.moveElementToHead hAB
        rw [h] at h2
        simp only [Option.some.injEq] at h2
        subst h2
        exact ⟨_, hr2⟩
  · have hf := hr.find_none hk
    constructor
    · intro m1 h
      simp only [FIFOHashMap.moveElementToTail, hf, Option.some.injEq] at h
      subst h
      exact ⟨A, hr⟩
    · intro m1 h
      simp only [FIFOHashMap.moveElementToHead, hf, Option.some.injEq] at h
      subst h
      exact ⟨A, hr⟩

theorem Rep.ofInitList_step {N : Nat} (hN : N < sizeWrap) (initList : List (K × V))
    {m : FIFOHashMap K V} (h : FIFOHashMap.ofInitList N initList = some m) :
    ∃ A, Rep N m A := by
  rcases Nat.eq_zero_or_pos N with h0 | h1
  · subst h0
    cases initList with
    | nil =>
      simp only [FIFOHashMap.ofInitList, FIFOHashMap.initLoop, Option.some.injEq] at h
      subst h
      exact ⟨[], Rep.empty 0⟩
    | cons p rest =>
      exfalso
      simp [FIFOHashMap.ofInitList, FIFOHashMap.initLoop, FIFOHashMap.initStep, emplace,
        tableFind, FIFOHashMap.empty, FIFOHashMap.popIfFull, FIFOHashMap.pop, readCell] at h
  · obtain ⟨m1, A1, h2, hr1⟩ := Rep.initLoop h1 hN initList (Rep.empty (K := K) (V := V) N)
    unfold FIFOHashMap.ofInitList at h
    rw [h] at h2
    simp only [Option.some.injEq] at h2
    subst h2
    exact ⟨A1, hr1⟩

theorem Reachable.rep [Inhabited V] {N : Nat} (hN : N < sizeWrap) {m : FIFOHashMap K V}
    (h : Reachable N m) : ∃ A, Rep N m A := by
  induction h with
  | empty => exact ⟨[], Rep.empty N⟩
  | ofInitList initList m h => exact Rep.ofInitList_step hN initList h
  | insert m value r _ h ih =>
    obtain ⟨A, hr⟩ := ih
    exact hr.insert_step hN value h
  | indexAccess m key r _ h ih =>
    obtain ⟨A, hr⟩ := ih
    obtain ⟨A1, hr1, -⟩ := hr.indexAccess_step hN key h
    exact ⟨A1, hr1⟩
  | assign m key v r m1 _ h hset ih =>
    obtain ⟨A, hr⟩ := ih
    obtain ⟨A1, hr1, v0, hmem⟩ := hr.indexAccess_step hN key h
    obtain ⟨B1, B2, rfl⟩ := List.append_of_mem hmem
    obtain ⟨m2, h2, hr2, -⟩ := hr1.setValue v
    rw [hset] at h2
    simp only [Option.some.injEq] at h2
    subst h2
    exact ⟨_, hr2⟩
  | erase m pos r _ hown h ih =>
    obtain ⟨A, hr⟩ := ih
    exact ⟨A, by rw [hr.erase_step pos hown h]; exact hr⟩
  | eraseKey m key r _ h ih =>
    obtain ⟨A, hr⟩ := ih
    exact ⟨A, by rw [hr.eraseKey_step key h]; exact hr⟩
  | eraseUnchecked m pos r _ hown h ih =>
    obtain ⟨A, hr⟩ := ih
    exact hr.eraseUnchecked_step hN pos hown h
  | eraseKeyUnchecked m key r _ h ih =>
    obtain ⟨A, hr⟩ := ih
    exact hr.eraseKeyUnchecked_step hN key h
  | pop m m1 _ h ih =>
    obtain ⟨A, hr⟩ := ih
    cases A with
    | nil =>
      rw [hr.pop_nil] at h
      exact Option.noConfusion h
    | cons x B =>
      obtain ⟨m2, h2, hr2, -⟩ := hr.pop_cons hN
      rw [h] at h2
      simp only [Option.some.injEq] at h2
      subst h2
      exact ⟨B, hr2⟩
  | moveElementToTail m key m1 _ h ih =>
    obtain ⟨A, hr⟩ := ih
    exact (hr.move_step key).1 m1 h
  | moveElementToHead m key m1 _ h ih =>
    obtain ⟨A, hr⟩ := ih
    exact (hr.move_step key).2 m1 h

end Reach

/-! ## What the public queries return on a represented state -/

theorem Seg.cell_mem {h : List (Option (FIFOHashMapCell K V))} {p n : Ptr} {A : List (Nat × K × V)}
    (hs : Seg h p A n) {x : Nat × K × V} (hx : x ∈ A) :
    ∃ nx pv, h[x.1]? = some (some { m_key := x.2.1, m_value := x.2.2, m_next := nx, m_prev := pv }) := by
  obtain ⟨A1, A2, rfl⟩ := List.append_of_mem hx
  rw [Seg_append] at hs
  exact ⟨_, _, hs.2.1⟩

theorem Rep.deref_mem {N : Nat} {m : FIFOHashMap K V} {A : List (Nat × K × V)}
    (hr : Rep N m A) {x : Nat × K × V} (hx : x ∈ A) (it : FIFOHashMapIterator)
    (hit : it.m_pCurrCell = some x.1) : it.deref m = some x.2 := by
  obtain ⟨nx, pv, hcell⟩ := hr.chain.seg.cell_mem hx
  simp [FIFOHashMapIterator.deref, readCell, hit, hcell]

theorem Rep.forward_eq {N : Nat} {m : FIFOHashMap K V} {A : List (Nat × K × V)}
    (hr : Rep N m A) : m.forward = some (A.map (fun x => x.2)) := hr.chain.forward

theorem Rep.backward_eq {N : Nat} {m : FIFOHashMap K V} {A : List (Nat × K × V)}
    (hr : Rep N m A) : m.backward = some ((A.map (fun x => x.2)).reverse) := hr.chain.backward

theorem Rep.keys_eq {A : List (Nat × K × V)} :
    A.map (fun e => e.2.1) = (A.map (fun x => x.2)).map Prod.fst := by
  rw [List.map_map]
  rfl

theorem Rep.unique_key {N : Nat} {m : FIFOHashMap K V} {A : List (Nat × K × V)}
    (hr : Rep N m A) {x y : Nat × K × V} (hx : x ∈ A) (hy : y ∈ A) (hk : x.2.1 = y.2.1) :
    x = y := by
  obtain ⟨A1, A2, rfl⟩ := List.append_of_mem hx
  have hnot := not_mem_remove_middle (fun e : Nat × K × V => e.2.1) hr.keys
  rcases List.mem_append.mp hy with h1 | h1
  · exact absurd (List.mem_map.mpr ⟨y, List.mem_append_left _ h1, hk.symm⟩) hnot
  · rcases List.mem_cons.mp h1 with h2 | h2
    · exact h2.symm
    · exact absurd (List.mem_map.mpr ⟨y, List.mem_append_right _ h2, hk.symm⟩) hnot

section Queries
variable [DecidableEq K]

theorem find_def (m : FIFOHashMap K V) (k : K) :
    m.find k = { m_pCurrCell := tableFind m.m_map k, m_isReverse := false } := by
  unfold FIFOHashMap.find
  cases tableFind m.m_map k <;> rfl

theorem Rep.find_of_mem {N : Nat} {m : FIFOHashMap K V} {A : List (Nat × K × V)}
    (hr : Rep N m A) {x : Nat × K × V} (hx : x ∈ A) :
    m.find x.2.1 = { m_pCurrCell := some x.1, m_isReverse := false } := by
  rw [find_def, hr.find_mem hx]

theorem Rep.find_absent {N : Nat} {m : FIFOHashMap K V} {A : List (Nat × K × V)}
    (hr : Rep N m A) {k : K} (hk : k ∉ A.map (fun e => e.2.1)) : m.find k = m.end := by
  rw [find_def, hr.find_none hk]
  rfl

theorem Rep.absent_of_find {N : Nat} {m : FIFOHashMap K V} {A : List (Nat × K × V)}
    (hr : Rep N m A) {k : K} (hk : (m.find k).eq m.end = true) :
    k ∉ A.map (fun e => e.2.1) := by
  rw [find_def] at hk
  simp only [FIFOHashMapIterator.eq, FIFOHashMap.end, decide_eq_true_eq] at hk
  exact hr.find_none_iff.mp hk

/-! ## Inserting a list of fresh keys -/

theorem Rep.insertAll {N : Nat} (hN1 : 1 ≤ N) (hN : N < sizeWrap) (L : List (K × V)) :
    ∀ {m : FIFOHashMap K V} {A : List (Nat × K × V)}, Rep N m A →
      (L.map Prod.fst).Nodup → (∀ k ∈ L.map Prod.fst, k ∉ A.map (fun e => e.2.1)) →
      ∃ m1 A1, FIFO.insertAll N m L = some m1 ∧ Rep N m1 A1 ∧
        A1.map (fun x => x.2) =
          (A.map (fun x => x.2) ++ L).drop (A.length + L.length - N) := by
  induction L with
  | nil =>
    intro m A hr _ _
    refine ⟨m, A, rfl, hr, ?_⟩
    have hcap := hr.cap
    simp only [List.length_nil, Nat.add_zero, List.append_nil]
    rw [Nat.sub_eq_zero_of_le hcap]
    rfl
  | cons p rest ih =>
    intro m A hr hnd hdis
    simp only [List.map_cons, List.nodup_cons] at hnd
    have hk : p.1 ∉ A.map (fun e => e.2.1) := hdis p.1 (by simp)
    obtain ⟨m1, h1, hr1, -⟩ := hr.insert_new hN1 hN p.2 hk
    have hdis1 : ∀ k ∈ rest.map Prod.fst,
        k ∉ (evicted N A ++ [(m.heap.length, p.1, p.2)]).map (fun e => e.2.1) := by
      intro k hkr hmem
      simp only [List.map_append, List.map_cons, List.map_nil, List.mem_append,
        List.mem_singleton] at hmem
      rcases hmem with h2 | h2
      · apply hdis k (by simp only [List.map_cons, List.mem_cons]; exact Or.inr hkr)
        unfold evicted at h2
        split at h2
        · exact (List.map_tail _ A ▸ List.mem_of_mem_tail) h2
        · exact h2
      · rw [h2] at hkr
        exact hnd.1 hkr
    obtain ⟨m2, A2, h2, hr2, hA2⟩ := ih hr1 hnd.2 hdis1
    refine ⟨m2, A2, ?_, hr2, ?_⟩
    · have h1a : m.insert N p = _ := h1
      simp only [FIFO.insertAll, h1a, h2]
    · rw [hA2]
      have hcap := hr.cap
      unfold evicted
      by_cases hfull : N ≤ A.length
      · rw [if_pos hfull]
        cases A with
        | nil => simp at hfull; omega
        | cons x B =>
          simp only [List.length_cons] at hcap hfull
          have e1 : B.length + 1 + rest.length - N = rest.length := by omega
          have e2 : B.length + 1 + (rest.length + 1) - N = rest.length + 1 := by omega
          simp only [List.tail_cons, List.map_append, List.map_cons, List.map_nil,
            List.length_append, List.length_cons, List.length_nil, List.append_assoc,
            List.singleton_append, List.cons_append, e1, e2, List.drop_succ_cons]
          rfl
      · rw [if_neg hfull]
        have e1 : A.length + 1 + rest.length - N = A.length + (rest.length + 1) - N := by omega
        simp only [List.map_append, List.map_cons, List.map_nil, List.length_append,
          List.length_cons, List.length_nil, List.append_assoc, List.singleton_append, e1]

end Queries

/-! ## Reachability of the concrete containers -/

theorem exOne_reachable (N : Nat) (hN : 1 ≤ N) : Reachable N exOne := by
  have h : (FIFOHashMap.empty : FIFOHashMap Nat Nat).insert N (1, 10) =
      some (exOne, { m_pCurrCell := some 0, m_isReverse := false }, true) := by
    have hp : (FIFOHashMap.empty : FIFOHashMap Nat Nat).popIfFull N = some FIFOHashMap.empty := by
      unfold FIFOHashMap.popIfFull
      rw [if_neg (by show ¬ N ≤ 0; omega)]
    simp only [FIFOHashMap.insert, FIFOHashMap.empty, tableFind] at hp ⊢
    rw [hp]
    rfl
  exact Reachable.insert _ _ _ Reachable.empty h

theorem exOneNext_reachable : Reachable 1 exOneNext :=
  Reachable.insert exOne (2, 20)
    (exOneNext, { m_pCurrCell := some 1, m_isReverse := false }, true)
    (exOne_reachable 1 (by decide)) (by decide)

theorem exTwo_reachable : Reachable 3 exTwo :=
  Reachable.insert exOne (2, 20)
    (exTwo, { m_pCurrCell := some 1, m_isReverse := false }, true)
    (exOne_reachable 3 (by decide)) (by decide)

theorem exThree_reachable : Reachable 3 exThree :=
  Reachable.insert exTwo (3, 30)
    (exThree, { m_pCurrCell := some 2, m_isReverse := false }, true)
    exTwo_reachable (by decide)

/-! ## The claims -/

theorem Rep.begin_deref {N : Nat} {m : FIFOHashMap K V} {A : List (Nat × K × V)}
    (hr : Rep N m A) : m.begin.deref m = (A.map (fun x => x.2)).head? := by
  cases A with
  | nil =>
    have hhead : m.m_queue.m_pHead = none := hr.chain.head
    simp [FIFOHashMap.begin, FIFOHashMapIterator.deref, readCell, hhead]
  | cons x B =>
    have hhead : m.m_queue.m_pHead = some x.1 := hr.chain.head
    rw [hr.deref_mem (x := x) (by simp) _ hhead]
    rfl

theorem Rep.rbegin_deref_concat {N : Nat} {m : FIFOHashMap K V} {A : List (Nat × K × V)}
    {x : Nat × K × V} (hr : Rep N m (A ++ [x])) :
    m.rbegin.m_pCurrCell = some x.1 ∧ m.rbegin.deref m = some x.2 := by
  have htail : m.m_queue.m_pTail = some x.1 := by rw [hr.chain.tail, lastPtr_concat]
  exact ⟨htail, hr.deref_mem (x := x) (by simp) _ htail⟩

theorem Rep.size_eq {N : Nat} {m : FIFOHashMap K V} {A : List (Nat × K × V)}
    (hr : Rep N m A) : m.size = A.length := hr.size

theorem Rep.insert_total [DecidableEq K] {N : Nat} (hN1 : 1 ≤ N) (hN : N < sizeWrap)
    {m : FIFOHashMap K V} {A : List (Nat × K × V)} (hr : Rep N m A) (value : K × V) :
    ∃ r A1, m.insert N value = some r ∧ Rep N r.1 A1 := by
  by_cases hk : value.1 ∈ A.map (fun e => e.2.1)
  · obtain ⟨x, hx, hxk⟩ := List.mem_map.mp hk
    have hfind := hr.find_mem hx
    rw [hxk] at hfind
    exact ⟨(m, { m_pCurrCell := some x.1, m_isReverse := false }, false), A,
      by simp only [FIFOHashMap.insert, hfind], hr⟩
  · obtain ⟨m1, h2, hr1, -⟩ := hr.insert_new hN1 hN value.2 hk
    exact ⟨_, _, h2, hr1⟩

theorem Rep.indexAccess_total [DecidableEq K] [Inhabited V] {N : Nat} (hN1 : 1 ≤ N)
    (hN : N < sizeWrap) {m : FIFOHashMap K V} {A : List (Nat × K × V)} (hr : Rep N m A)
    (key : K) : ∃ r A1, m.indexAccess N key = some r ∧ Rep N r.1 A1 := by
  by_cases hk : key ∈ A.map (fun e => e.2.1)
  · obtain ⟨x, hx, hxk⟩ := List.mem_map.mp hk
    have h1 := hr.indexAccess_old (N := N) hx
    rw [hxk] at h1
    exact ⟨_, A, h1, hr⟩
  · obtain ⟨m1, h2, hr1, -⟩ := hr.indexAccess_new hN1 hN hk
    exact ⟨_, _, h2, hr1⟩

theorem Rep.runCalls [DecidableEq K] [Inhabited V] {N : Nat} (hN1 : 1 ≤ N) (hN : N < sizeWrap)
    (calls : List (Call K V)) :
    ∀ {m : FIFOHashMap K V} {A : List (Nat × K × V)}, Rep N m A →
      ∃ m1 A1, FIFO.runCalls N m calls = some m1 ∧ Rep N m1 A1 := by
  induction calls with
  | nil => exact fun {m A} hr => ⟨m, A, rfl, hr⟩
  | cons c rest ih =>
    intro m A hr
    cases c with
    | insert value =>
      obtain ⟨r, A1, h1, hr1⟩ := hr.insert_total hN1 hN value
      obtain ⟨m2, A2, h2, hr2⟩ := ih hr1
      exact ⟨m2, A2, by simp only [FIFO.runCalls, h1, h2], hr2⟩
    | indexAccess key =>
      obtain ⟨r, A1, h1, hr1⟩ := hr.indexAccess_total hN1 hN key
      obtain ⟨m2, A2, h2, hr2⟩ := ih hr1
      exact ⟨m2, A2, by simp only [FIFO.runCalls, h1, h2], hr2⟩

/-- C1, as amended.  For a capacity `N ≥ 1`, a reachable container with
`size() == N` and a key `k` that `find` does not find, `insert(k, v)` returns
`true`, removes exactly the head (the forward traversal loses its first pair and
gains `(k, v)` at the end), keeps `size() == N`, and `find` of the old head key
is `end()`.  When `N ≥ 2` the new head is the pair that was second-oldest; when
`N = 1` the new head is the inserted pair `(k, v)`. -/
theorem C1_eviction_amended [DecidableEq K] [Inhabited V] (N : Nat) (hN1 : 1 ≤ N)
    (hW : N < sizeWrap) (m : FIFOHashMap K V) (hm : Reachable N m) (hfull : m.size = N)
    (k : K) (v : V) (hk : (m.find k).eq m.end = true) :
    ∃ m1 c oldHead old,
      m.insert N (k, v) = some (m1, c, true) ∧
      m.forward = some (oldHead :: old) ∧
      m1.forward = some (old ++ [(k, v)]) ∧
      m1.size = N ∧
      (m1.find oldHead.1).eq m1.end = true ∧
      (2 ≤ N → ∃ e, (oldHead :: old)[1]? = some e ∧ m1.begin.deref m1 = some e) ∧
      (N = 1 → m1.begin.deref m1 = some (k, v)) := by
  obtain ⟨A, hr⟩ := hm.rep hW
  have hsize : A.length = N := by rw [← hr.size_eq]; exact hfull
  have hkA := hr.absent_of_find hk
  obtain ⟨m1, h1, hr1, -⟩ := hr.insert_new hN1 hW v hkA
  cases A with
  | nil => simp at hsize; omega
  | cons x B =>
    simp only [List.length_cons] at hsize
    have hev : evicted N (x :: B) = B := by
      unfold evicted
      rw [if_pos (by simp only [List.length_cons]; omega)]
      rfl
    rw [hev] at hr1
    have hkeys := hr.keys
    simp only [List.map_cons, List.nodup_cons] at hkeys
    have hxk : x.2.1 ≠ k := by
      intro h
      exact hkA (by simp [h])
    have hfw1 : m1.forward = some (B.map (fun e => e.2) ++ [(k, v)]) := by
      rw [hr1.forward_eq]
      simp
    have hfw : m.forward = some (x.2 :: B.map (fun e => e.2)) := by
      rw [hr.forward_eq]
      rfl
    refine ⟨m1, _, x.2, B.map (fun e => e.2), h1, hfw, hfw1, ?_, ?_, ?_, ?_⟩
    · rw [hr1.size_eq]
      simp only [List.length_append, List.length_singleton]
      omega
    · rw [hr1.find_absent]
      · simp [FIFOHashMapIterator.eq]
      · simp only [List.map_append, List.map_cons, List.map_nil, List.mem_append,
          List.mem_singleton, not_or]
        exact ⟨hkeys.1, hxk⟩
    · intro h2
      cases B with
      | nil => simp at hsize; omega
      | cons y C =>
        refine ⟨y.2, by simp, ?_⟩
        rw [hr1.begin_deref]
        rfl
    · intro h1N
      have hB : B = [] := by
        apply List.length_eq_zero.mp
        omega
      subst hB
      rw [hr1.begin_deref]
      rfl

/-- C1, the claim as stated fails for capacity 1: the container `{(1, 10)}` is
reachable and full, key `2` is absent, and after `insert({2, 20})` the head is
the inserted pair `(2, 20)`, while the old container had no second element. -/
theorem C1_counterexample :
    Reachable 1 exOne ∧ exOne.size = 1 ∧ (exOne.find 2).eq exOne.end = true ∧
    exOne.forward = some [(1, 10)] ∧
    exOne.insert 1 (2, 20) =
      some (exOneNext, { m_pCurrCell := some 1, m_isReverse := false }, true) ∧
    exOneNext.begin.deref exOneNext = some (2, 20) ∧
    ([(1, 10)] : List (Nat × Nat))[1]? = none :=
  ⟨exOne_reachable 1 (by decide), by decide, by decide, by decide, by decide, by decide,
    by decide⟩

/-- C1, the amended claim at capacity 3 on the container `[(1,10),(2,20),(3,30)]`
and the new pair `(4, 40)`. -/
theorem C1_witness :
    (1 ≤ 3 ∧ 3 < sizeWrap ∧ Reachable 3 exThree ∧ exThree.size = 3 ∧
      (exThree.find 4).eq exThree.end = true) ∧
    ∃ m1 c oldHead old,
      exThree.insert 3 (4, 40) = some (m1, c, true) ∧
      exThree.forward = some (oldHead :: old) ∧
      m1.forward = some (old ++ [(4, 40)]) ∧
      m1.size = 3 ∧
      (m1.find oldHead.1).eq m1.end = true ∧
      (2 ≤ 3 → ∃ e, (oldHead :: old)[1]? = some e ∧ m1.begin.deref m1 = some e) ∧
      (3 = 1 → m1.begin.deref m1 = some (4, 40)) :=
  ⟨⟨by decide, by decide, exThree_reachable, by decide, by decide⟩,
    C1_eviction_amended 3 (by decide) (by decide) exThree exThree_reachable (by decide) 4 40
      (by decide)⟩

/-- C2.  For a capacity `N ≥ 1`, every finite sequence of `insert` and
`operator[]` calls applied to the empty container runs to completion, and after
every call of the sequence (every prefix `calls.take n`) `size() ≤ N`. -/
theorem C2_capacity_invariant [DecidableEq K] [Inhabited V] (N : Nat) (hN1 : 1 ≤ N)
    (hW : N < sizeWrap) (calls : List (Call K V)) (n : Nat) :
    ∃ m, runCalls N (FIFOHashMap.empty : FIFOHashMap K V) (calls.take n) = some m ∧
      m.size ≤ N := by
  obtain ⟨m1, A1, h1, hr1⟩ := Rep.runCalls hN1 hW (calls.take n) (Rep.empty (K := K) (V := V) N)
  exact ⟨m1, h1, by rw [hr1.size_eq]; exact hr1.cap⟩

/-- C2 at capacity 2 on the calls `insert({1,10})`, `operator[](2)`,
`insert({3,30})`, `operator[](1)`, after the third call. -/
theorem C2_witness :
    (1 ≤ 2 ∧ 2 < sizeWrap) ∧
    ∃ m, runCalls 2 (FIFOHashMap.empty : FIFOHashMap Nat Nat)
        ([Call.insert (1, 10), Call.indexAccess 2, Call.insert (3, 30),
          Call.indexAccess 1].take 3) = some m ∧ m.size ≤ 2 :=
  ⟨⟨by decide, by decide⟩, C2_capacity_invariant 2 (by decide) (by decide) _ 3⟩

/-- C3.  For every capacity `N` and every list `L` of at most `N` pairs with
pairwise distinct keys, inserting the pairs of `L` in order into the empty
container succeeds, the forward traversal is `L` and the reverse traversal is
`L` reversed. -/
theorem C3_fifo_order [DecidableEq K] (N : Nat) (hW : N < sizeWrap) (L : List (K × V))
    (hlen : L.length ≤ N) (hnd : (L.map Prod.fst).Nodup) :
    ∃ m, insertAll N (FIFOHashMap.empty : FIFOHashMap K V) L = some m ∧
      m.forward = some L ∧ m.backward = some L.reverse := by
  rcases Nat.eq_zero_or_pos N with h0 | h1
  · subst h0
    have hL : L = [] := List.length_eq_zero.mp (Nat.le_zero.mp hlen)
    subst hL
    exact ⟨FIFOHashMap.empty, rfl, (Rep.empty 0).forward_eq, (Rep.empty 0).backward_eq⟩
  · obtain ⟨m1, A1, h2, hr1, hA1⟩ :=
      Rep.insertAll h1 hW L (Rep.empty (K := K) (V := V) N) hnd (by simp)
    have e : 0 + L.length - N = 0 := by omega
    simp only [List.map_nil, List.nil_append, List.length_nil, e, List.drop_zero] at hA1
    exact ⟨m1, h2, by rw [hr1.forward_eq, hA1], by rw [hr1.backward_eq, hA1]⟩

/-- C3 at capacity 3 on the pairs `(1,10)`, `(2,20)`, `(3,30)`. -/
theorem C3_witness :
    (3 < sizeWrap ∧ [(1, 10), (2, 20), (3, 30)].length ≤ 3 ∧
      (([(1, 10), (2, 20), (3, 30)] : List (Nat × Nat)).map Prod.fst).Nodup) ∧
    ∃ m, insertAll 3 (FIFOHashMap.empty : FIFOHashMap Nat Nat) [(1, 10), (2, 20), (3, 30)] =
        some m ∧
      m.forward = some [(1, 10), (2, 20), (3, 30)] ∧
      m.backward = some [(1, 10), (2, 20), (3, 30)].reverse :=
  ⟨⟨by decide, by decide, by decide⟩,
    C3_fifo_order 3 (by decide) [(1, 10), (2, 20), (3, 30)] (by decide) (by decide)⟩

/-- C4.  For a capacity `N ≥ 1` and every list `L` of pairs with pairwise
distinct keys, of any length, inserting the pairs of `L` in order into the empty
container succeeds and the forward traversal is the last `min |L| N` pairs of
`L` in their order. -/
theorem C4_sliding_window [DecidableEq K] (N : Nat) (hN1 : 1 ≤ N) (hW : N < sizeWrap)
    (L : List (K × V)) (hnd : (L.map Prod.fst).Nodup) :
    ∃ m, insertAll N (FIFOHashMap.empty : FIFOHashMap K V) L = some m ∧
      m.forward = some (L.drop (L.length - min L.length N)) := by
  obtain ⟨m1, A1, h2, hr1, hA1⟩ :=
    Rep.insertAll hN1 hW L (Rep.empty (K := K) (V := V) N) hnd (by simp)
  have e : 0 + L.length - N = L.length - min L.length N := by omega
  simp only [List.map_nil, List.nil_append, List.length_nil, e] at hA1
  exact ⟨m1, h2, by rw [hr1.forward_eq, hA1]⟩

/-- C4 at capacity 3 on the four pairs of the scenario of the specification:
the traversal is `[(2,20),(3,30),(4,40)]`. -/
theorem C4_witness :
    (1 ≤ 3 ∧ 3 < sizeWrap ∧
      (([(1, 10), (2, 20), (3, 30), (4, 40)] : List (Nat × Nat)).map Prod.fst).Nodup) ∧
    ∃ m, insertAll 3 (FIFOHashMap.empty : FIFOHashMap Nat Nat)
        [(1, 10), (2, 20), (3, 30), (4, 40)] = some m ∧
      m.forward = some (List.drop
        ([(1, 10), (2, 20), (3, 30), (4, 40)].length -
          min [(1, 10), (2, 20), (3, 30), (4, 40)].length 3)
        [(1, 10), (2, 20), (3, 30), (4, 40)]) :=
  ⟨⟨by decide, by decide, by decide⟩,
    C4_sliding_window 3 (by decide) (by decide) [(1, 10), (2, 20), (3, 30), (4, 40)]
      (by decide)⟩

theorem Rep.mem_of_forward {N : Nat} {m : FIFOHashMap K V} {A : List (Nat × K × V)}
    (hr : Rep N m A) {l : List (K × V)} (hfw : m.forward = some l) {kv : K × V}
    (h : kv ∈ l) : ∃ x ∈ A, x.2 = kv := by
  rw [hr.forward_eq] at hfw
  simp only [Option.some.injEq] at hfw
  subst hfw
  obtain ⟨x, hx, hxe⟩ := List.mem_map.mp h
  exact ⟨x, hx, hxe⟩

/-- C5.  In a reachable container (full or not) whose forward traversal holds
the pair `(k, v)`, `insert(k, v1)` returns the cursor `find(k)` and `false` and
leaves the container as it was (so `size()`, the forward traversal and the
stored value are unchanged and nothing is evicted); the cursor references the
existing cell, which still holds `(k, v)`. -/
theorem C5_duplicate_insert [DecidableEq K] [Inhabited V] (N : Nat) (hW : N < sizeWrap)
    (m : FIFOHashMap K V) (hm : Reachable N m) (k : K) (v v1 : V) (l : List (K × V))
    (hfw : m.forward = some l) (hk : (k, v) ∈ l) :
    m.insert N (k, v1) = some (m, m.find k, false) ∧
      (m.find k).ne m.end = true ∧ (m.find k).deref m = some (k, v) := by
  obtain ⟨A, hr⟩ := hm.rep hW
  obtain ⟨x, hx, hxe⟩ := hr.mem_of_forward hfw hk
  have hk1 : x.2.1 = k := by rw [hxe]
  have hfind := hr.find_mem hx
  rw [hk1] at hfind
  have hf : m.find k = { m_pCurrCell := some x.1, m_isReverse := false } := by
    rw [find_def, hfind]
  refine ⟨by rw [hf]; simp only [FIFOHashMap.insert, hfind], ?_, ?_⟩
  · rw [hf]
    simp [FIFOHashMapIterator.ne, FIFOHashMap.end]
  · rw [hf, hr.deref_mem hx _ rfl, hxe]

/-- C5 on the full container `[(1,10),(2,20),(3,30)]` of capacity 3 and the
duplicate `insert({2, 99})`. -/
theorem C5_witness :
    (3 < sizeWrap ∧ Reachable 3 exThree ∧
      exThree.forward = some [(1, 10), (2, 20), (3, 30)] ∧
      (2, 20) ∈ [(1, 10), (2, 20), (3, 30)]) ∧
    (exThree.insert 3 (2, 99) = some (exThree, exThree.find 2, false) ∧
      (exThree.find 2).ne exThree.end = true ∧ (exThree.find 2).deref exThree = some (2, 20)) :=
  ⟨⟨by decide, exThree_reachable, by decide, by decide⟩,
    C5_duplicate_insert 3 (by decide) exThree exThree_reachable 2 20 99
      [(1, 10), (2, 20), (3, 30)] (by decide) (by decide)⟩

/-- C6.  For a capacity `N ≥ 1`, a reachable container and a key `k` that
`find` does not find, `insert(k, v)` returns `(c, true)` where `c` dereferences
to `(k, v)`, `c` is the cursor `find(k)` of the resulting container, and `c`
references the tail, the cell `rbegin()` references. -/
theorem C6_insert_result [DecidableEq K] [Inhabited V] (N : Nat) (hN1 : 1 ≤ N)
    (hW : N < sizeWrap) (m : FIFOHashMap K V) (hm : Reachable N m) (k : K) (v : V)
    (hk : (m.find k).eq m.end = true) :
    ∃ m1 c, m.insert N (k, v) = some (m1, c, true) ∧
      c.deref m1 = some (k, v) ∧ c = m1.find k ∧
      c.eq m1.rbegin = true ∧ m1.rbegin.deref m1 = some (k, v) := by
  obtain ⟨A, hr⟩ := hm.rep hW
  have hkA := hr.absent_of_find hk
  obtain ⟨m1, h1, hr1, -⟩ := hr.insert_new hN1 hW v hkA
  have hmem : (m.heap.length, k, v) ∈ evicted N A ++ [(m.heap.length, k, v)] := by simp
  obtain ⟨hrb, hrd⟩ := hr1.rbegin_deref_concat
  refine ⟨m1, _, h1, hr1.deref_mem hmem _ rfl, (hr1.find_of_mem hmem).symm, ?_, hrd⟩
  simp only [FIFOHashMapIterator.eq, hrb, decide_True]

/-- C6 on the container `[(1,10),(2,20)]` of capacity 3 and the new pair
`(3, 30)`. -/
theorem C6_witness :
    (1 ≤ 3 ∧ 3 < sizeWrap ∧ Reachable 3 exTwo ∧ (exTwo.find 3).eq exTwo.end = true) ∧
    ∃ m1 c, exTwo.insert 3 (3, 30) = some (m1, c, true) ∧
      c.deref m1 = some (3, 30) ∧ c = m1.find 3 ∧
      c.eq m1.rbegin = true ∧ m1.rbegin.deref m1 = some (3, 30) :=
  ⟨⟨by decide, by decide, exTwo_reachable, by decide⟩,
    C6_insert_result 3 (by decide) (by decide) exTwo exTwo_reachable 3 30 (by decide)⟩

/-- C7.  In a reachable container with forward traversal `l`, `find(k)` (a
query of the state, which it cannot change) returns a cursor that differs from
`end()` and dereferences to `(k, v)` when the pair `(k, v)` is in `l`, and
returns a cursor equal to `end()` when no pair of `l` has key `k`. -/
theorem C7_find [DecidableEq K] [Inhabited V] (N : Nat) (hW : N < sizeWrap)
    (m : FIFOHashMap K V) (hm : Reachable N m) (k : K) :
    ∃ l, m.forward = some l ∧
      (∀ v, (k, v) ∈ l → (m.find k).ne m.end = true ∧ (m.find k).deref m = some (k, v)) ∧
      (k ∉ l.map Prod.fst → (m.find k).eq m.end = true) := by
  obtain ⟨A, hr⟩ := hm.rep hW
  refine ⟨_, hr.forward_eq, ?_, ?_⟩
  · intro v hv
    obtain ⟨x, hx, hxe⟩ := hr.mem_of_forward hr.forward_eq hv
    have hk1 : x.2.1 = k := by rw [hxe]
    have hf := hr.find_of_mem hx
    rw [hk1] at hf
    rw [hf, hr.deref_mem hx _ rfl, hxe]
    simp [FIFOHashMapIterator.ne, FIFOHashMap.end]
  · intro hk
    rw [← Rep.keys_eq] at hk
    rw [hr.find_absent hk]
    simp [FIFOHashMapIterator.eq]

/-- C7 on the container `[(1,10),(2,20),(3,30)]` and the key `2`. -/
theorem C7_witness :
    (3 < sizeWrap ∧ Reachable 3 exThree) ∧
    ∃ l, exThree.forward = some l ∧
      (∀ v, (2, v) ∈ l →
        (exThree.find 2).ne exThree.end = true ∧ (exThree.find 2).deref exThree = some (2, v)) ∧
      (2 ∉ l.map Prod.fst → (exThree.find 2).eq exThree.end = true) :=
  ⟨⟨by decide, exThree_reachable⟩, C7_find 3 (by decide) exThree exThree_reachable 2⟩

/-- C8, the failing input.  The container `{(1, 10)}` is reachable (capacity 3)
and has one element; `moveElementToHead(1)` has no result on it: after
`removeCell` cleared head and tail, `m_queue.m_pHead->m_prev = &cell` writes
through the null head.  `moveElementToTail(1)` on the same container returns
the container unchanged. -/
theorem C8_moveElementToHead_single :
    Reachable 3 exOne ∧ exOne.size = 1 ∧ exOne.forward = some [(1, 10)] ∧
    exOne.moveElementToHead 1 = none ∧ exOne.moveElementToTail 1 = some exOne :=
  ⟨exOne_reachable 3 (by decide), by decide, by decide, by decide, by decide⟩

theorem Rep.owned_cursor {N : Nat} {m : FIFOHashMap K V} {A : List (Nat × K × V)}
    (hr : Rep N m A) {c : FIFOHashMapIterator} (hown : m.ownsCursor c)
    (hne : c.m_pCurrCell ≠ none) :
    ∃ A1 x A2, A = A1 ++ x :: A2 ∧ c.m_pCurrCell = some x.1 := by
  rcases hown with h | ⟨e, he, hpos⟩
  · exact absurd h hne
  · obtain ⟨A1, x, A2, hA, hx1, -⟩ := hr.owned he
    exact ⟨A1, x, A2, hA, by rw [hpos, hx1]⟩

/-- C9, the defect.  In a reachable container, for a cursor `c` of the container
(forward, as `find`, `insert` and `begin` return it, or reverse) that
dereferences to `(k, v)`, `erase(c)` has no defined result: `m_map.erase(k)`
releases the node of `c`, after which the cell of `c` cannot be read, and
`removeCell` reads `m_prev` and `m_next` of that cell.  In a run in which the
released node still holds the cell, the statements of `erase`
(`eraseUnchecked`) do what the claim says: the forward traversal is the old one
with exactly that pair removed (the pairs before and after it keep their values
and order, and none of them has key `k`), `size()` is one less and `find(k)`
equals `end()`. -/
theorem C9_erase_reads_released_node [DecidableEq K] [Inhabited V] (N : Nat)
    (hW : N < sizeWrap) (m : FIFOHashMap K V) (hm : Reachable N m) (c : FIFOHashMapIterator)
    (k : K) (v : V) (hown : m.ownsCursor c) (hc : c.deref m = some (k, v)) :
    readCell (mapErase m k) c.m_pCurrCell = none ∧ m.erase c = none ∧
    ∃ m1 r l1 l2, m.eraseUnchecked c = some (m1, r) ∧
      m.forward = some (l1 ++ (k, v) :: l2) ∧ m1.forward = some (l1 ++ l2) ∧
      k ∉ (l1 ++ l2).map Prod.fst ∧
      m1.size + 1 = m.size ∧ (m1.find k).eq m1.end = true := by
  obtain ⟨A, hr⟩ := hm.rep hW
  have hne : c.m_pCurrCell ≠ none := by
    intro h
    simp [FIFOHashMapIterator.deref, readCell, h] at hc
  obtain ⟨A1, x, A2, rfl, hpos⟩ := hr.owned_cursor hown hne
  have hxe : x.2 = (k, v) := by
    have := hr.deref_mem (x := x) (by simp) c hpos
    rw [hc] at this
    simp only [Option.some.injEq] at this
    exact this.symm
  have hk1 : x.2.1 = k := by rw [hxe]
  obtain ⟨m1, h1, hr1, -⟩ := hr.eraseUnchecked_spec hW c hpos
  have hnot := not_mem_remove_middle (fun e : Nat × K × V => e.2.1) hr.keys
  have hnotk : k ∉ (A1 ++ A2).map (fun e => e.2.1) := by
    rw [← hk1]
    exact hnot
  refine ⟨by rw [hpos, ← hk1]; exact hr.released_cell, hr.erase_released c hpos,
    m1, _, A1.map (fun e => e.2), A2.map (fun e => e.2), h1, ?_, ?_, ?_, ?_, ?_⟩
  · rw [hr.forward_eq, ← hxe]
    simp
  · rw [hr1.forward_eq]
    simp
  · rw [← List.map_append, ← Rep.keys_eq]
    exact hnotk
  · rw [hr1.size_eq, hr.size_eq]
    simp only [List.length_append, List.length_cons]
    omega
  · rw [hr1.find_absent hnotk]
    simp [FIFOHashMapIterator.eq]

/-- C9 on the container `[(1,10),(2,20),(3,30)]` and the cursor `find(2)`. -/
theorem C9_witness :
    (3 < sizeWrap ∧ Reachable 3 exThree ∧
      exThree.ownsCursor (exThree.find 2) ∧ (exThree.find 2).deref exThree = some (2, 20)) ∧
    readCell (mapErase exThree 2) (exThree.find 2).m_pCurrCell = none ∧
    exThree.erase (exThree.find 2) = none ∧
    ∃ m1 r l1 l2, exThree.eraseUnchecked (exThree.find 2) = some (m1, r) ∧
      exThree.forward = some (l1 ++ (2, 20) :: l2) ∧ m1.forward = some (l1 ++ l2) ∧
      2 ∉ (l1 ++ l2).map Prod.fst ∧
      m1.size + 1 = exThree.size ∧ (m1.find 2).eq m1.end = true :=
  ⟨⟨by decide, exThree_reachable, Or.inr ⟨(2, 1), by decide, by decide⟩, by decide⟩,
    C9_erase_reads_released_node 3 (by decide) exThree exThree_reachable (exThree.find 2) 2 20
      (Or.inr ⟨(2, 1), by decide, by decide⟩) (by decide)⟩

/-- C10, the defect.  In a reachable container, for a forward cursor `c` of the
container that references an element other than the tail, `erase(c)` has no
defined result: it reads the cell of `c` after `m_map.erase` released its node.
In a run in which the released node still holds the cell, the statements of
`erase` (`eraseUnchecked`) return what the claim says: a forward cursor that
references the element that immediately followed the removed one in the forward
traversal before the call. -/
theorem C10_erase_successor_not_returned [DecidableEq K] [Inhabited V] (N : Nat)
    (hW : N < sizeWrap) (m : FIFOHashMap K V) (hm : Reachable N m) (c : FIFOHashMapIterator)
    (hfwd : c.m_isReverse = false) (hown : m.ownsCursor c) (hne : c.ne m.end = true)
    (htail : c.eq m.rbegin = false) :
    m.erase c = none ∧
    ∃ m1 r l1 e s l2, m.eraseUnchecked c = some (m1, r) ∧
      m.forward = some (l1 ++ e :: s :: l2) ∧ c.deref m = some e ∧
      r.deref m1 = some s ∧ r = m1.find s.1 ∧ r.m_isReverse = false ∧
      r.ne m1.end = true := by
  obtain ⟨A, hr⟩ := hm.rep hW
  have hne1 : c.m_pCurrCell ≠ none := by
    simpa [FIFOHashMapIterator.ne, FIFOHashMap.end] using hne
  obtain ⟨A1, x, A2, rfl, hpos⟩ := hr.owned_cursor hown hne1
  have htl : m.rbegin.m_pCurrCell = lastPtr none (A1 ++ x :: A2) := hr.chain.tail
  cases A2 with
  | nil =>
    exfalso
    have h1 : lastPtr none (A1 ++ [x]) = some x.1 := lastPtr_concat _ _ _
    simp [FIFOHashMapIterator.eq, htl, hpos, h1] at htail
  | cons z A3 =>
    obtain ⟨m1, h1, hr1, -⟩ := hr.eraseUnchecked_spec hW c hpos
    have hres : eraseResult c A1 (z :: A3) =
        { m_pCurrCell := some z.1, m_isReverse := false } := by
      unfold eraseResult
      rw [if_neg (by simp [nextPtr]), if_pos hfwd]
      cases c
      simp only [nextPtr] at hfwd ⊢
      simp only [hfwd]
    rw [hres] at h1
    have hz : z ∈ A1 ++ z :: A3 := by simp
    refine ⟨hr.erase_released c hpos,
      m1, _, A1.map (fun e => e.2), x.2, z.2, A3.map (fun e => e.2), h1, ?_,
      hr.deref_mem (x := x) (by simp) c hpos, hr1.deref_mem hz _ rfl,
      (hr1.find_of_mem hz).symm, rfl, ?_⟩
    · rw [hr.forward_eq]
      simp
    · simp [FIFOHashMapIterator.ne, FIFOHashMap.end]

/-- C10 on the container `[(1,10),(2,20),(3,30)]` and the cursor `begin()`. -/
theorem C10_witness :
    (3 < sizeWrap ∧ Reachable 3 exThree ∧ exThree.begin.m_isReverse = false ∧
      exThree.ownsCursor exThree.begin ∧ exThree.begin.ne exThree.end = true ∧
      exThree.begin.eq exThree.rbegin = false) ∧
    exThree.erase exThree.begin = none ∧
    ∃ m1 r l1 e s l2, exThree.eraseUnchecked exThree.begin = some (m1, r) ∧
      exThree.forward = some (l1 ++ e :: s :: l2) ∧ exThree.begin.deref exThree = some e ∧
      r.deref m1 = some s ∧ r = m1.find s.1 ∧ r.m_isReverse = false ∧
      r.ne m1.end = true :=
  ⟨⟨by decide, exThree_reachable, by decide, Or.inr ⟨(1, 0), by decide, by decide⟩,
      by decide, by decide⟩,
    C10_erase_successor_not_returned 3 (by decide) exThree exThree_reachable exThree.begin
      (by decide) (Or.inr ⟨(1, 0), by decide, by decide⟩) (by decide) (by decide)⟩

/-! ## Erasing the tail -/

theorem lastPtr_none_iff {A : List (Nat × K × V)} : lastPtr none A = none ↔ A = [] := by
  rcases List.eq_nil_or_concat A with rfl | ⟨A0, y, rfl⟩
  · simp [lastPtr]
  · rw [List.concat_eq_append, lastPtr_concat]
    simp

theorem Rep.tail_cursor {N : Nat} {m : FIFOHashMap K V} {A : List (Nat × K × V)}
    (hr : Rep N m A) {c : FIFOHashMapIterator} (hne : c.ne m.end = true)
    (htail : c.eq m.rbegin = true) : ∃ A0 x, A = A0 ++ [x] ∧ c.m_pCurrCell = some x.1 := by
  have hcur : c.m_pCurrCell = lastPtr none A := by
    have h1 : c.m_pCurrCell = m.m_queue.m_pTail := by
      simpa [FIFOHashMapIterator.eq, FIFOHashMap.rbegin] using htail
    rw [h1, hr.chain.tail]
  have hne1 : c.m_pCurrCell ≠ none := by
    simpa [FIFOHashMapIterator.ne, FIFOHashMap.end] using hne
  rcases List.eq_nil_or_concat A with rfl | ⟨A0, y, rfl⟩
  · exact absurd hcur hne1
  · rw [List.concat_eq_append] at hcur ⊢
    exact ⟨A0, y, rfl, by rw [hcur, lastPtr_concat]⟩

theorem Rep.eraseUnchecked_tail [DecidableEq K] {N : Nat} {m : FIFOHashMap K V}
    {A0 : List (Nat × K × V)} {x : Nat × K × V} (hr : Rep N m (A0 ++ [x])) (hN : N < sizeWrap)
    (c : FIFOHashMapIterator) (hpos : c.m_pCurrCell = some x.1) :
    ∃ m1, m.eraseUnchecked c =
        some (m1, { m_pCurrCell := lastPtr none A0, m_isReverse := false }) ∧
      Rep N m1 A0 := by
  obtain ⟨m1, h1, hr1, -⟩ := hr.eraseUnchecked_spec hN c hpos
  have hres : eraseResult c A0 ([] : List (Nat × K × V)) =
      { m_pCurrCell := lastPtr none A0, m_isReverse := false } := by
    unfold eraseResult
    exact if_pos rfl
  rw [hres] at h1
  rw [List.append_nil] at hr1
  exact ⟨m1, h1, hr1⟩

theorem Rep.rbegin_cell {N : Nat} {m : FIFOHashMap K V} {A : List (Nat × K × V)}
    (hr : Rep N m A) : m.rbegin.m_pCurrCell = lastPtr none A := hr.chain.tail

/-- C12, the defect.  In a reachable container, for a cursor `c` that references
the tail element, `erase(c)` has no defined result: it reads the cell of `c`
after `m_map.erase` released its node.  In a run in which the released node
still holds the cell, the statements of `erase` (`eraseUnchecked`) do what the
claim says: they remove the last pair of the forward traversal and return a
cursor that references the new last element, the one that preceded the removed
one (the cell of `rbegin()` afterwards); the returned cursor equals `end()`
exactly when the container has become empty. -/
theorem C12_erase_tail_not_returned [DecidableEq K] [Inhabited V] (N : Nat)
    (hW : N < sizeWrap) (m : FIFOHashMap K V) (hm : Reachable N m) (c : FIFOHashMapIterator)
    (hne : c.ne m.end = true) (htail : c.eq m.rbegin = true) :
    m.erase c = none ∧
    ∃ m1 r l e, m.eraseUnchecked c = some (m1, r) ∧
      m.forward = some (l ++ [e]) ∧ m1.forward = some l ∧
      r.deref m1 = l.getLast? ∧ r.eq m1.rbegin = true ∧
      (r.eq m1.end = true ↔ m1.size = 0) := by
  obtain ⟨A, hr⟩ := hm.rep hW
  obtain ⟨A0, x, rfl, hpos⟩ := hr.tail_cursor hne htail
  obtain ⟨m1, h1, hr1⟩ := hr.eraseUnchecked_tail hW c hpos
  refine ⟨hr.erase_released (B := []) c hpos,
    m1, _, A0.map (fun e => e.2), x.2, h1, ?_, hr1.forward_eq, ?_, ?_, ?_⟩
  · rw [hr.forward_eq]
    simp
  · rcases List.eq_nil_or_concat A0 with rfl | ⟨A1, y, rfl⟩
    · simp [FIFOHashMapIterator.deref, readCell, lastPtr]
    · rw [List.concat_eq_append] at hr1 ⊢
      rw [hr1.deref_mem (x := y) (by simp) _ (lastPtr_concat _ _ _)]
      simp
  · simp [FIFOHashMapIterator.eq, hr1.rbegin_cell]
  · rw [hr1.size_eq]
    simp only [FIFOHashMapIterator.eq, FIFOHashMap.end, decide_eq_true_eq, lastPtr_none_iff,
      List.length_eq_zero]

/-- C12 on `[(1,10),(2,20),(3,30)]` and the cursor `find(3)`. -/
theorem C12_witness :
    (3 < sizeWrap ∧ Reachable 3 exThree ∧ (exThree.find 3).ne exThree.end = true ∧
      (exThree.find 3).eq exThree.rbegin = true) ∧
    exThree.erase (exThree.find 3) = none ∧
    ∃ m1 r l e, exThree.eraseUnchecked (exThree.find 3) = some (m1, r) ∧
      exThree.forward = some (l ++ [e]) ∧ m1.forward = some l ∧
      r.deref m1 = l.getLast? ∧ r.eq m1.rbegin = true ∧
      (r.eq m1.end = true ↔ m1.size = 0) :=
  ⟨⟨by decide, exThree_reachable, by decide, by decide⟩,
    C12_erase_tail_not_returned 3 (by decide) exThree exThree_reachable (exThree.find 3)
      (by decide) (by decide)⟩

/-- C13, the failing input.  On `[(1,10),(2,20),(3,30)]` the reverse cursor
`rbegin()` references `(3, 30)`.  `erase` of it returns no cursor: it reads the
cell after `m_map.erase` released its node.  In a run in which the released
node still holds the cell, the statements of `erase` return a cursor at the
cell of `(2, 20)` whose direction flag is `false`: advancing it follows `m_next`
and gives the end cursor, while a reverse cursor at that cell advances to the
cell of `(1, 10)`. -/
theorem C13_erase_rbegin_drops_direction :
    Reachable 3 exThree ∧ exThree.rbegin.m_isReverse = true ∧
    exThree.rbegin.deref exThree = some (3, 30) ∧
    exThree.erase exThree.rbegin = none ∧
    exThree.eraseUnchecked exThree.rbegin =
      some (exThreeNoTail, { m_pCurrCell := some 1, m_isReverse := false }) ∧
    FIFOHashMapIterator.inc exThreeNoTail { m_pCurrCell := some 1, m_isReverse := false } =
      some { m_pCurrCell := none, m_isReverse := false } ∧
    FIFOHashMapIterator.inc exThreeNoTail { m_pCurrCell := some 1, m_isReverse := true } =
      some { m_pCurrCell := some 0, m_isReverse := true } ∧
    FIFOHashMapIterator.deref exThreeNoTail { m_pCurrCell := some 0, m_isReverse := true } =
      some (1, 10) :=
  ⟨exThree_reachable, by decide, by decide, by decide, by decide, by decide, by decide,
    by decide⟩

/-! ## erase by key, erase of an end cursor, pop and the move operations -/

theorem Rep.split_of_forward {N : Nat} {m : FIFOHashMap K V} {A : List (Nat × K × V)}
    (hr : Rep N m A) {l : List (K × V)} (hfw : m.forward = some l) {kv : K × V}
    (h : kv ∈ l) :
    ∃ A1 x A2, A = A1 ++ x :: A2 ∧ x.2 = kv ∧
      l = A1.map (fun e => e.2) ++ kv :: A2.map (fun e => e.2) := by
  obtain ⟨x, hx, hxe⟩ := hr.mem_of_forward hfw h
  obtain ⟨A1, A2, rfl⟩ := List.append_of_mem hx
  refine ⟨A1, x, A2, rfl, hxe, ?_⟩
  rw [hr.forward_eq] at hfw
  simp only [Option.some.injEq] at hfw
  rw [← hfw, ← hxe]
  simp

theorem Rep.absent_of_forward {N : Nat} {m : FIFOHashMap K V} {A : List (Nat × K × V)}
    (hr : Rep N m A) {l : List (K × V)} (hfw : m.forward = some l) {k : K}
    (hk : k ∉ l.map Prod.fst) : k ∉ A.map (fun e => e.2.1) := by
  rw [hr.forward_eq] at hfw
  simp only [Option.some.injEq] at hfw
  rw [Rep.keys_eq, hfw]
  exact hk

/-- C14, the defect.  In a reachable container with forward traversal `l`,
`erase(k)` returns 0 and leaves the container as it was when no pair of `l` has
key `k`.  When `l` holds a pair with key `k`, `erase(k)` and `erase(find(k))`
have no defined result: `erase(pos)` reads the cell after `m_map.erase`
released its node.  In a run in which the released node still holds the cell,
the statements of `erase(k)` (`eraseKeyUnchecked`) do what the claim says: they
return 1 and the resulting container is the one that the statements of
`erase(find(k))` yield, in which `find(k)` equals `end()` and `size()` is one
less. -/
theorem C14_erase_by_key_present_not_returned [DecidableEq K] [Inhabited V] (N : Nat)
    (hW : N < sizeWrap) (m : FIFOHashMap K V) (hm : Reachable N m) (k : K) :
    ∃ l, m.forward = some l ∧
      (k ∉ l.map Prod.fst → m.eraseKey k = some (m, 0)) ∧
      (∀ v, (k, v) ∈ l → m.eraseKey k = none ∧ m.erase (m.find k) = none ∧
        ∃ m1 r, m.eraseUnchecked (m.find k) = some (m1, r) ∧
          m.eraseKeyUnchecked k = some (m1, 1) ∧ (m1.find k).eq m1.end = true ∧
          m1.size + 1 = m.size) := by
  obtain ⟨A, hr⟩ := hm.rep hW
  refine ⟨_, hr.forward_eq, ?_, ?_⟩
  · intro hk
    have hf := hr.find_none (hr.absent_of_forward hr.forward_eq hk)
    simp only [FIFOHashMap.eraseKey, hf]
  · intro v hv
    obtain ⟨A1, x, A2, rfl, hxe, -⟩ := hr.split_of_forward hr.forward_eq hv
    have hk1 : x.2.1 = k := by rw [hxe]
    have hfind := hr.find_mem (x := x) (by simp)
    rw [hk1] at hfind
    have h0 := hr.erase_released { m_pCurrCell := some x.1, m_isReverse := false } rfl
    obtain ⟨m1, h1, hr1, -⟩ :=
      hr.eraseUnchecked_spec hW { m_pCurrCell := some x.1, m_isReverse := false } rfl
    have hnot := not_mem_remove_middle (fun e : Nat × K × V => e.2.1) hr.keys
    have hnotk : k ∉ (A1 ++ A2).map (fun e => e.2.1) := by
      rw [← hk1]
      exact hnot
    refine ⟨?_, by rw [find_def, hfind]; exact h0,
      m1, _, by rw [find_def, hfind]; exact h1, ?_, ?_, ?_⟩
    · simp only [FIFOHashMap.eraseKey, hfind, h0]
    · simp only [FIFOHashMap.eraseKeyUnchecked, hfind, h1]
    · rw [hr1.find_absent hnotk]
      simp [FIFOHashMapIterator.eq]
    · rw [hr1.size_eq, hr.size_eq]
      simp only [List.length_append, List.length_cons]
      omega

/-- C14 on `[(1,10),(2,20),(3,30)]` and the key `2`. -/
theorem C14_witness :
    (3 < sizeWrap ∧ Reachable 3 exThree) ∧
    ∃ l, exThree.forward = some l ∧
      (2 ∉ l.map Prod.fst → exThree.eraseKey 2 = some (exThree, 0)) ∧
      (∀ v, (2, v) ∈ l → exThree.eraseKey 2 = none ∧ exThree.erase (exThree.find 2) = none ∧
        ∃ m1 r, exThree.eraseUnchecked (exThree.find 2) = some (m1, r) ∧
          exThree.eraseKeyUnchecked 2 = some (m1, 1) ∧ (m1.find 2).eq m1.end = true ∧
          m1.size + 1 = exThree.size) :=
  ⟨⟨by decide, exThree_reachable⟩,
    C14_erase_by_key_present_not_returned 3 (by decide) exThree exThree_reachable 2⟩

/-- C15.  For every container, reachable or not, `erase(end())` and
`erase(rend())` return a cursor equal to `end()` together with the container as
it was, so `size()` and the forward traversal are unchanged. -/
theorem C15_erase_end_noop [DecidableEq K] (m : FIFOHashMap K V) :
    m.erase m.end = some (m, m.end) ∧ m.erase m.rend = some (m, m.end) ∧
      (m.end).eq m.end = true :=
  ⟨Rep.erase_end m.end rfl, Rep.erase_end m.rend rfl, by simp [FIFOHashMapIterator.eq]⟩

/-- C16.  In a reachable container that is not empty, `pop()` has a result:
the forward traversal loses its first pair, `size()` is one less and `find` of
the old head key equals `end()`; on a container of one element the result is
empty. -/
theorem C16_pop_removes_oldest [DecidableEq K] [Inhabited V] (N : Nat) (hW : N < sizeWrap)
    (m : FIFOHashMap K V) (hm : Reachable N m) (hne : 0 < m.size) :
    ∃ m1 e l, m.pop = some m1 ∧ m.forward = some (e :: l) ∧ m1.forward = some l ∧
      m1.size + 1 = m.size ∧ (m1.find e.1).eq m1.end = true ∧
      (m.size = 1 → m1.size = 0 ∧ m1.forward = some []) := by
  obtain ⟨A, hr⟩ := hm.rep hW
  cases A with
  | nil =>
    rw [hr.size_eq] at hne
    simp at hne
  | cons x B =>
    obtain ⟨m1, h1, hr1, -⟩ := hr.pop_cons hW
    have hkeys := hr.keys
    simp only [List.map_cons, List.nodup_cons] at hkeys
    have hsz : m1.size + 1 = m.size := by
      rw [hr1.size_eq, hr.size_eq]
      simp
    refine ⟨m1, x.2, B.map (fun e => e.2), h1, ?_, hr1.forward_eq, hsz, ?_, ?_⟩
    · rw [hr.forward_eq]
      rfl
    · rw [hr1.find_absent hkeys.1]
      simp [FIFOHashMapIterator.eq]
    · intro h
      have h0 : m1.size = 0 := by omega
      have hB : B = [] := by
        rw [hr1.size_eq] at h0
        exact List.length_eq_zero.mp h0
      subst hB
      exact ⟨h0, hr1.forward_eq⟩

/-- C16 on `[(1,10),(2,20),(3,30)]`. -/
theorem C16_witness :
    (3 < sizeWrap ∧ Reachable 3 exThree ∧ 0 < exThree.size) ∧
    ∃ m1 e l, exThree.pop = some m1 ∧ exThree.forward = some (e :: l) ∧
      m1.forward = some l ∧ m1.size + 1 = exThree.size ∧
      (m1.find e.1).eq m1.end = true ∧
      (exThree.size = 1 → m1.size = 0 ∧ m1.forward = some []) :=
  ⟨⟨by decide, exThree_reachable, by decide⟩,
    C16_pop_removes_oldest 3 (by decide) exThree exThree_reachable (by decide)⟩

/-- C17.  In a reachable container whose forward traversal `l` holds the pair
`(k, v)` (at the head, in the middle, at the tail or alone),
`moveElementToTail(k)` has a result: the forward traversal is `l` with that pair
removed followed by the pair, the reverse traversal is its exact reverse, and
`size()` and all pairs (so every stored value) are the same. -/
theorem C17_moveElementToTail [DecidableEq K] [Inhabited V] (N : Nat) (hW : N < sizeWrap)
    (m : FIFOHashMap K V) (hm : Reachable N m) (k : K) (v : V) (l : List (K × V))
    (hfw : m.forward = some l) (hk : (k, v) ∈ l) :
    ∃ m1 l1 l2, l = l1 ++ (k, v) :: l2 ∧ k ∉ (l1 ++ l2).map Prod.fst ∧
      m.moveElementToTail k = some m1 ∧
      m1.forward = some (l1 ++ l2 ++ [(k, v)]) ∧
      m1.backward = some (l1 ++ l2 ++ [(k, v)]).reverse ∧
      m1.size = m.size := by
  obtain ⟨A, hr⟩ := hm.rep hW
  obtain ⟨A1, x, A2, rfl, hxe, hl⟩ := hr.split_of_forward hfw hk
  have hk1 : x.2.1 = k := by rw [hxe]
  obtain ⟨m1, h1, hr1, -⟩ := hr.moveElementToTail
  rw [hk1] at h1
  have hnot := not_mem_remove_middle (fun e : Nat × K × V => e.2.1) hr.keys
  have hmap : (A1 ++ A2 ++ [x]).map (fun e => e.2) =
      A1.map (fun e => e.2) ++ A2.map (fun e => e.2) ++ [(k, v)] := by
    rw [← hxe]
    simp
  refine ⟨m1, A1.map (fun e => e.2), A2.map (fun e => e.2), hl, ?_, h1, ?_, ?_, ?_⟩
  · rw [← List.map_append, ← Rep.keys_eq, ← hk1]
    exact hnot
  · rw [hr1.forward_eq, hmap]
  · rw [hr1.backward_eq, hmap]
  · rw [hr1.size_eq, hr.size_eq]
    simp only [List.length_append, List.length_cons, List.length_nil]
    omega

/-- C17 on `[(1,10),(2,20),(3,30)]` and the head key `1`. -/
theorem C17_witness :
    (3 < sizeWrap ∧ Reachable 3 exThree ∧
      exThree.forward = some [(1, 10), (2, 20), (3, 30)] ∧
      (1, 10) ∈ [(1, 10), (2, 20), (3, 30)]) ∧
    ∃ m1 l1 l2, [(1, 10), (2, 20), (3, 30)] = l1 ++ (1, 10) :: l2 ∧
      1 ∉ (l1 ++ l2).map Prod.fst ∧
      exThree.moveElementToTail 1 = some m1 ∧
      m1.forward = some (l1 ++ l2 ++ [(1, 10)]) ∧
      m1.backward = some (l1 ++ l2 ++ [(1, 10)]).reverse ∧
      m1.size = exThree.size :=
  ⟨⟨by decide, exThree_reachable, by decide, by decide⟩,
    C17_moveElementToTail 3 (by decide) exThree exThree_reachable 1 10
      [(1, 10), (2, 20), (3, 30)] (by decide) (by decide)⟩

/-- C18.  In a reachable container of at least two elements whose forward
traversal `l` holds the pair `(k, v)` (at the head, in the middle or at the
tail), `moveElementToHead(k)` has a result: the forward traversal is the pair
followed by `l` with that pair removed, the reverse traversal is its exact
reverse, and `size()` and all pairs (so every stored value) are the same. -/
theorem C18_moveElementToHead [DecidableEq K] [Inhabited V] (N : Nat) (hW : N < sizeWrap)
    (m : FIFOHashMap K V) (hm : Reachable N m) (htwo : 2 ≤ m.size) (k : K) (v : V)
    (l : List (K × V)) (hfw : m.forward = some l) (hk : (k, v) ∈ l) :
    ∃ m1 l1 l2, l = l1 ++ (k, v) :: l2 ∧ k ∉ (l1 ++ l2).map Prod.fst ∧
      m.moveElementToHead k = some m1 ∧
      m1.forward = some ((k, v) :: (l1 ++ l2)) ∧
      m1.backward = some ((k, v) :: (l1 ++ l2)).reverse ∧
      m1.size = m.size := by
  obtain ⟨A, hr⟩ := hm.rep hW
  obtain ⟨A1, x, A2, rfl, hxe, hl⟩ := hr.split_of_forward hfw hk
  have hk1 : x.2.1 = k := by rw [hxe]
  have hAB : A1 ++ A2 ≠ [] := by
    intro h
    have hlen : (A1 ++ A2).length = 0 := by rw [h]; rfl
    rw [hr.size_eq] at htwo
    simp only [List.length_append, List.length_cons] at htwo hlen
    omega
  obtain ⟨m1, h1, hr1, -⟩ := hr.moveElementToHead hAB
  rw [hk1] at h1
  have hnot := not_mem_remove_middle (fun e : Nat × K × V => e.2.1) hr.keys
  have hmap : (x :: (A1 ++ A2)).map (fun e => e.2) =
      (k, v) :: (A1.map (fun e => e.2) ++ A2.map (fun e => e.2)) := by
    rw [← hxe]
    simp
  refine ⟨m1, A1.map (fun e => e.2), A2.map (fun e => e.2), hl, ?_, h1, ?_, ?_, ?_⟩
  · rw [← List.map_append, ← Rep.keys_eq, ← hk1]
    exact hnot
  · rw [hr1.forward_eq, hmap]
  · rw [hr1.backward_eq, hmap]
  · rw [hr1.size_eq, hr.size_eq]
    simp only [List.length_append, List.length_cons]
    omega

/-- C18 on the scenario of the specification: `[(1,10),(2,20),(3,30)]` and
`moveElementToHead(3)`. -/
theorem C18_witness :
    (3 < sizeWrap ∧ Reachable 3 exThree ∧ 2 ≤ exThree.size ∧
      exThree.forward = some [(1, 10), (2, 20), (3, 30)] ∧
      (3, 30) ∈ [(1, 10), (2, 20), (3, 30)]) ∧
    ∃ m1 l1 l2, [(1, 10), (2, 20), (3, 30)] = l1 ++ (3, 30) :: l2 ∧
      3 ∉ (l1 ++ l2).map Prod.fst ∧
      exThree.moveElementToHead 3 = some m1 ∧
      m1.forward = some ((3, 30) :: (l1 ++ l2)) ∧
      m1.backward = some ((3, 30) :: (l1 ++ l2)).reverse ∧
      m1.size = exThree.size :=
  ⟨⟨by decide, exThree_reachable, by decide, by decide, by decide⟩,
    C18_moveElementToHead 3 (by decide) exThree exThree_reachable (by decide) 3 30
      [(1, 10), (2, 20), (3, 30)] (by decide) (by decide)⟩

/-- C19, the failing inputs.  In every reachable container whose forward
traversal is the single pair `(k, v)`, `moveElementToHead(k)` has no result:
`removeCell` clears head and tail and the next statement writes `m_prev` through
the null head. -/
theorem C19_moveElementToHead_sole_element [DecidableEq K] [Inhabited V] (N : Nat)
    (hW : N < sizeWrap) (m : FIFOHashMap K V) (hm : Reachable N m) (k : K) (v : V)
    (hfw : m.forward = some [(k, v)]) : m.moveElementToHead k = none := by
  obtain ⟨A, hr⟩ := hm.rep hW
  obtain ⟨A1, x, A2, rfl, hxe, hl⟩ := hr.split_of_forward hfw (List.mem_singleton.mpr rfl)
  have hlen := congrArg List.length hl
  simp only [List.length_append, List.length_cons, List.length_map, List.length_nil] at hlen
  have h1 : A1 = [] := List.length_eq_zero.mp (by omega)
  have h2 : A2 = [] := List.length_eq_zero.mp (by omega)
  subst h1 h2
  have hk1 : x.2.1 = k := by rw [hxe]
  rw [← hk1]
  exact Rep.moveElementToHead_single (x := x) hr

/-- C19 on the container `{(1, 10)}` of capacity 1. -/
theorem C19_witness :
    (1 < sizeWrap ∧ Reachable 1 exOne ∧ exOne.forward = some [(1, 10)]) ∧
    exOne.moveElementToHead 1 = none :=
  ⟨⟨by decide, exOne_reachable 1 (by decide), by decide⟩,
    C19_moveElementToHead_sole_element 1 (by decide) exOne (exOne_reachable 1 (by decide))
      1 10 (by decide)⟩

/-- C20.  In a reachable container (the empty one included) with forward
traversal `l`, for a key `k` that no pair of `l` has, `moveElementToTail(k)` and
`moveElementToHead(k)` return the container as it was, so `size()` and both
traversals are unchanged. -/
theorem C20_move_absent_noop [DecidableEq K] [Inhabited V] (N : Nat) (hW : N < sizeWrap)
    (m : FIFOHashMap K V) (hm : Reachable N m) (k : K) (l : List (K × V))
    (hfw : m.forward = some l) (hk : k ∉ l.map Prod.fst) :
    m.moveElementToTail k = some m ∧ m.moveElementToHead k = some m := by
  obtain ⟨A, hr⟩ := hm.rep hW
  have hf := hr.find_none (hr.absent_of_forward hfw hk)
  exact ⟨by simp only [FIFOHashMap.moveElementToTail, hf],
    by simp only [FIFOHashMap.moveElementToHead, hf]⟩

/-- C20 on `[(1,10),(2,20),(3,30)]` and the absent key `7`. -/
theorem C20_witness :
    (3 < sizeWrap ∧ Reachable 3 exThree ∧
      exThree.forward = some [(1, 10), (2, 20), (3, 30)] ∧
      7 ∉ ([(1, 10), (2, 20), (3, 30)] : List (Nat × Nat)).map Prod.fst) ∧
    (exThree.moveElementToTail 7 = some exThree ∧ exThree.moveElementToHead 7 = some exThree) :=
  ⟨⟨by decide, exThree_reachable, by decide, by decide⟩,
    C20_move_absent_noop 3 (by decide) exThree exThree_reachable 7
      [(1, 10), (2, 20), (3, 30)] (by decide) (by decide)⟩

/-! ## operator[] -/

theorem setValue_frame {m m1 : FIFOHashMap K V} {p : Ptr} {v : V}
    (h : setValue m p v = some m1) :
    m1.m_queue = m.m_queue ∧ m1.m_map = m.m_map ∧ m1.m_size = m.m_size := by
  unfold setValue at h
  cases hrc : readCell m p with
  | none => simp [hrc] at h
  | some c =>
    simp only [hrc] at h
    unfold writeCell at h
    cases p with
    | none => simp at h
    | some a =>
      simp only at h
      split at h
      · simp only [Option.some.injEq] at h
        subst h
        exact ⟨rfl, rfl, rfl⟩
      · exact Option.noConfusion h

/-- C21.  For a capacity `N ≥ 1`, a reachable container and a key `k` that
`find` does not find, `operator[](k)` and `insert(k, V{})` both have a result
and yield the same container (same eviction, traversal and size); the
reference returned by `operator[]` denotes the value of the cell the cursor of
`insert` references, which holds the key `k` and the default value. -/
theorem C21_indexAccess_like_insert [DecidableEq K] [Inhabited V] (N : Nat) (hN1 : 1 ≤ N)
    (hW : N < sizeWrap) (m : FIFOHashMap K V) (hm : Reachable N m) (k : K)
    (hk : (m.find k).eq m.end = true) :
    ∃ m1 c a, m.insert N (k, default) = some (m1, c, true) ∧
      m.indexAccess N k = some (m1, a) ∧ c.m_pCurrCell = some a ∧ c = m1.find k ∧
      c.deref m1 = some (k, default) := by
  obtain ⟨A, hr⟩ := hm.rep hW
  have hkA := hr.absent_of_find hk
  obtain ⟨m0, h0, hr0, hlen0⟩ := hr.popIfFull hN1 hW
  have hk0 : k ∉ (evicted N A).map (fun e => e.2.1) := by
    intro h
    apply hkA
    unfold evicted at h
    split at h
    · exact (List.map_tail _ A ▸ List.mem_of_mem_tail) h
    · exact h
  obtain ⟨m2, m3, h2, h3, hr3, -, htail3⟩ :=
    hr0.push (evicted_length_lt hN1 hr.cap) hW (default : V) hk0
  have hmem : (m0.heap.length, k, (default : V)) ∈
      evicted N A ++ [(m0.heap.length, k, default)] := by simp
  refine ⟨{ m3 with m_size := sizeInc m3.m_size },
    { m_pCurrCell := some m0.heap.length, m_isReverse := false }, m0.heap.length,
    ?_, ?_, rfl, (hr3.find_of_mem hmem).symm, hr3.deref_mem hmem _ rfl⟩
  · simp only [FIFOHashMap.insert, hr.find_none hkA, h0, h2, h3, htail3]
  · simp only [FIFOHashMap.indexAccess, hr.find_none hkA, h0, h2, h3]

/-- C21 on the full container `[(1,10),(2,20),(3,30)]` of capacity 3 and the
unseen key `4`. -/
theorem C21_witness :
    (1 ≤ 3 ∧ 3 < sizeWrap ∧ Reachable 3 exThree ∧ (exThree.find 4).eq exThree.end = true) ∧
    ∃ m1 c a, exThree.insert 3 (4, default) = some (m1, c, true) ∧
      exThree.indexAccess 3 4 = some (m1, a) ∧ c.m_pCurrCell = some a ∧ c = m1.find 4 ∧
      c.deref m1 = some (4, default) :=
  ⟨⟨by decide, by decide, exThree_reachable, by decide⟩,
    C21_indexAccess_like_insert 3 (by decide) (by decide) exThree exThree_reachable 4
      (by decide)⟩

/-- C22.  In a reachable container whose forward traversal `l` holds the pair
`(k, v)`, `operator[](k)` returns a reference to the value `v` of the cell
`find(k)` references and leaves the container as it was; assigning `v1` through
that reference changes that pair to `(k, v1)` in place: the pairs before and
after it, the queue (head and tail) and `size()` are the same, so the key is
not moved and the head that an eviction removes is the same. -/
theorem C22_indexAccess_existing [DecidableEq K] [Inhabited V] (N : Nat) (hW : N < sizeWrap)
    (m : FIFOHashMap K V) (hm : Reachable N m) (k : K) (v : V) (l : List (K × V))
    (hfw : m.forward = some l) (hk : (k, v) ∈ l) :
    ∃ a l1 l2, m.indexAccess N k = some (m, a) ∧
      (m.find k).m_pCurrCell = some a ∧
      FIFOHashMapIterator.deref m { m_pCurrCell := some a, m_isReverse := false } =
        some (k, v) ∧
      l = l1 ++ (k, v) :: l2 ∧
      ∀ v1, ∃ m1, setValue m (some a) v1 = some m1 ∧
        m1.forward = some (l1 ++ (k, v1) :: l2) ∧ m1.size = m.size ∧
        m1.m_queue = m.m_queue ∧ m1.begin = m.begin := by
  obtain ⟨A, hr⟩ := hm.rep hW
  obtain ⟨A1, x, A2, rfl, hxe, hl⟩ := hr.split_of_forward hfw hk
  have hk1 : x.2.1 = k := by rw [hxe]
  have hx : x ∈ A1 ++ x :: A2 := by simp
  have hia := hr.indexAccess_old (N := N) hx
  rw [hk1] at hia
  have hf := hr.find_of_mem hx
  rw [hk1] at hf
  refine ⟨x.1, A1.map (fun e => e.2), A2.map (fun e => e.2), hia, by rw [hf], ?_, hl, ?_⟩
  · rw [hr.deref_mem hx _ rfl, hxe]
  · intro v1
    obtain ⟨m1, h1, hr1, -⟩ := hr.setValue v1
    obtain ⟨hq, -, hs⟩ := setValue_frame h1
    refine ⟨m1, h1, ?_, hs, hq, ?_⟩
    · rw [hr1.forward_eq, ← hk1]
      simp
    · simp only [FIFOHashMap.begin, hq]

/-- C22 on `[(1,10),(2,20),(3,30)]` and the key `1` at the head. -/
theorem C22_witness :
    (3 < sizeWrap ∧ Reachable 3 exThree ∧
      exThree.forward = some [(1, 10), (2, 20), (3, 30)] ∧
      (1, 10) ∈ [(1, 10), (2, 20), (3, 30)]) ∧
    ∃ a l1 l2, exThree.indexAccess 3 1 = some (exThree, a) ∧
      (exThree.find 1).m_pCurrCell = some a ∧
      FIFOHashMapIterator.deref exThree { m_pCurrCell := some a, m_isReverse := false } =
        some (1, 10) ∧
      [(1, 10), (2, 20), (3, 30)] = l1 ++ (1, 10) :: l2 ∧
      ∀ v1, ∃ m1, setValue exThree (some a) v1 = some m1 ∧
        m1.forward = some (l1 ++ (1, v1) :: l2) ∧ m1.size = exThree.size ∧
        m1.m_queue = exThree.m_queue ∧ m1.begin = exThree.begin :=
  ⟨⟨by decide, exThree_reachable, by decide, by decide⟩,
    C22_indexAccess_existing 3 (by decide) exThree exThree_reachable 1 10
      [(1, 10), (2, 20), (3, 30)] (by decide) (by decide)⟩

/-! ## Construction from a list -/

theorem Rep.insert_old [DecidableEq K] {N : Nat} {m : FIFOHashMap K V}
    {A : List (Nat × K × V)} (hr : Rep N m A) {x : Nat × K × V} (hx : x ∈ A) (v : V) :
    m.insert N (x.2.1, v) =
      some (m, { m_pCurrCell := some x.1, m_isReverse := false }, false) := by
  simp only [FIFOHashMap.insert, hr.find_mem hx]

theorem Rep.init_vs_insert [DecidableEq K] {N : Nat} (hN1 : 1 ≤ N) (hN : N < sizeWrap)
    (L : List (K × V)) :
    ∀ {mc mi : FIFOHashMap K V} {A : List (Nat × K × V)}, Rep N mc A → Rep N mi A →
      mc.heap.length = mi.heap.length →
      ∃ rc ri A1, FIFOHashMap.initLoop N mc L = some rc ∧ FIFO.insertAll N mi L = some ri ∧
        Rep N rc A1 ∧ Rep N ri A1 := by
  induction L with
  | nil => exact fun {mc mi A} hc hi _ => ⟨mc, mi, A, rfl, rfl, hc, hi⟩
  | cons p rest ih =>
    intro mc mi A hc hi hlen
    by_cases hk : p.1 ∈ A.map (fun e => e.2.1)
    · have h1 := hc.initStep_old p.2 hk
      obtain ⟨x, hx, hxk⟩ := List.mem_map.mp hk
      have h2 := hi.insert_old hx p.2
      rw [hxk] at h2
      obtain ⟨rc, ri, A1, h3, h4, hrc, hri⟩ := ih hc hi hlen
      refine ⟨rc, ri, A1, ?_, ?_, hrc, hri⟩
      · simp only [FIFOHashMap.initLoop, h1, h3]
      · have h2a : mi.insert N p = _ := h2
        simp only [FIFO.insertAll, h2a, h4]
    · obtain ⟨mc1, h1, hc1, hl1⟩ := hc.initStep_new hN1 hN p.2 hk
      obtain ⟨mi1, h2, hi1, hl2⟩ := hi.insert_new hN1 hN p.2 hk
      rw [← hlen] at hi1
      obtain ⟨rc, ri, A1, h3, h4, hrc, hri⟩ := ih hc1 hi1 (by rw [hl1, hl2, hlen])
      refine ⟨rc, ri, A1, ?_, ?_, hrc, hri⟩
      · have h1a : mc.initStep N p = _ := h1
        simp only [FIFOHashMap.initLoop, h1a, h3]
      · have h2a : mi.insert N p = _ := h2
        simp only [FIFO.insertAll, h2a, h4]

/-- C23.  For a capacity `N ≥ 1` and every list `L` of pairs (duplicate keys
allowed, any length), the constructor from `L` and the calls of `insert` with
each pair of `L` in order on the empty container both have a result, and the
two containers have the same `size()`, the same forward traversal and the same
reverse traversal. -/
theorem C23_list_construction_is_repeated_insert [DecidableEq K] (N : Nat) (hN1 : 1 ≤ N)
    (hW : N < sizeWrap) (L : List (K × V)) :
    ∃ mc mi l, FIFOHashMap.ofInitList N L = some mc ∧
      insertAll N (FIFOHashMap.empty : FIFOHashMap K V) L = some mi ∧
      mc.size = mi.size ∧ mc.forward = some l ∧ mi.forward = some l ∧
      mc.backward = some l.reverse ∧ mi.backward = some l.reverse := by
  obtain ⟨rc, ri, A1, h1, h2, hrc, hri⟩ :=
    Rep.init_vs_insert hN1 hW L (Rep.empty (K := K) (V := V) N) (Rep.empty N) rfl
  exact ⟨rc, ri, _, h1, h2, by rw [hrc.size_eq, hri.size_eq], hrc.forward_eq, hri.forward_eq,
    hrc.backward_eq, hri.backward_eq⟩

/-- C23 at capacity 2 on a list with a repeated key and an eviction. -/
theorem C23_witness :
    (1 ≤ 2 ∧ 2 < sizeWrap) ∧
    ∃ mc mi l, FIFOHashMap.ofInitList 2 [(1, 10), (2, 20), (1, 30), (3, 40)] = some mc ∧
      insertAll 2 (FIFOHashMap.empty : FIFOHashMap Nat Nat)
        [(1, 10), (2, 20), (1, 30), (3, 40)] = some mi ∧
      mc.size = mi.size ∧ mc.forward = some l ∧ mi.forward = some l ∧
      mc.backward = some l.reverse ∧ mi.backward = some l.reverse :=
  ⟨⟨by decide, by decide⟩,
    C23_list_construction_is_repeated_insert 2 (by decide) (by decide)
      [(1, 10), (2, 20), (1, 30), (3, 40)]⟩

theorem lastN_of_le {α : Type} {N : Nat} {l : List α} (h : l.length ≤ N) : lastN N l = l := by
  unfold lastN
  rw [Nat.sub_eq_zero_of_le h]
  rfl

theorem lastN_length {α : Type} (N : Nat) (l : List α) :
    (lastN N l).length = min l.length N := by
  unfold lastN
  rw [List.length_drop]
  omega

theorem lastN_concat_full {α : Type} {N : Nat} (hN1 : 1 ≤ N) {l : List α} (p : α)
    (h : N ≤ l.length) : lastN N (l ++ [p]) = (lastN N l).tail ++ [p] := by
  unfold lastN
  have e : (l ++ [p]).length - N = l.length - N + 1 := by
    simp only [List.length_append, List.length_singleton]
    omega
  rw [e, List.tail_drop, List.drop_append_of_le_length (by omega)]

theorem lastN_concat_short {α : Type} {N : Nat} {l : List α} (p : α)
    (h : l.length < N) : lastN N (l ++ [p]) = lastN N l ++ [p] := by
  rw [lastN_of_le (by simp only [List.length_append, List.length_singleton]; omega),
    lastN_of_le (by omega)]

theorem Rep.initLoop_admitted [DecidableEq K] {N : Nat} (hN1 : 1 ≤ N) (hN : N < sizeWrap)
    (L : List (K × V)) :
    ∀ {m : FIFOHashMap K V} {A : List (Nat × K × V)} {kept : List (K × V)}, Rep N m A →
      A.map (fun x => x.2) = lastN N kept →
      ∃ m1 A1, FIFOHashMap.initLoop N m L = some m1 ∧ Rep N m1 A1 ∧
        A1.map (fun x => x.2) = lastN N (admittedFrom N kept L) := by
  induction L with
  | nil => exact fun {m A kept} hr hA => ⟨m, A, rfl, hr, hA⟩
  | cons p rest ih =>
    intro m A kept hr hA
    have hkeys : A.map (fun e => e.2.1) = (lastN N kept).map Prod.fst := by
      rw [Rep.keys_eq, hA]
    by_cases hk : p.1 ∈ A.map (fun e => e.2.1)
    · have h1 := hr.initStep_old p.2 hk
      obtain ⟨m2, A2, h2, hr2, hA2⟩ := ih hr hA
      refine ⟨m2, A2, by simp only [FIFOHashMap.initLoop, h1, h2], hr2, ?_⟩
      rw [hA2]
      rw [hkeys] at hk
      simp only [admittedFrom, if_pos hk]
    · obtain ⟨m1, h1, hr1, -⟩ := hr.initStep_new hN1 hN p.2 hk
      have hlenA : A.length = min kept.length N := by
        have := congrArg List.length hA
        rw [List.length_map, lastN_length] at this
        exact this
      have hA1 : (evicted N A ++ [(m.heap.length, p.1, p.2)]).map (fun x => x.2) =
          lastN N (kept ++ [p]) := by
        unfold evicted
        by_cases hfull : N ≤ A.length
        · rw [if_pos hfull, lastN_concat_full hN1 p (by omega), ← hA]
          simp [List.map_tail]
        · rw [if_neg hfull, lastN_concat_short p (by omega), ← hA]
          simp
      obtain ⟨m2, A2, h2, hr2, hA2⟩ := ih hr1 hA1
      have h1a : m.initStep N p = _ := h1
      refine ⟨m2, A2, by simp only [FIFOHashMap.initLoop, h1a, h2], hr2, ?_⟩
      rw [hA2]
      rw [hkeys] at hk
      simp only [admittedFrom, if_neg hk]

theorem firstOccFrom_length_le [DecidableEq K] (L : List (K × V)) :
    ∀ seen : List (K × V), seen.length ≤ (firstOccFrom seen L).length := by
  induction L with
  | nil => exact fun seen => Nat.le_refl _
  | cons p rest ih =>
    intro seen
    unfold firstOccFrom
    split
    · exact ih seen
    · have := ih (seen ++ [p])
      simp only [List.length_append, List.length_singleton] at this
      omega

theorem admitted_eq_firstOcc [DecidableEq K] {N : Nat} (L : List (K × V)) :
    ∀ kept : List (K × V), (firstOccFrom kept L).length ≤ N →
      admittedFrom N kept L = firstOccFrom kept L := by
  induction L with
  | nil => exact fun kept _ => rfl
  | cons p rest ih =>
    intro kept h
    have hkl : kept.length ≤ N := Nat.le_trans (firstOccFrom_length_le _ kept) h
    unfold admittedFrom firstOccFrom
    rw [lastN_of_le hkl]
    unfold firstOccFrom at h
    split
    · rename_i hmem
      rw [if_pos hmem] at h
      exact ih kept h
    · rename_i hmem
      rw [if_neg hmem] at h
      exact ih (kept ++ [p]) h

/-- C24, as amended.  For a capacity `N ≥ 1` and every list `L` of pairs, the
constructor from `L` has a result whose forward traversal is the last `N` pairs
of the list obtained from `L` by keeping a pair only when its key is not among
the last `N` pairs kept so far (a key whose pair has been evicted is admitted
again); when the first-occurrence list of `L` has at most `N` pairs it is the
last `N` pairs of that list, which are all of them. -/
theorem C24_survivors_amended [DecidableEq K] (N : Nat) (hN1 : 1 ≤ N) (hW : N < sizeWrap)
    (L : List (K × V)) :
    ∃ m, FIFOHashMap.ofInitList N L = some m ∧
      m.forward = some (lastN N (admittedFrom N [] L)) ∧
      ((firstOccFrom [] L).length ≤ N →
        m.forward = some (lastN N (firstOccFrom [] L)) ∧
        lastN N (firstOccFrom [] L) = firstOccFrom [] L) := by
  obtain ⟨m1, A1, h1, hr1, hA1⟩ :=
    Rep.initLoop_admitted hN1 hW L (Rep.empty (K := K) (V := V) N)
      (show ([] : List (Nat × K × V)).map (fun x => x.2) = lastN N [] by simp [lastN])
  refine ⟨m1, h1, by rw [hr1.forward_eq, hA1], ?_⟩
  intro h
  rw [hr1.forward_eq, hA1, admitted_eq_firstOcc L [] h]
  exact ⟨rfl, lastN_of_le h⟩

/-- C24, the claim as stated fails at capacity 1 on the list
`{(1,10), (2,20), (1,30)}`: key 1 is evicted by `(2,20)` and admitted again, so
the traversal of the constructed container is `[(1,30)]`, while the last pair of
the first-occurrence list `[(1,10), (2,20)]` is `(2,20)`. -/
theorem C24_counterexample :
    FIFOHashMap.ofInitList 1 [(1, 10), (2, 20), (1, 30)] = some exOneAgain ∧
    exOneAgain.forward = some [(1, 30)] ∧
    firstOccFrom [] [(1, 10), (2, 20), (1, 30)] = [(1, 10), (2, 20)] ∧
    lastN 1 (firstOccFrom [] [(1, 10), (2, 20), (1, 30)]) = [(2, 20)] := by
  have h1 : (FIFOHashMap.empty : FIFOHashMap Nat Nat).initStep 1 (1, 10) = some exOne := by
    decide
  have h2 : exOne.initStep 1 (2, 20) = some exOneNext := by decide
  have h3 : exOneNext.initStep 1 (1, 30) = some exOneAgain := by decide
  refine ⟨?_, by decide, by decide, by decide⟩
  simp only [FIFOHashMap.ofInitList, FIFOHashMap.initLoop, h1, h2, h3]

/-- C24, the amended claim at capacity 1 on `{(1,10), (2,20), (1,30)}`. -/
theorem C24_witness :
    (1 ≤ 1 ∧ 1 < sizeWrap) ∧
    ∃ m, FIFOHashMap.ofInitList 1 [(1, 10), (2, 20), (1, 30)] = some m ∧
      m.forward = some (lastN 1 (admittedFrom 1 [] [(1, 10), (2, 20), (1, 30)])) ∧
      ((firstOccFrom [] [(1, 10), (2, 20), (1, 30)]).length ≤ 1 →
        m.forward = some (lastN 1 (firstOccFrom [] [(1, 10), (2, 20), (1, 30)])) ∧
        lastN 1 (firstOccFrom [] [(1, 10), (2, 20), (1, 30)]) =
          firstOccFrom [] [(1, 10), (2, 20), (1, 30)]) :=
  ⟨⟨by decide, by decide⟩,
    C24_survivors_amended 1 (by decide) (by decide) [(1, 10), (2, 20), (1, 30)]⟩

/-! ## removeCell, mirrored traversals, guarded eviction, post-increment, insert -/

theorem nextPtr_none_iff {A : List (Nat × K × V)} : nextPtr none A = none ↔ A = [] := by
  cases A <;> simp [nextPtr]

theorem Chain.cell_at {m : FIFOHashMap K V} {A B : List (Nat × K × V)} {x : Nat × K × V}
    (hc : Chain m (A ++ x :: B)) :
    m.heap[x.1]? = some (some { m_key := x.2.1, m_value := x.2.2, m_next := nextPtr none B,
                                m_prev := lastPtr none A }) ∧
      nextPtr none B ≠ some x.1 ∧ lastPtr none A ≠ some x.1 ∧
      (lastPtr none A = nextPtr none B ↔ A = [] ∧ B = []) := by
  have hx := (Seg_append.mp hc.seg).2.1
  have hnd := hc.nodup
  simp only [List.map_append, List.map_cons] at hnd
  rw [List.nodup_append] at hnd
  obtain ⟨-, hnxB, hdis⟩ := hnd
  have hxA : x.1 ∉ A.map (fun e => e.1) := fun h => hdis h (by simp)
  have hxB : x.1 ∉ B.map (fun e => e.1) := (List.nodup_cons.mp hnxB).1
  refine ⟨hx, ?_, ?_, ?_, ?_⟩
  · intro h
    rcases nextPtr_eq_some h with h1 | h1
    · exact Option.noConfusion h1
    · exact hxB h1
  · intro h
    rcases lastPtr_eq_some h with h1 | h1
    · exact Option.noConfusion h1
    · exact hxA h1
  · intro h
    cases B with
    | nil => exact ⟨lastPtr_none_iff.mp h, rfl⟩
    | cons z B0 =>
      exfalso
      rcases lastPtr_eq_some (a := z.1) h with h1 | h1
      · exact Option.noConfusion h1
      · exact hdis h1 (by simp)
  · rintro ⟨rfl, rfl⟩
    rfl

/-- C25.  For a well-formed queue (the cells of the chain `A ++ x :: B` are
linked from head to tail by `m_next` and back by `m_prev`, with no cell
repeated, the head without `m_prev` and the tail without `m_next`) and the cell
`x` in it, in whatever position, `removeCell` has a result: a well-formed queue
whose chain is `A ++ B`, the old chain with `x` removed, seen also by both
traversals; and the test `previousCell == nextCell` holds exactly when `x` is
the sole element. -/
theorem C25_removeCell_unlinks_one (m : FIFOHashMap K V) (A B : List (Nat × K × V))
    (x : Nat × K × V) (hc : Chain m (A ++ x :: B)) :
    ∃ m1 c, removeCell m (some x.1) = some m1 ∧ Chain m1 (A ++ B) ∧
      m.forward = some ((A ++ x :: B).map (fun e => e.2)) ∧
      m1.forward = some ((A ++ B).map (fun e => e.2)) ∧
      m1.backward = some (((A ++ B).map (fun e => e.2)).reverse) ∧
      readCell m (some x.1) = some c ∧ (c.m_prev = c.m_next ↔ A = [] ∧ B = []) := by
  obtain ⟨m1, h1, hc1, -⟩ := hc.removeCell
  obtain ⟨hx, -, -, hiff⟩ := hc.cell_at
  have hrc : readCell m (some x.1) =
      some ⟨x.2.1, x.2.2, nextPtr none B, lastPtr none A⟩ := by
    simp only [readCell, hx]
  exact ⟨m1, _, h1, hc1, hc.forward, hc1.forward, hc1.backward, hrc, hiff⟩

theorem exThree_chain : Chain exThree ([(0, 1, 10)] ++ (1, 2, 20) :: [(2, 3, 30)]) :=
  ⟨⟨by decide, by decide, by decide, trivial⟩, by decide, by decide, by decide⟩

/-- C25 on the queue of `[(1,10),(2,20),(3,30)]` and its interior cell. -/
theorem C25_witness :
    Chain exThree ([(0, 1, 10)] ++ (1, 2, 20) :: [(2, 3, 30)]) ∧
    ∃ m1 c, removeCell exThree (some 1) = some m1 ∧
      Chain m1 ([(0, 1, 10)] ++ [(2, 3, 30)]) ∧
      exThree.forward =
        some (([(0, 1, 10)] ++ (1, 2, 20) :: [(2, 3, 30)]).map
          (fun e : Nat × Nat × Nat => e.2)) ∧
      m1.forward = some (([(0, 1, 10)] ++ [(2, 3, 30)]).map
        (fun e : Nat × Nat × Nat => e.2)) ∧
      m1.backward = some ((([(0, 1, 10)] ++ [(2, 3, 30)]).map
        (fun e : Nat × Nat × Nat => e.2)).reverse) ∧
      readCell exThree (some 1) = some c ∧
      (c.m_prev = c.m_next ↔
        ([(0, 1, 10)] : List (Nat × Nat × Nat)) = [] ∧
          ([(2, 3, 30)] : List (Nat × Nat × Nat)) = []) :=
  ⟨exThree_chain,
    C25_removeCell_unlinks_one exThree [(0, 1, 10)] [(2, 3, 30)] (1, 2, 20) exThree_chain⟩

/-- C26.  In every reachable container the reverse traversal (`rbegin()` to
`rend()`) is exactly the reverse of the forward traversal (`begin()` to
`end()`), both traversals end, and both have `size()` pairs. -/
theorem C26_traversals_mirror [DecidableEq K] [Inhabited V] (N : Nat) (hW : N < sizeWrap)
    (m : FIFOHashMap K V) (hm : Reachable N m) :
    ∃ l, m.forward = some l ∧ m.backward = some l.reverse ∧ l.length = m.size ∧
      l.reverse.length = m.size := by
  obtain ⟨A, hr⟩ := hm.rep hW
  refine ⟨_, hr.forward_eq, hr.backward_eq, ?_, ?_⟩
  · rw [hr.size_eq, List.length_map]
  · rw [hr.size_eq, List.length_reverse, List.length_map]

/-- C26 on `[(1,10),(2,20),(3,30)]`. -/
theorem C26_witness :
    (3 < sizeWrap ∧ Reachable 3 exThree) ∧
    ∃ l, exThree.forward = some l ∧ exThree.backward = some l.reverse ∧
      l.length = exThree.size ∧ l.reverse.length = exThree.size :=
  ⟨⟨by decide, exThree_reachable⟩, C26_traversals_mirror 3 (by decide) exThree exThree_reachable⟩

/-- C27.  For a capacity `N ≥ 1` and a reachable container with `size() ≥ N`
(the states in which `insert`, `operator[]` and the list constructor call
`pop()`), the queue head is present and `pop()` has a result, on the container
itself (`insert`, `operator[]`) and on the container after the table `emplace`
of any key (the list constructor pops after `emplace`), and the list constructor
has a result for every list.  For `N = 0` the empty
container has no head, `pop()` has no result on it and neither has `insert` of
any pair. -/
theorem C27_eviction_pops_nonempty [DecidableEq K] [Inhabited V] (N : Nat) (hN1 : 1 ≤ N)
    (hW : N < sizeWrap) (m : FIFOHashMap K V) (hm : Reachable N m) (hfull : N ≤ m.size) :
    (m.m_queue.m_pHead ≠ none ∧
      (∃ m1, m.pop = some m1 ∧ m.popIfFull N = some m1) ∧
      (∀ (k : K) (cell : FIFOHashMapCell K V),
        (emplace m k cell).1.m_queue.m_pHead ≠ none ∧
        ∃ m2, (emplace m k cell).1.pop = some m2 ∧
          (emplace m k cell).1.popIfFull N = some m2)) ∧
    (∀ L : List (K × V), ∃ mc, FIFOHashMap.ofInitList N L = some mc) ∧
    (∀ (k : K) (v : V),
      (FIFOHashMap.empty : FIFOHashMap K V).m_queue.m_pHead = none ∧
      (FIFOHashMap.empty : FIFOHashMap K V).pop = none ∧
      (FIFOHashMap.empty : FIFOHashMap K V).insert 0 (k, v) = none) := by
  obtain ⟨A, hr⟩ := hm.rep hW
  have hsize : m.m_size = A.length := hr.size
  have hfull1 : N ≤ m.m_size := hfull
  refine ⟨?_, ?_, ?_⟩
  · cases A with
    | nil =>
      simp only [List.length_nil] at hsize
      omega
    | cons x B =>
      have hhead : m.m_queue.m_pHead = some x.1 := hr.chain.head
      have hfind := hr.find_mem (List.mem_cons_self x B)
      obtain ⟨m1, h1, -⟩ := hr.chain.pop hfind
      refine ⟨by rw [hhead]; simp, ⟨m1, h1, ?_⟩, ?_⟩
      · unfold FIFOHashMap.popIfFull
        rw [if_pos hfull1]
        exact h1
      · intro k cell
        have hc2 : Chain (emplace m k cell).1 (x :: B) ∧
            (emplace m k cell).1.m_size = m.m_size ∧
            tableFind (emplace m k cell).1.m_map x.2.1 = some x.1 := by
          unfold emplace
          cases hf : tableFind m.m_map k with
          | some a => exact ⟨hr.chain, rfl, hfind⟩
          | none =>
            refine ⟨hr.chain.append_heap cell rfl rfl, rfl, ?_⟩
            have hkx : k ≠ x.2.1 := by
              rintro rfl
              rw [hf] at hfind
              exact Option.noConfusion hfind
            show tableFind ((k, m.heap.length) :: m.m_map) x.2.1 = some x.1
            simpa [tableFind, hkx] using hfind
        have hhead2 : (emplace m k cell).1.m_queue.m_pHead = some x.1 := hc2.1.head
        obtain ⟨m2, h2, -⟩ := hc2.1.pop hc2.2.2
        refine ⟨by rw [hhead2]; simp, m2, h2, ?_⟩
        unfold FIFOHashMap.popIfFull
        rw [if_pos (by rw [hc2.2.1]; exact hfull1)]
        exact h2
  · intro L
    obtain ⟨mc, A1, h1, -⟩ := Rep.initLoop hN1 hW L (Rep.empty (K := K) (V := V) N)
    exact ⟨mc, h1⟩
  · intro k v
    refine ⟨rfl, ?_, ?_⟩
    · simp [FIFOHashMap.pop, FIFOHashMap.empty, readCell]
    · simp [FIFOHashMap.insert, FIFOHashMap.empty, tableFind, FIFOHashMap.popIfFull,
        FIFOHashMap.pop, readCell]

/-- C27 on the full container `[(1,10),(2,20),(3,30)]` of capacity 3. -/
theorem C27_witness :
    (1 ≤ 3 ∧ 3 < sizeWrap ∧ Reachable 3 exThree ∧ 3 ≤ exThree.size) ∧
    ((exThree.m_queue.m_pHead ≠ none ∧
      (∃ m1, exThree.pop = some m1 ∧ exThree.popIfFull 3 = some m1) ∧
      (∀ (k : Nat) (cell : FIFOHashMapCell Nat Nat),
        (emplace exThree k cell).1.m_queue.m_pHead ≠ none ∧
        ∃ m2, (emplace exThree k cell).1.pop = some m2 ∧
          (emplace exThree k cell).1.popIfFull 3 = some m2)) ∧
    (∀ L : List (Nat × Nat), ∃ mc, FIFOHashMap.ofInitList 3 L = some mc) ∧
    (∀ (k : Nat) (v : Nat),
      (FIFOHashMap.empty : FIFOHashMap Nat Nat).m_queue.m_pHead = none ∧
      (FIFOHashMap.empty : FIFOHashMap Nat Nat).pop = none ∧
      (FIFOHashMap.empty : FIFOHashMap Nat Nat).insert 0 (k, v) = none)) :=
  ⟨⟨by decide, by decide, exThree_reachable, by decide⟩,
    C27_eviction_pops_nonempty 3 (by decide) (by decide) exThree exThree_reachable
      (by decide)⟩

/-- C28.  In a reachable container, for a cursor `it` of either direction that
references an element, `++it` and `--it` have a result, the value of `it++` is
the value of `++it`, the cursor after advancing (which `it` itself also is
afterwards), the value of `it--` is the value of `--it`, and neither is the
position held before the call. -/
theorem C28_post_increment_returns_advanced [DecidableEq K] [Inhabited V] (N : Nat)
    (hW : N < sizeWrap) (m : FIFOHashMap K V) (hm : Reachable N m) (it : FIFOHashMapIterator)
    (hown : m.ownsCursor it) (hne : it.ne m.end = true) :
    ∃ a b, it.inc m = some a ∧ it.postInc m = some (a, a) ∧
      it.dec m = some b ∧ it.postDec m = some (b, b) ∧
      a.m_pCurrCell ≠ it.m_pCurrCell ∧ b.m_pCurrCell ≠ it.m_pCurrCell := by
  obtain ⟨A, hr⟩ := hm.rep hW
  have hne1 : it.m_pCurrCell ≠ none := by
    simpa [FIFOHashMapIterator.ne, FIFOHashMap.end] using hne
  obtain ⟨A1, x, A2, rfl, hpos⟩ := hr.owned_cursor hown hne1
  obtain ⟨hx, hnx, hpv, -⟩ := hr.chain.cell_at
  have hrc : readCell m it.m_pCurrCell =
      some ⟨x.2.1, x.2.2, nextPtr none A2, lastPtr none A1⟩ := by
    rw [hpos]
    simp only [readCell, hx]
  by_cases hrev : it.m_isReverse = false
  · refine ⟨{ it with m_pCurrCell := nextPtr none A2 },
      { it with m_pCurrCell := lastPtr none A1 }, ?_, ?_, ?_, ?_, ?_, ?_⟩
    · simp only [FIFOHashMapIterator.inc, hrc, if_pos hrev]
    · simp only [FIFOHashMapIterator.postInc, FIFOHashMapIterator.inc, hrc, if_pos hrev]
    · simp only [FIFOHashMapIterator.dec, hrc, if_pos hrev]
    · simp only [FIFOHashMapIterator.postDec, FIFOHashMapIterator.dec, hrc, if_pos hrev]
    · rw [hpos]
      exact hnx
    · rw [hpos]
      exact hpv
  · refine ⟨{ it with m_pCurrCell := lastPtr none A1 },
      { it with m_pCurrCell := nextPtr none A2 }, ?_, ?_, ?_, ?_, ?_, ?_⟩
    · simp only [FIFOHashMapIterator.inc, hrc, if_neg hrev]
    · simp only [FIFOHashMapIterator.postInc, FIFOHashMapIterator.inc, hrc, if_neg hrev]
    · simp only [FIFOHashMapIterator.dec, hrc, if_neg hrev]
    · simp only [FIFOHashMapIterator.postDec, FIFOHashMapIterator.dec, hrc, if_neg hrev]
    · rw [hpos]
      exact hpv
    · rw [hpos]
      exact hnx

/-- C28 on `[(1,10),(2,20),(3,30)]` and the cursor `find(2)`. -/
theorem C28_witness :
    (3 < sizeWrap ∧ Reachable 3 exThree ∧ exThree.ownsCursor (exThree.find 2) ∧
      (exThree.find 2).ne exThree.end = true) ∧
    ∃ a b, (exThree.find 2).inc exThree = some a ∧
      (exThree.find 2).postInc exThree = some (a, a) ∧
      (exThree.find 2).dec exThree = some b ∧
      (exThree.find 2).postDec exThree = some (b, b) ∧
      a.m_pCurrCell ≠ (exThree.find 2).m_pCurrCell ∧
      b.m_pCurrCell ≠ (exThree.find 2).m_pCurrCell :=
  ⟨⟨by decide, exThree_reachable, Or.inr ⟨(2, 1), by decide, by decide⟩, by decide⟩,
    C28_post_increment_returns_advanced 3 (by decide) exThree exThree_reachable
      (exThree.find 2) (Or.inr ⟨(2, 1), by decide, by decide⟩) (by decide)⟩

/-- C29.  For a capacity `N ≥ 1`, a reachable container and a pair `(k, v)`,
`insert` has a result `(c, b)`; the cursor `c` is never equal to `end()`, so
the fallback `(end(), false)` is not returned, and `b` is `false` exactly when
`find(k)` found `k` before the call (when it did not, the `emplace` succeeds
and `b` is `true`). -/
theorem C29_insert_fallback_unreachable [DecidableEq K] [Inhabited V] (N : Nat)
    (hN1 : 1 ≤ N) (hW : N < sizeWrap) (m : FIFOHashMap K V) (hm : Reachable N m)
    (k : K) (v : V) :
    ∃ m1 c b, m.insert N (k, v) = some (m1, c, b) ∧ c.ne m1.end = true ∧
      (b = false ↔ (m.find k).ne m.end = true) ∧
      (b = true ↔ (m.find k).eq m.end = true) := by
  obtain ⟨A, hr⟩ := hm.rep hW
  by_cases hk : k ∈ A.map (fun e => e.2.1)
  · obtain ⟨x, hx, hxk⟩ := List.mem_map.mp hk
    have h1 := hr.insert_old hx v
    rw [hxk] at h1
    have hf := hr.find_of_mem hx
    rw [hxk] at hf
    refine ⟨m, _, false, h1, ?_, ?_, ?_⟩
    · simp [FIFOHashMapIterator.ne, FIFOHashMap.end]
    · rw [hf]
      simp [FIFOHashMapIterator.ne, FIFOHashMap.end]
    · rw [hf]
      simp [FIFOHashMapIterator.eq, FIFOHashMap.end]
  · obtain ⟨m1, h1, -, -⟩ := hr.insert_new hN1 hW v hk
    have hf := hr.find_absent hk
    refine ⟨m1, _, true, h1, ?_, ?_, ?_⟩
    · simp [FIFOHashMapIterator.ne, FIFOHashMap.end]
    · rw [hf]
      simp [FIFOHashMapIterator.ne, FIFOHashMap.end]
    · rw [hf]
      simp [FIFOHashMapIterator.eq, FIFOHashMap.end]

/-- C29 on the full container `[(1,10),(2,20),(3,30)]` and the pair `(4, 40)`. -/
theorem C29_witness :
    (1 ≤ 3 ∧ 3 < sizeWrap ∧ Reachable 3 exThree) ∧
    ∃ m1 c b, exThree.insert 3 (4, 40) = some (m1, c, b) ∧ c.ne m1.end = true ∧
      (b = false ↔ (exThree.find 4).ne exThree.end = true) ∧
      (b = true ↔ (exThree.find 4).eq exThree.end = true) :=
  ⟨⟨by decide, by decide, exThree_reachable⟩,
    C29_insert_fallback_unreachable 3 (by decide) (by decide) exThree exThree_reachable 4 40⟩

end FIFO
